import Mathlib

/-!
# Inquiry chat worker: flow engine, parsers and retrievers

A shallow embedding of the conversational core of `worker.js` (and the sheet
handlers of `gas_full.js`), followed by theorems about it.

Conventions of the embedding.

* A JavaScript string is the list of its UTF-16 code units; a code unit is
  written as a `Char` (text of the Basic Multilingual Plane: ASCII, kana,
  kanji, full-width forms).  `length`, `slice`, `includes`, `endsWith` are the
  list operations.
* `toLowerCase` folds the ASCII letters `A`..`Z` and the full-width Latin
  letters `Ａ`..`Ｚ`, the cased letters of the clinic's Japanese text, and
  leaves every other code unit unchanged (kana, kanji, digits and punctuation
  have no case; the cased letters of other scripts, such as Greek, Cyrillic
  or accented Latin, are outside the embedding); `toUpperCase` is its mirror
  image.
* `trim` and the regular-expression class `\s` use the ECMAScript white-space
  and line-terminator code points; `\d` is `0`..`9`.
* A JSON value received from the caller is a `JVal`.  A number is a finite
  decimal `mant / 10 ^ scale` (every finite double is one).  Comparison with
  a whole number is exact, as it is in the worker.  `JNum.addInt` is the exact
  sum; the worker adds doubles, and the two agree whenever the exact sum is a
  double: for `idx - 1` and `idx++` inside `advanceSteps` at every finite
  `idx` of at least 1, and for `flow.step + 1` at every whole step and at a
  step such as `1.5`.  At a step such as `1.0000000000000002` the worker's sum
  rounds to the whole number `2`, which the exact sum does not; statements
  about `flow.step + 1` that need the agreement take a whole step.
* A JavaScript object is an association list with distinct keys, read with
  `List.lookup`; a property absent from the list is `undefined` (`none`).
* The slot mapping of a `Flow` is a plain object.  A caller may send an array
  as `slots`, and `normalizeFlow` lets it through; the embedding keeps its
  elements under their index keys but not its `length`, the names of
  `Array.prototype`, or the `RangeError` of an assignment to `length`.
  A statement over a `Flow` is therefore about a flow whose slots are a plain
  object, and the statements on the flow state a turn emits and on flow
  progress take a caller-supplied `slots` value that is not an array.
* An uncaught `TypeError` is an explicit outcome (`Except.error`), not a crash
  of the model.
* The canonicalization `normalize("NFKC")` of the platform is a parameter
  `nfkc` of the knowledge retriever; the examples instantiate it with
  `nfkcWidth`, which folds the full-width forms.
* The quotient `hit / size` of `bigramOverlap` is kept as its two whole-number
  parts; its comparison with `0.5` and the rounding of `20 * hit / size` are
  exact.
-/

namespace MinamiChat

/-- A JavaScript string: its sequence of code units. -/
abbrev Str := List Char

/-! ## String primitives -/

/-- ECMAScript `WhiteSpace` and `LineTerminator` code points: what `trim()`
removes and what `\s` matches. -/
def isJsSpace (c : Char) : Bool :=
  let n := c.toNat
  n == 0x09 || n == 0x0A || n == 0x0B || n == 0x0C || n == 0x0D || n == 0x20 ||
  n == 0xA0 || n == 0x1680 || (0x2000 ≤ n && n ≤ 0x200A) || n == 0x2028 ||
  n == 0x2029 || n == 0x202F || n == 0x205F || n == 0x3000 || n == 0xFEFF

/-- The class `\d`. -/
def isDigit (c : Char) : Bool := 0x30 ≤ c.toNat && c.toNat ≤ 0x39

/-- The class `[a-zA-Z_]`. -/
def isAttrKeyChar (c : Char) : Bool :=
  (0x61 ≤ c.toNat && c.toNat ≤ 0x7A) || (0x41 ≤ c.toNat && c.toNat ≤ 0x5A) || c == '_'

/-- Lower-case one code unit: the ASCII letters `A`..`Z` and the full-width
Latin letters `Ａ`..`Ｚ`. -/
def lowerChar (c : Char) : Char :=
  if (0x41 ≤ c.toNat ∧ c.toNat ≤ 0x5A) ∨ (0xFF21 ≤ c.toNat ∧ c.toNat ≤ 0xFF3A) then
    Char.ofNat (c.toNat + 32)
  else c

/-- `s.toLowerCase()`. -/
def toLowerCase (s : Str) : Str := s.map lowerChar

/-- Upper-case one code unit: the ASCII letters `a`..`z` and the full-width
Latin letters `ａ`..`ｚ`. -/
def upperChar (c : Char) : Char :=
  if (0x61 ≤ c.toNat ∧ c.toNat ≤ 0x7A) ∨ (0xFF41 ≤ c.toNat ∧ c.toNat ≤ 0xFF5A) then
    Char.ofNat (c.toNat - 32)
  else c

/-- `s.toUpperCase()`. -/
def toUpperCase (s : Str) : Str := s.map upperChar

/-- `s.trimStart()`. -/
def trimStart (s : Str) : Str := s.dropWhile isJsSpace

/-- `s.trimEnd()`. -/
def trimEnd (s : Str) : Str := (s.reverse.dropWhile isJsSpace).reverse

/-- `s.trim()`. -/
def trim (s : Str) : Str := trimEnd (trimStart s)

/-- `s.startsWith(p)`. -/
def startsWith (s p : Str) : Bool := p.isPrefixOf s

/-- `s.endsWith(e)`. -/
def endsWith (s e : Str) : Bool := e.reverse.isPrefixOf s.reverse

/-- `s.includes(sub)`: `sub` occurs in `s` as a contiguous run. -/
def includes : Str → Str → Bool
  | [], sub => sub.isEmpty
  | c :: cs, sub => sub.isPrefixOf (c :: cs) || includes cs sub

/-- `s.slice(a, b)` for `0 ≤ a` and `0 ≤ b`. -/
def slice (s : Str) (a b : Nat) : Str := (s.drop a).take (b - a)

/-- `s.slice(0, -n)`: drop the last `n` code units. -/
def dropLast (s : Str) (n : Nat) : Str := s.take (s.length - n)

/-- Some alternative of a regular expression `p1|p2|...` of literals matches
at the start of `s`: the first such alternative, in the order written. -/
def firstAlt (pats : List Str) (s : Str) : Option Str :=
  pats.find? (fun p => p.isPrefixOf s)

/-- `regexp.test(s)` for a regular expression that is an alternation of
literals: some alternative occurs in `s`. -/
def testAlts (pats : List Str) (s : Str) : Bool := pats.any (fun p => includes s p)

/-- `s.replace(/p1|p2|.../g, rep)` for non-empty literal alternatives: scan
from the left, replace the first alternative that matches at the current
position and continue after the match; `fuel` bounds the scan and
`s.length` is enough. -/
def replaceAltsAux (pats : List Str) (rep : Str) : Nat → Str → Str
  | 0, s => s
  | _ + 1, [] => []
  | fuel + 1, c :: cs =>
    match firstAlt pats (c :: cs) with
    | some p => rep ++ replaceAltsAux pats rep fuel ((c :: cs).drop (max p.length 1))
    | none => c :: replaceAltsAux pats rep fuel cs

/-- `s.replace(/p1|p2|.../g, rep)`. -/
def replaceAlts (pats : List Str) (rep : Str) (s : Str) : Str :=
  replaceAltsAux pats rep s.length s

/-- `s.replace(/\s+/g, "")`: delete every white-space code unit. -/
def removeSpaces (s : Str) : Str := s.filter (fun c => !isJsSpace c)

/-- `s.split(/\s+/).filter(Boolean)`: the maximal runs of non-space code
units, in order. -/
def splitOnSpaces (s : Str) : List Str :=
  (s.splitOnP (fun c => isJsSpace c)).filter (fun w => !w.isEmpty)

/-- `s.split(sep)` for a one-character separator. -/
def splitOnChar (sep : Char) (s : Str) : List Str := s.splitOn sep

/-- Decimal digits of a natural number, most significant first. -/
def natDigits (n : Nat) : Str := Nat.toDigits 10 n

/-- Value of a run of decimal digits. -/
def digitsToNat (ds : Str) : Nat := ds.foldl (fun acc c => acc * 10 + (c.toNat - 0x30)) 0

/-- `parseInt(s, 10)`: skip leading white space, read an optional sign and the
longest run of digits; `none` is `NaN` (no digit where one is required). -/
def parseInt10 (s : Str) : Option Int :=
  let t := trimStart s
  let neg := t.head? == some '-'
  let body := if t.head? == some '-' || t.head? == some '+' then t.drop 1 else t
  let ds := body.takeWhile isDigit
  if ds.isEmpty then none
  else some (if neg then - (digitsToNat ds : Int) else (digitsToNat ds : Int))

/-! ## JSON values -/

/-- A finite JSON number, the decimal `mant / 10 ^ scale`. -/
structure JNum where
  mant : Int
  scale : Nat
deriving DecidableEq, Repr

/-- The whole number `k`. -/
def JNum.ofInt (k : Int) : JNum := ⟨k, 0⟩

/-- Comparison `x < k` with a whole number. -/
def JNum.ltInt (x : JNum) (k : Int) : Bool := decide (x.mant < k * 10 ^ x.scale)

/-- Comparison `x > k` with a whole number. -/
def JNum.gtInt (x : JNum) (k : Int) : Bool := decide (k * 10 ^ x.scale < x.mant)

/-- Comparison `x <= k` with a whole number. -/
def JNum.leInt (x : JNum) (k : Int) : Bool := decide (x.mant ≤ k * 10 ^ x.scale)

/-- The exact sum `x + k` for a whole number `k` (also `x - 1`, `idx++`); it
is the double sum of the worker whenever the exact sum is a double. -/
def JNum.addInt (x : JNum) (k : Int) : JNum := ⟨x.mant + k * 10 ^ x.scale, x.scale⟩

/-- `Math.max(k, x)` for a whole number `k`. -/
def JNum.maxInt (k : Int) (x : JNum) : JNum := if x.ltInt k then JNum.ofInt k else x

/-- `Math.min(x, k)` for a whole number `k`. -/
def JNum.minInt (x : JNum) (k : Int) : JNum := if x.gtInt k then JNum.ofInt k else x

/-- The array index a number denotes: a whole number that is not negative.
Any other number used as an index reads `undefined`. -/
def JNum.toIndex (x : JNum) : Option Nat :=
  if x.mant % 10 ^ x.scale = 0 ∧ 0 ≤ x.mant then some (x.mant / 10 ^ x.scale).toNat else none

/-- `arr[x]` for a numeric `x`: `none` is `undefined`. -/
def indexAt {α : Type} (xs : List α) (x : JNum) : Option α :=
  match x.toIndex with
  | some i => xs.get? i
  | none => none

/-- `String(x)` for a number, in plain decimal notation (the notation
JavaScript uses for magnitudes from `1e-6` up to `1e21`). -/
def JNum.toStr (x : JNum) : Str :=
  let a := x.mant.natAbs
  let ip := a / 10 ^ x.scale
  let fp := a % 10 ^ x.scale
  let sign : Str := if x.mant < 0 then ['-'] else []
  if fp = 0 then sign ++ natDigits ip
  else
    let fd := natDigits fp
    let padded := List.replicate (x.scale - fd.length) '0' ++ fd
    sign ++ natDigits ip ++ ['.'] ++ (padded.reverse.dropWhile (fun c => c == '0')).reverse

/-- A JSON value as `JSON.parse` delivers it. -/
inductive JVal where
  | null
  | bool (b : Bool)
  | num (n : JNum)
  | str (s : Str)
  | arr (xs : List JVal)
  | obj (kvs : List (Str × JVal))

mutual
/-- `String(v)`. -/
def jsToString : JVal → Str
  | .null => "null".toList
  | .bool b => if b then "true".toList else "false".toList
  | .num n => n.toStr
  | .str s => s
  | .arr xs => jsJoin xs
  | .obj _ => "[object Object]".toList
termination_by structural v => v
/-- `xs.join(",")`, the string form of an array: `null` elements are empty. -/
def jsJoin : List JVal → Str
  | [] => []
  | x :: rest =>
    (match x with
      | .null => []
      | v => jsToString v) ++ (if rest.isEmpty then [] else [',']) ++ jsJoin rest
termination_by structural xs => xs
end

/-- JavaScript truthiness of a JSON value. -/
def truthy : JVal → Bool
  | .null => false
  | .bool b => b
  | .num n => n.mant != 0
  | .str s => !s.isEmpty
  | .arr _ => true
  | .obj _ => true

/-- The own properties of an object, as an association list. -/
abbrev Props := List (Str × JVal)

/-- The own properties of an array: its elements under their index keys. -/
def indexProps (xs : List JVal) : Props :=
  xs.enum.map (fun p => (natDigits p.1, p.2))

/-- Property names every object inherits from `Object.prototype`; reading one
that is not an own property yields a truthy value (a function or the
prototype itself). -/
def objectProtoKeys : List Str :=
  ["constructor".toList, "__proto__".toList, "hasOwnProperty".toList,
   "isPrototypeOf".toList, "propertyIsEnumerable".toList, "toLocaleString".toList,
   "toString".toList, "valueOf".toList, "__defineGetter__".toList,
   "__defineSetter__".toList, "__lookupGetter__".toList, "__lookupSetter__".toList]

/-! ## Flow state -/

/-- The slot mapping of a flow: slot name to stored value. -/
abbrev Slots := Props

/-- Truthiness of `slots[name]`: the slot counts as filled. -/
def slotFilled (slots : Slots) (name : Str) : Bool :=
  match slots.lookup name with
  | some v => truthy v
  | none => objectProtoKeys.contains name

/-- The strict comparison `slots.name === "val"`. -/
def slotIs (slots : Slots) (name val : Str) : Bool :=
  match slots.lookup name with
  | some (.str s) => s == val
  | _ => false

/-- The assignment `slots[name] = value`: an existing own property keeps its
place, a new one is added at the end. -/
def setSlot : Slots → Str → JVal → Slots
  | [], name, v => [(name, v)]
  | (k, w) :: rest, name, v =>
    if k == name then (k, v) :: rest else (k, w) :: setSlot rest name v

/-- The flow state `{ key, step, slots }`. -/
structure Flow where
  key : Str
  step : JNum
  slots : Slots

/-- The key `typeof flow.key === "string" ? flow.key : ""`. -/
def flowKeyOf (props : Props) : Str :=
  match props.lookup "key".toList with
  | some (.str s) => s
  | _ => []

/-- The step `Number.isFinite(flow.step) ? flow.step : parseInt(flow.step, 10)`;
`none` is `NaN`. -/
def flowStepOf (props : Props) : Option JNum :=
  match props.lookup "step".toList with
  | some (.num n) => some n
  | some v => (parseInt10 (jsToString v)).map JNum.ofInt
  | none => none

/-- The slots `(flow.slots && typeof flow.slots === "object") ? flow.slots : {}`.
An array is kept and read through its index keys only: its `length` and the
names it inherits from `Array.prototype` are not part of the embedding. -/
def flowSlotsOf (props : Props) : Slots :=
  match props.lookup "slots".toList with
  | some (.obj kvs) => kvs
  | some (.arr xs) => indexProps xs
  | _ => []

/-- `normalizeFlow(flow)`: `none` is `null`. A caller-supplied array has no
`key` property and is rejected with the other non-objects. -/
def normalizeFlow (flow : JVal) : Option Flow :=
  match flow with
  | .obj props =>
    match flowStepOf props with
    | none => none
    | some st =>
      if (flowKeyOf props).isEmpty || st.ltInt 1 || st.gtInt 120 then none
      else some { key := flowKeyOf props, step := st, slots := flowSlotsOf props }
  | _ => none

/-- `containsResetWord(t)`. -/
def containsResetWord (t : Str) : Bool :=
  includes t "リセット".toList ||
  includes t "最初から".toList ||
  includes t "はじめから".toList ||
  includes t "やりなお".toList ||
  t == "reset".toList

/-- `normalizeUserInput(text)`. -/
def normalizeUserInput (text : Str) : Str :=
  let s := trim text
  if s.isEmpty then s
  else
    let s1 := replaceAlts ["違います".toList, "ちがいます".toList, "違うです".toList] "いいえ".toList s
    let s2 := replaceAlts ["はいです".toList, "そうです".toList, "そうだよ".toList] "はい".toList s1
    replaceAlts ["ありません".toList, "なしです".toList] "ない".toList s2

/-- `normalizeFaqAnswerForReply(a)`: a backslash followed by `n` becomes a
line feed, CR LF becomes LF, and the result is trimmed. -/
def normalizeFaqAnswerForReply (a : Str) : Str :=
  trim (replaceAlts [['\r', '\n']] ['\n'] (replaceAlts [['\\', 'n']] ['\n'] a))

/-! ## FAQ retriever -/

/-- A catalog entry as the sheet handler delivers it: question, answer
template, comma-separated keywords and the `enabled` cell (`none` when the
property is absent). -/
structure FaqItem where
  q : Str
  a : Str
  k : Str
  enabled : Option JVal

/-- The `enabled` filter of the worker (the callback of `faqItems.filter`). -/
def isEnabled (it : FaqItem) : Bool :=
  match it.enabled with
  | none => true
  | some .null => true
  | some (.str []) => true
  | some en =>
    let s := toLowerCase (trim (jsToString en))
    s == "true".toList || s == "1".toList || s == "yes".toList || s == "on".toList

/-- Single-character endings stripped by the stemmer. -/
def endings1 : List Str :=
  ["る".toList, "い".toList, "く".toList, "す".toList, "つ".toList, "ぬ".toList,
   "ぶ".toList, "む".toList, "う".toList]

/-- Multi-character endings stripped by the stemmer. -/
def endings2 : List Str :=
  ["する".toList, "した".toList, "ない".toList, "たい".toList, "ます".toList,
   "ました".toList, "ている".toList, "ていた".toList, "れる".toList, "れた".toList]

/-- `faqStemMatch(text, keyword)`. -/
def faqStemMatch (text keyword : Str) : Bool :=
  let kw := trim keyword
  if kw.length < 3 then false
  else
    endings1.any (fun e =>
      endsWith kw e && (decide (2 ≤ (dropLast kw 1).length) && includes text (dropLast kw 1)))
    || endings2.any (fun e =>
      endsWith kw e && decide (e.length + 1 < kw.length) &&
        (decide (2 ≤ (dropLast kw e.length).length) && includes text (dropLast kw e.length)))

/-- The keyword list of an entry: split on commas, trimmed, lower-cased,
empty keywords dropped. -/
def faqKeywords (k : Str) : List Str :=
  ((splitOnChar ',' k).map (fun s => toLowerCase (trim s))).filter (fun s => !s.isEmpty)

/-- A keyword (or the question) matches the lower-cased query `t`. -/
def faqHit (t kw : Str) : Bool := includes t kw || faqStemMatch t kw

/-- The score `pickRelevantFaq` computes for one entry against the lower-cased
query `t`. -/
def faqScore (t : Str) (it : FaqItem) : Nat :=
  let kwScore := (faqKeywords it.k).foldl (fun score kw => if faqHit t kw then score + 10 else score) 0
  let qLower := toLowerCase it.q
  if decide (4 ≤ qLower.length) && faqHit t qLower then kwScore + 3 else kwScore

/-- A scored candidate `{ score, q, a }`. -/
structure ScoredFaq where
  score : Nat
  q : Str
  a : Str
deriving DecidableEq

/-- The candidates of `pickRelevantFaq` before sorting, in catalog order. -/
def faqCandidates (items : List FaqItem) (t : Str) : List ScoredFaq :=
  items.filterMap (fun it =>
    if it.q.isEmpty || it.a.isEmpty then none
    else if 0 < faqScore t it then some { score := faqScore t it, q := it.q, a := it.a }
    else none)

/-- The order `scored.sort((x, y) => y.score - x.score)` sorts by: higher
score first. -/
def scoreGe (x y : ScoredFaq) : Prop := y.score ≤ x.score

instance : DecidableRel scoreGe := fun x y => inferInstanceAs (Decidable (y.score ≤ x.score))

/-- `pickRelevantFaq(items, userText, limit)`; the sort is stable. -/
def pickRelevantFaq (items : List FaqItem) (userText : Str) (limit : Nat) : List ScoredFaq :=
  let t := toLowerCase userText
  if t.isEmpty then []
  else ((faqCandidates items t).insertionSort scoreGe).take limit

/-! ## Flow step parser -/

/-- The attribute mapping of a step (`meta`): key to value. -/
abbrev StepMeta := List (Str × Str)

/-- One dialogue step `{ tag, text, meta }`. -/
structure FlowStep where
  tag : Str
  text : Str
  meta : StepMeta
deriving DecidableEq

/-- `step.meta.name || ""`. -/
def metaGet (st : FlowStep) (name : Str) : Str := (st.meta.lookup name).getD []

/-- The assignment `meta[key] = value`. -/
def setAttr : StepMeta → Str → Str → StepMeta
  | [], key, v => [(key, v)]
  | (k, w) :: rest, key, v =>
    if k == key then (k, v) :: rest else (k, w) :: setAttr rest key v

/-- One token of the attribute text against `/^([a-zA-Z_]+)=(.+)$/`: the key
and the value, when the token has that shape. -/
def matchAttr (p : Str) : Option (Str × Str) :=
  let key := p.takeWhile isAttrKeyChar
  match p.drop key.length with
  | '=' :: v => if key.isEmpty || v.isEmpty then none else some (key, v)
  | _ => none

/-- `parseAttrs(attrRaw)`. Assigning a string to `__proto__` leaves a plain
object unchanged, so that key is never stored. -/
def parseAttrs (attrRaw : Str) : StepMeta :=
  let s := trim attrRaw
  if s.isEmpty then []
  else
    (splitOnSpaces s).foldl (fun meta p =>
      match matchAttr p with
      | some (key, v) =>
        if toLowerCase key == "__proto__".toList then meta
        else setAttr meta (toLowerCase key) (trim v)
      | none => meta) []

/-- One match of `/\[\[(step\d+|final)([^\]]*)\]\]/`: where it starts, the
length of the whole match, and the two captures. -/
structure MarkerMatch where
  index : Nat
  length : Nat
  tag : Str
  attrRaw : Str
deriving DecidableEq

/-- The tag `step\d+|final` at the start of `r`, with the longest run of
digits. -/
def matchTag (r : Str) : Option Str :=
  if "step".toList.isPrefixOf r && !((r.drop 4).takeWhile isDigit).isEmpty then
    some ("step".toList ++ (r.drop 4).takeWhile isDigit)
  else if "final".toList.isPrefixOf r then some "final".toList
  else none

/-- The marker regular expression anchored at the start of `s`: tag,
attribute text and length of the match. The attribute text is the longest
run of code units other than `]`, which must be followed by `]]`. -/
def matchMarkerAt (s : Str) : Option (Str × Str × Nat) :=
  if "[[".toList.isPrefixOf s then
    match matchTag (s.drop 2) with
    | some tag =>
      let afterTag := s.drop (2 + tag.length)
      let attr := afterTag.takeWhile (fun c => c != ']')
      if "]]".toList.isPrefixOf (afterTag.drop attr.length) then
        some (tag, attr, 2 + tag.length + attr.length + 2)
      else none
    | none => none
  else none

/-- The matches of the marker expression in `s`, which starts at offset `pos`
of the text: leftmost first, each search resuming where the previous match
ended. `fuel` bounds the scan; `s.length` is enough. -/
def matchMarkersFrom : Nat → Nat → Str → List MarkerMatch
  | 0, _, _ => []
  | _ + 1, _, [] => []
  | fuel + 1, pos, c :: cs =>
    match matchMarkerAt (c :: cs) with
    | some (tag, attr, len) =>
      { index := pos, length := len, tag := tag, attrRaw := attr } ::
        matchMarkersFrom fuel (pos + len) ((c :: cs).drop len)
    | none => matchMarkersFrom fuel (pos + 1) cs

/-- `[...text.matchAll(re)]`. -/
def matchAllMarkers (text : Str) : List MarkerMatch := matchMarkersFrom text.length 0 text

/-- The end of the chunk of a match, given the matches after it:
`(i + 1 < matches.length) ? matches[i + 1].index : text.length`. -/
def chunkEnd (text : Str) (later : List MarkerMatch) : Nat :=
  match later with
  | m2 :: _ => m2.index
  | [] => text.length

/-- The loop of `parseFlowSteps` over the matches: the chunk of a match runs
from its end to the start of the next match (or the end of the text); empty
chunks are skipped. -/
def stepsOfMatches (text : Str) : List MarkerMatch → List FlowStep
  | [] => []
  | m :: rest =>
    let start := m.index + m.length
    let chunk := trim (slice text start (chunkEnd text rest))
    if chunk.isEmpty then stepsOfMatches text rest
    else { tag := m.tag, text := chunk, meta := parseAttrs m.attrRaw } :: stepsOfMatches text rest

/-- `parseFlowSteps(a)`: `none` is `null`. -/
def parseFlowSteps (a : Str) : Option (List FlowStep) :=
  let text := normalizeFaqAnswerForReply a
  let ms := matchAllMarkers text
  if ms.isEmpty then none
  else
    let steps := stepsOfMatches text ms
    if steps.isEmpty then none else some steps

/-! ## Answer judgement -/

/-- `parseYesNo(t)`: `"yes"`, `"no"` or the empty string. -/
def parseYesNo (t : Str) : Str :=
  let s := toLowerCase (trim t)
  if ["はい".toList, "うん".toList, "yes".toList, "y".toList, "1".toList, "そう".toList,
      "ok".toList, "大丈夫".toList].contains s then "yes".toList
  else if ["いいえ".toList, "いや".toList, "no".toList, "n".toList, "2".toList,
      "ちがう".toList, "違う".toList].contains s then "no".toList
  else if includes s "はい".toList then "yes".toList
  else if includes s "いいえ".toList then "no".toList
  else []

/-- The class `[1-9]`. -/
def isDigit19 (c : Char) : Bool := 0x31 ≤ c.toNat && c.toNat ≤ 0x39

/-- `parseChoiceDigit(t)`: the first digit `1`..`9` of the text, `0` when
there is none. -/
def parseChoiceDigit (t : Str) : Nat :=
  match t.find? isDigit19 with
  | some c => c.toNat - 0x30
  | none => 0

/-- `normalizeChoiceJa12(s, flowKey)`. -/
def normalizeChoiceJa12 (s : Str) : Str :=
  if includes s "ある".toList || includes s "あり".toList || includes s "痛".toList ||
     includes s "いた".toList || includes s "しみ".toList || includes s "染み".toList ||
     includes s "ズキ".toList || includes s "うず".toList ||
     includes s "我慢できない".toList || includes s "無理".toList then "1".toList
  else if includes s "ない".toList || includes s "なし".toList || includes s "問題ない".toList ||
     includes s "大丈夫".toList || includes s "平気".toList || includes s "特にない".toList ||
     includes s "ありません".toList || includes s "我慢できる".toList then "2".toList
  else []

/-- `normalizeChoiceBySchema(t, choice, flowKey)`. -/
def normalizeChoiceBySchema (t choice flowKey : Str) : Str :=
  let s := toLowerCase (trim t)
  if flowKey == "歯がグラグラする".toList then
    if includes s "自分".toList || includes s "天然".toList then "1".toList
    else if includes s "詰め".toList || includes s "つめ".toList then "2".toList
    else if includes s "かぶせ".toList || includes s "被せ".toList || includes s "クラウン".toList then
      "3".toList
    else if includes s "差し歯".toList || includes s "さしば".toList then "4".toList
    else []
  else if includes choice "3".toList then
    if includes s "治療した".toList || includes s "治療後".toList || includes s "詰めた".toList ||
       includes s "被せた".toList || includes s "インレー".toList || includes s "クラウン".toList ||
       includes s "レジン".toList || includes s "詰め物した".toList then "1".toList
    else if includes s "治療中".toList || includes s "通院中".toList || includes s "仮".toList ||
       includes s "仮詰め".toList || includes s "仮蓋".toList || includes s "途中".toList ||
       includes s "まだ通って".toList || includes s "次回予約".toList then "2".toList
    else if includes s "わから".toList || includes s "不明".toList || includes s "どっち".toList ||
       includes s "覚えてない".toList || includes s "たぶん".toList || includes s "多分".toList then
      "3".toList
    else []
  else normalizeChoiceJa12 s

/-- Some suffix of `s` satisfies `p`: a pattern that `p` recognises at the
start of a string occurs somewhere in `s`. -/
def existsAt (p : Str → Bool) : Str → Bool
  | [] => p []
  | c :: cs => p (c :: cs) || existsAt p cs

/-- The pattern `[1-8]番` at the start of a string. -/
def toothNumberAt (s : Str) : Bool :=
  match s with
  | c :: '番' :: _ => 0x31 ≤ c.toNat && c.toNat ≤ 0x38
  | _ => false

/-- The words of `/右|左|上|下|奥歯|前歯|[1-8]番/` that are literals. -/
def toothWords : List Str :=
  ["右".toList, "左".toList, "上".toList, "下".toList, "奥歯".toList, "前歯".toList]

/-- `looksLikeToothStrong(s)`: the test of
`/右上|左上|右下|左下|右|左|上|下|奥歯|前歯|[1-8]番/`. -/
def looksLikeToothStrong (s : Str) : Bool :=
  testAlts (["右上".toList, "左上".toList, "右下".toList, "左下".toList] ++ toothWords) s ||
    existsAt toothNumberAt s

/-- `looksLikeSymptom(s)`. -/
def looksLikeSymptom (s : Str) : Bool :=
  testAlts ["ぐらぐら".toList, "グラグラ".toList, "痛".toList, "いた".toList, "しみ".toList,
    "染み".toList, "腫".toList, "はれ".toList, "外れ".toList, "はずれ".toList, "取れ".toList,
    "とれ".toList, "欠け".toList, "かけ".toList, "浮い".toList] s

/-- `parseToothLocation(t)`. -/
def parseToothLocation (t : Str) : Str :=
  let s := trim t
  if !looksLikeToothStrong s then []
  else if looksLikeSymptom s && !(testAlts toothWords s || existsAt toothNumberAt s) then []
  else s.take 40

/-- The pattern `\d+\s*UNIT(前|くらい|程)?` anchored at the start of `s`: the
matched text. -/
def matchCountAt (unit : Str) (s : Str) : Option Str :=
  let ds := s.takeWhile isDigit
  let r1 := s.drop ds.length
  let ws := r1.takeWhile isJsSpace
  let r2 := r1.drop ws.length
  if ds.isEmpty || !unit.isPrefixOf r2 then none
  else
    let r3 := r2.drop unit.length
    some (ds ++ ws ++ unit ++
      ((firstAlt ["前".toList, "くらい".toList, "程".toList] r3).getD []))

/-- The leftmost match of an anchored pattern in `s`: `s.match(re)[0]`. -/
def firstMatch (m : Str → Option Str) : Str → Option Str
  | [] => m []
  | c :: cs =>
    match m (c :: cs) with
    | some w => some w
    | none => firstMatch m cs

/-- `parseWhen(t)`. -/
def parseWhen (t : Str) : Str :=
  let s := trim t
  if testAlts ["今日".toList, "本日".toList] s then "今日".toList
  else if testAlts ["昨日".toList] s then "昨日".toList
  else if testAlts ["一昨日".toList] s then "一昨日".toList
  else
    match firstMatch (matchCountAt "日".toList) s with
    | some w => removeSpaces w
    | none =>
      match firstMatch (matchCountAt "週間".toList) s with
      | some w => removeSpaces w
      | none =>
        match firstMatch (matchCountAt "ヶ月".toList) s with
        | some w => removeSpaces w
        | none =>
          match firstMatch (firstAlt ["先週".toList, "今週".toList, "先月".toList, "今月".toList]) s with
          | some w => w
          | none =>
            match firstMatch (firstAlt ["さっき".toList, "先ほど".toList, "たった今".toList]) s with
            | some w => w
            | none => []

/-- The result `{ ok, value }` of a judgement. -/
structure Judged where
  ok : Bool
  value : Str
deriving DecidableEq

/-- The rejection `{ ok: false, value: "" }`. -/
def rejected : Judged := { ok := false, value := [] }

/-- `judgeAnswer(text, { expect, choice, flowKey })`. -/
def judgeAnswer (text expect choice flowKey : Str) : Judged :=
  let t := trim text
  if t.isEmpty then rejected
  else
    let e := toLowerCase expect
    let ch := trim choice
    if e.isEmpty then { ok := true, value := t }
    else if e == "yesno".toList then
      let yn := parseYesNo t
      if yn.isEmpty then rejected else { ok := true, value := yn }
    else if e == "choice".toList then
      let digit := parseChoiceDigit t
      if digit != 0 then
        if !ch.isEmpty && !includes ch (natDigits digit) then rejected
        else { ok := true, value := natDigits digit }
      else
        let norm := normalizeChoiceBySchema t ch flowKey
        if !norm.isEmpty then
          if !ch.isEmpty && !includes ch norm then rejected
          else { ok := true, value := norm }
        else rejected
    else if e == "tooth".toList then
      let tooth := parseToothLocation t
      if tooth.isEmpty then rejected else { ok := true, value := tooth }
    else if e == "when".toList then
      let w := parseWhen t
      if w.isEmpty then rejected else { ok := true, value := w }
    else { ok := true, value := t }

/-- `buildRepairPrompt(questionText)`. -/
def buildRepairPrompt (questionText : Str) : Str :=
  "すみません、確認させてください。\n\n".toList ++ trim questionText

/-! ## Reply options -/

/-- A reply-option button `{ label, value }`. -/
structure ReplyOption where
  label : Str
  value : Str
deriving DecidableEq

/-- Line terminators: the code units `.` does not match. -/
def isLineTerminator (c : Char) : Bool :=
  c == '\n' || c == '\r' || c.toNat == 0x2028 || c.toNat == 0x2029

/-- The class `[）\)\.．、:：]` that follows an enumerator digit. -/
def isEnumPunct (c : Char) : Bool :=
  c == '）' || c == ')' || c == '.' || c == '．' || c == '、' || c == ':' || c == '：'

/-- The tail `\s*(.+)` of the option patterns anchored at the start of `s`:
the capture group when the tail matches. The white space is taken greedily;
when nothing follows it, the expression backtracks and the group takes the
last white-space code unit that is not a line terminator. -/
def matchRestOfLine (s : Str) : Option Str :=
  let ws := s.takeWhile isJsSpace
  let r := s.drop ws.length
  if !r.isEmpty then some (r.takeWhile (fun c => !isLineTerminator c))
  else (ws.reverse.find? (fun c => !isLineTerminator c)).map (fun c => [c])

/-- One line against `/^\s*(\d)[）\)\.\．、:：]\s*(.+)/`: the digit and the text. -/
def matchNumberedLine (line : Str) : Option (Char × Str) :=
  match line.dropWhile isJsSpace with
  | d :: p :: rest =>
    if isDigit d && isEnumPunct p then (matchRestOfLine rest).map (fun cap => (d, cap)) else none
  | _ => none

/-- The circled numerals `①`..`⑨`. -/
def circledDigits : Str := "①②③④⑤⑥⑦⑧⑨".toList

/-- One line against `/^\s*([①②③④⑤⑥⑦⑧⑨])\s*(.+)/`: the number and the text. -/
def matchCircledLine (line : Str) : Option (Nat × Str) :=
  match line.dropWhile isJsSpace with
  | c :: rest =>
    if circledDigits.contains c then
      (matchRestOfLine rest).map (fun cap => (circledDigits.indexOf c + 1, cap))
    else none
  | [] => none

/-- The button a line of the step text yields, if it starts with an
enumerator. -/
def lineOption (line : Str) : Option ReplyOption :=
  match matchNumberedLine line with
  | some (d, cap) => some { label := [d] ++ "）".toList ++ trim cap, value := [d] }
  | none =>
    match matchCircledLine line with
    | some (n, cap) => some { label := natDigits n ++ "）".toList ++ trim cap, value := natDigits n }
    | none => none

/-- The pattern `d[）\)\.．、:：\s]\s*(.+)` anchored at the start of `s`: the
capture group. The optional group in front of the digit in the source
expression never changes where the digit of the leftmost match lies. -/
def matchChoiceLabelAt (d : Char) (s : Str) : Option Str :=
  match s with
  | c :: p :: rest =>
    if c == d && (isEnumPunct p || isJsSpace p) then matchRestOfLine rest else none
  | _ => none

/-- The fallback button for the digit `d` of the `choice` attribute. -/
def fallbackOption (text : Str) (d : Char) : ReplyOption :=
  match firstMatch (matchChoiceLabelAt d) text with
  | some cap => { label := [d] ++ "）".toList ++ trim cap, value := [d] }
  | none => { label := [d], value := [d] }

/-- `buildReplyOptions(step)`: `none` is `null`. -/
def buildReplyOptions (step : FlowStep) : Option (List ReplyOption) :=
  let expect := toLowerCase (metaGet step "expect".toList)
  if expect == "yesno".toList then
    some [{ label := "はい".toList, value := "はい".toList },
          { label := "いいえ".toList, value := "いいえ".toList }]
  else if expect == "choice".toList then
    let options := (splitOnChar '\n' step.text).filterMap lineOption
    if 2 ≤ options.length then some options
    else
      let choiceMeta := metaGet step "choice".toList
      let digits := choiceMeta.filter isDigit
      if !choiceMeta.isEmpty && decide (2 ≤ digits.length) then
        some (digits.map (fallbackOption step.text))
      else none
  else none

/-! ## Step advance and slot prefill -/

/-- What can stop the evaluation of a turn other than a response. -/
inductive JsError where
  | typeError
  | outOfFuel
deriving DecidableEq

/-- The result `{ reply, newFlow, suggest_end, reply_options }` of
`advanceSteps`. -/
structure Advanced where
  reply : Str
  newFlow : Option Flow
  suggest_end : Bool
  reply_options : Option (List ReplyOption)

/-- The generic closing message `advanceSteps` returns when the steps are
exhausted. -/
def closingReply : Str :=
  "ご連絡ありがとうございます。\n\nWEB予約：https://v3.apodent.jp/app/entry/1717/minami/\nお電話：0798-47-8111（診療時間内のみ対応）\n\n※会話が終わりましたら「会話を終了（履歴を消す）」を押してください。".toList

/-- The result of `advanceSteps` when the loop ends without a step. -/
def closingAdvanced : Advanced :=
  { reply := closingReply, newFlow := none, suggest_end := true, reply_options := none }

/-- The `while (idx <= total)` loop of `advanceSteps`. Reading `st.tag` of a
missing element (an index that is not whole) throws a `TypeError`. -/
def advanceLoop (steps : List FlowStep) (flow : Flow) : Nat → JNum → Except JsError Advanced
  | 0, _ => .error .outOfFuel
  | fuel + 1, idx =>
    if idx.leInt steps.length then
      match indexAt steps (idx.addInt (-1)) with
      | none => .error .typeError
      | some st =>
        if st.tag == "final".toList then
          .ok { reply := st.text, newFlow := none, suggest_end := true, reply_options := none }
        else if !(metaGet st "slot".toList).isEmpty && slotFilled flow.slots (metaGet st "slot".toList) then
          advanceLoop steps flow fuel (idx.addInt 1)
        else
          .ok { reply := st.text
                newFlow := some { key := flow.key, step := idx, slots := flow.slots }
                suggest_end := false
                reply_options := buildReplyOptions st }
    else .ok closingAdvanced

/-- `advanceSteps(steps, flow, startFrom)`. -/
def advanceSteps (steps : List FlowStep) (flow : Flow) (startFrom : JNum) : Except JsError Advanced :=
  advanceLoop steps flow (steps.length + 1) (JNum.maxInt 1 startFrom)

/-- The slot save of a flow-continuation turn (the block under `slot 保存`):
a judged value is written only into a slot that does not read as filled. -/
def saveSlot (slots : Slots) (slot value : Str) : Slots :=
  if !slot.isEmpty then
    if !slotFilled slots slot && !value.isEmpty then setSlot slots slot (.str value) else slots
  else slots

/-- One iteration of the loop of `prefillSlotsFromFreeText` over the step
`st`, for the trimmed utterance `t`. -/
def prefillStep (flowKey t : Str) (slots : Slots) (st : FlowStep) : Slots :=
  let slot := metaGet st "slot".toList
  let expect := metaGet st "expect".toList
  if slot.isEmpty || slotFilled slots slot then slots
  else
    let judged := judgeAnswer t expect (metaGet st "choice".toList) flowKey
    if judged.ok && !judged.value.isEmpty then
      if toLowerCase expect == "tooth".toList && (looksLikeSymptom t && !looksLikeToothStrong t) then
        slots
      else setSlot slots slot (.str judged.value)
    else slots

/-- `prefillSlotsFromFreeText(flow, steps, userText)`: the flow after the
in-place update of its slots. -/
def prefillSlotsFromFreeText (flow : Flow) (steps : List FlowStep) (userText : Str) : Flow :=
  let t := trim userText
  if t.isEmpty then flow
  else { flow with slots := steps.foldl (prefillStep flow.key t) flow.slots }

/-! ## Decision table -/

/-- The booking page address quoted in the replies. -/
def WEB : Str := "https://v3.apodent.jp/app/entry/1717/minami/".toList

/-- The telephone line quoted in the replies. -/
def TEL : Str := "0798-47-8111（診療時間内のみ対応）".toList

/-- The reply returned at line 829 of `worker.js`. -/
def decisionReply1 : Str :=
  "ご回答ありがとうございます。\n\n治療後からしみる場合、治療後は人工の材料に置き換わっていることもあり、神経が慣れるまでは「長く見て半年ほど」しみることがあります。\nただし、日常生活に支障が出るほど強い場合は、神経の処置（抜髄）が必要になる可能性もあります。\n\nご予約：\nWEB：".toList ++
  WEB ++
  "\nお電話：".toList ++
  TEL ++
  "\n\n※会話が終わりましたら「会話を終了（履歴を消す）」を押してください。".toList

/-- The reply returned at line 833 of `worker.js`. -/
def decisionReply2 : Str :=
  "ご回答ありがとうございます。\n\n治療中の歯で仮詰め（仮蓋）が外れている場合、応急処置が必要なことがあります。\nなるべくその部分で噛まず、できるだけ早めの受診をおすすめします。\n\n当日希望の場合はお待ちいただく可能性がありますが、状況により対応できることがありますので、お電話でご相談ください。\nお電話の際は【虫歯治療の仮蓋が取れました】とお伝えください。\n\nお電話：".toList ++
  TEL ++
  "\n\n※会話が終わりましたら「会話を終了（履歴を消す）」を押してください。".toList

/-- The reply returned at line 836 of `worker.js`. -/
def decisionReply3 : Str :=
  "ご回答ありがとうございます。\n\n治療中の歯がしみる場合、治療の直後は一時的に神経が炎症を起こしてしみることがあります。\n次第に落ち着くことも多いので、次の予約まで様子を見るか、ご心配であればWEB予約またはお電話でご予約ください。\nまた、日常生活に支障が出るほど強い痛みがある場合は、お電話でご相談ください。\n\nご予約：\nWEB：".toList ++
  WEB ++
  "\nお電話：".toList ++
  TEL ++
  "\n\n※会話が終わりましたら「会話を終了（履歴を消す）」を押してください。".toList

/-- The reply returned at line 842 of `worker.js`. -/
def decisionReply4 : Str :=
  "ご回答ありがとうございます。\n\n原因としては、虫歯もしくは知覚過敏の可能性があります。\nまずはWEBからご予約をお取りください。\n\nWEB予約：".toList ++
  WEB ++
  "\n\n※会話が終わりましたら「会話を終了（履歴を消す）」を押してください。".toList

/-- The reply returned at line 845 of `worker.js`. -/
def decisionReply5 : Str :=
  "ご回答ありがとうございます。\n\n我慢できないほどの痛み・しみ方の場合は、一度受診をおすすめします。\n空き状況によっては当日のご案内も可能なことがありますので、お電話でご相談ください。\n\nお電話：".toList ++
  TEL ++
  "\n\n※会話が終わりましたら「会話を終了（履歴を消す）」を押してください。".toList

/-- The reply returned at line 854 of `worker.js`. -/
def decisionReply6 : Str :=
  "ご回答ありがとうございます。\n\n入れ歯を外すとお食事がしにくい場合は、入れ歯の調整が必要です。\nお電話にてご予約をお取りください。\n\n痛ければ、入れ歯を外しておいてもらって大丈夫です。\n\nお電話：".toList ++
  TEL ++
  "\n\n※会話が終わりましたら「会話を終了（履歴を消す）」を押してください。".toList

/-- The reply returned at line 857 of `worker.js`. -/
def decisionReply7 : Str :=
  "ご回答ありがとうございます。\n\nお食事に支障がない場合は、WEBにてご予約をお取りください。\n\n痛ければ、入れ歯を外しておいてもらって大丈夫です。\n\nWEB予約：".toList ++
  WEB ++
  "\n\n※会話が終わりましたら「会話を終了（履歴を消す）」を押してください。".toList

/-- The reply returned at line 865 of `worker.js`. -/
def decisionReply8 : Str :=
  "お食事がしにくいとのことですね。\n\n応急処置で対応できる場合がありますので、お電話にてご予約をお願いいたします。\n\nお電話：".toList ++
  TEL ++
  "\n\n※割れた入れ歯は【接着剤などで修理せず】、そのままお持ちください。\n\n※会話が終わりましたら「会話を終了（履歴を消す）」を押してください。".toList

/-- The reply returned at line 868 of `worker.js`. -/
def decisionReply9 : Str :=
  "現在はお食事に大きな支障はないのですね。\n\nWEB予約よりご予約をお取りください。\n\nWEB予約：".toList ++
  WEB ++
  "\n\n※割れた入れ歯は【接着剤などで修理せず】、そのままお持ちください。\n\n※会話が終わりましたら「会話を終了（履歴を消す）」を押してください。".toList

/-- The reply returned at line 878 of `worker.js`. -/
def decisionReply10 : Str :=
  "ご回答ありがとうございます。\n\nそこで噛まないようにできるのであれば、噛まないようにしてください。\nウェブにてご予約をお取りください。\n\nWEB予約：".toList ++
  WEB ++
  "\n\n※会話が終わりましたら「会話を終了（履歴を消す）」を押してください。".toList

/-- The reply returned at line 882 of `worker.js`. -/
def decisionReply11 : Str :=
  "ご回答ありがとうございます。\n\n応急処置させていただきます。\nお電話にてご予約をお取りください。\n\nお電話：".toList ++
  TEL ++
  "\n\n※会話が終わりましたら「会話を終了（履歴を消す）」を押してください。".toList

/-- The reply returned at line 885 of `worker.js`. -/
def decisionReply12 : Str :=
  "ご回答ありがとうございます。\n\nそこで噛まないようにできるのであれば、噛まないようにしてください。\nウェブにてご予約をお取りください。\n\nWEB予約：".toList ++
  WEB ++
  "\n\n※会話が終わりましたら「会話を終了（履歴を消す）」を押してください。".toList

/-- The reply returned at line 893 of `worker.js`. -/
def decisionReply13 : Str :=
  "ご回答ありがとうございます。\n\nそこで噛まないようにできるのであれば、噛まないようにして、応急処置しますのでお電話にてご予約をお取りください。\n\nお電話：".toList ++
  TEL ++
  "\n\n※会話が終わりましたら「会話を終了（履歴を消す）」を押してください。".toList

/-- The reply returned at line 896 of `worker.js`. -/
def decisionReply14 : Str :=
  "ご回答ありがとうございます。\n\nそこで噛まないようにできるのであれば、噛まないようにして様子を見ましょう。\nウェブにてご予約をお取りください。\n\nWEB予約：".toList ++
  WEB ++
  "\n\n※会話が終わりましたら「会話を終了（履歴を消す）」を押してください。".toList

/-- The reply returned at line 903 of `worker.js`. -/
def decisionReply15 : Str :=
  "ご回答ありがとうございます。\n\nそこで噛まないようにできるのであれば、噛まないようにして様子を見てください。\nご予約をお取りください。\n\nWEB予約：".toList ++
  WEB ++
  "\nお電話：".toList ++
  TEL ++
  "\n\n※会話が終わりましたら「会話を終了（履歴を消す）」を押してください。".toList

/-- The reply returned at line 906 of `worker.js`. -/
def decisionReply16 : Str :=
  "ご回答ありがとうございます。\n\nそこで噛まないようにできるのであれば、噛まないようにして様子を見ましょう。\nWEBにてご予約をお取りください。\n\nWEB予約：".toList ++
  WEB ++
  "\n\n※会話が終わりましたら「会話を終了（履歴を消す）」を押してください。".toList

/-- The reply returned at line 917 of `worker.js`. -/
def decisionReply17 : Str :=
  "ご回答ありがとうございます。\n\n症状がない場合は、このままでも大きな問題にならないケースも多いです。\nただし、取れた部分から欠けたり、食べ物が詰まりやすくなったりするため、取れた部分でなるべく噛まないようにしてください。\n\nご予約：\nWEB：".toList ++
  WEB ++
  "\n\n※会話が終わりましたら「会話を終了（履歴を消す）」を押してください。".toList

/-- The reply returned at line 920 of `worker.js`. -/
def decisionReply18 : Str :=
  "ご回答ありがとうございます。\n\n痛みが我慢できる範囲であれば、まずは取れた部分でなるべく噛まずに過ごしてください。\nしみる・痛む原因として虫歯や露出が関係している可能性がありますので、WEBからご予約をお取りください。\n\nWEB予約：".toList ++
  WEB ++
  "\n\n※会話が終わりましたら「会話を終了（履歴を消す）」を押してください。".toList

/-- The reply returned at line 923 of `worker.js`. -/
def decisionReply19 : Str :=
  "ご回答ありがとうございます。\n\n痛みが我慢できない場合は、早めの受診をおすすめします。\n空き状況によっては当日のご案内も可能なことがありますので、お電話でご相談ください。\n\nご予約：\nWEB：".toList ++
  WEB ++
  "\nお電話：".toList ++
  TEL ++
  "\n\n※会話が終わりましたら「会話を終了（履歴を消す）」を押してください。".toList

/-- The reply returned at line 929 of `worker.js`. -/
def decisionReply20 : Str :=
  "ご回答ありがとうございます。\n\n根管治療中の仮詰め（仮蓋）が取れてしまうことは、頻繁ではありませんが起こることがあります。\nもし「全部取れている」状態だと、細菌が根管内に侵入する可能性があるため、一度受診をおすすめします。\n\n当日希望の場合はお待ちいただく可能性がありますが、状況により対応できることがありますので、お電話でご相談ください。\nお電話の際は【根管治療の仮詰めが取れました】とお伝えください。\n\nお電話：".toList ++
  TEL ++
  "\n\n※会話が終わりましたら「会話を終了（履歴を消す）」を押してください。".toList

/-- The reply returned at line 934 of `worker.js`. -/
def decisionReply21 : Str :=
  "ご回答ありがとうございます。\n\n冷たいものでしみない場合は、このままでも問題ないケースが多いです。\n次の予約までその部分で噛まないように注意していただくか、ご心配であればWEB予約またはお電話でご予約ください。\n\nご予約：\nWEB：".toList ++
  WEB ++
  "\nお電話：".toList ++
  TEL ++
  "\n\n※会話が終わりましたら「会話を終了（履歴を消す）」を押してください。".toList

/-- The reply returned at line 937 of `worker.js`. -/
def decisionReply22 : Str :=
  "ご回答ありがとうございます。\n\n冷たいものでしみる場合は、応急処置が必要なことがあります。\nお電話でご予約をお願いいたします。\nお電話の際は【虫歯治療の仮蓋が取れました】とお伝えください。\n\nお電話：".toList ++
  TEL ++
  "\n\n※会話が終わりましたら「会話を終了（履歴を消す）」を押してください。".toList

/-- The reply returned at line 942 of `worker.js`. -/
def decisionReply23 : Str :=
  "ご回答ありがとうございます。\n\n治療中の歯でつめもの（仮詰めを含む）が取れている場合、状態によっては応急処置が必要なことがあります。\n取れた部分でなるべく噛まないようにしていただき、WEB予約またはお電話でご相談ください。\n\nご予約：\nWEB：".toList ++
  WEB ++
  "\nお電話：".toList ++
  TEL ++
  "\n\n※会話が終わりましたら「会話を終了（履歴を消す）」を押してください。".toList
/-- `decideFlowReply(flowKey, slots)`: the reply text, `none` for `null`. The
topic keys are distinct, so a topic block that is left without a `return`
reaches the final `return null`. -/
def decideFlowReply (flowKey : Str) (s : Slots) : Option Str :=
  if flowKey == "歯がしみる（冷たい・甘い・風でしみる）".toList then
    if slotIs s "source".toList "1".toList then some decisionReply1
    else if slotIs s "source".toList "2".toList then
      if slotIs s "tmpcap".toList "yes".toList then some decisionReply2
      else if slotIs s "tmpcap".toList "no".toList then some decisionReply3
      else none
    else if slotIs s "source".toList "3".toList then
      if slotIs s "tolerable".toList "1".toList then some decisionReply4
      else if slotIs s "tolerable".toList "2".toList then some decisionReply5
      else none
    else none
  else if flowKey == "入れ歯が痛い".toList then
    if slotIs s "eating".toList "yes".toList then some decisionReply6
    else if slotIs s "eating".toList "no".toList then some decisionReply7
    else none
  else if flowKey == "入れ歯が割れた".toList then
    if slotIs s "eat".toList "yes".toList then some decisionReply8
    else if slotIs s "eat".toList "no".toList then some decisionReply9
    else none
  else if flowKey == "歯がグラグラする".toList then
    if slotIs s "type".toList "1".toList then
      if slotIs s "pain".toList "no".toList then some decisionReply10
      else if slotIs s "pain".toList "yes".toList then
        if slotIs s "throb".toList "yes".toList then some decisionReply11
        else if slotIs s "throb".toList "no".toList then some decisionReply12
        else none
      else none
    else if slotIs s "type".toList "2".toList then
      if slotIs s "pain".toList "yes".toList then some decisionReply13
      else if slotIs s "pain".toList "no".toList then some decisionReply14
      else none
    else if slotIs s "type".toList "3".toList || slotIs s "type".toList "4".toList then
      if slotIs s "pain".toList "yes".toList then some decisionReply15
      else if slotIs s "pain".toList "no".toList then some decisionReply16
      else none
    else none
  else if flowKey == "つめもの（かぶせもの・銀歯など）が取れた".toList then
    if slotIs s "treating".toList "no".toList then
      if slotIs s "symptom".toList "2".toList then some decisionReply17
      else if slotIs s "symptom".toList "1".toList && slotIs s "pain".toList "1".toList then
        some decisionReply18
      else if slotIs s "symptom".toList "1".toList && slotIs s "pain".toList "2".toList then
        some decisionReply19
      else none
    else if slotIs s "treating".toList "yes".toList then
      if slotIs s "rct".toList "yes".toList then some decisionReply20
      else if slotIs s "rct".toList "no".toList then
        if slotIs s "caries".toList "yes".toList then
          if slotIs s "cold".toList "no".toList then some decisionReply21
          else if slotIs s "cold".toList "yes".toList then some decisionReply22
          else none
        else if slotIs s "caries".toList "no".toList then some decisionReply23
        else none
      else none
    else none
  else none

/-! ## The turn -/

/-- The JSON body of a chat response. `reply_options` is `none` both for
`null` and for a response that carries no such key. -/
structure Response where
  reply : Str
  source : Str
  faq_flow : Option Flow
  suggest_end : Bool
  reply_options : Option (List ReplyOption)

/-- Outcome of the flow and FAQ tiers of one turn: a response, an uncaught
error, or falling through to the knowledge and completion tiers, which read
the utterance and the picked FAQ entries but never the flow state. -/
inductive TurnResult where
  | respond (r : Response)
  | error (e : JsError)
  | fallThrough (userText : Str) (pickedFaq : List ScoredFaq)

/-- The response built from the result of `advanceSteps`. -/
def advancedResponse (source : Str) (adv : Except JsError Advanced) : TurnResult :=
  match adv with
  | .error e => .error e
  | .ok a =>
    .respond { reply := a.reply, source := source, faq_flow := a.newFlow
               suggest_end := a.suggest_end, reply_options := a.reply_options }

/-- The step `steps[Math.max(0, Math.min(flow.step - 1, steps.length - 1))]`
of a continuation turn; `none` is `undefined`. -/
def currentStepOf (steps : List FlowStep) (flow : Flow) : Option FlowStep :=
  indexAt steps (JNum.maxInt 0 (JNum.minInt (flow.step.addInt (-1)) ((steps.length : Int) - 1)))

/-- `currentStep?.meta?.name || ""`. -/
def currentMeta (cur : Option FlowStep) (name : Str) : Str :=
  match cur with
  | some st => metaGet st name
  | none => []

/-- Tier 1, flow continuation (the block `if (flow?.key)`), for the active
flow `flow`: `none` when the block ends by discarding the flow (no entry with
that question, or a template without steps). -/
def continueFlow (faqItems : List FaqItem) (flow : Flow) (lastUserText : Str) : Option TurnResult :=
  match faqItems.find? (fun it => it.q == flow.key) with
  | none => none
  | some item =>
    match parseFlowSteps item.a with
    | none => none
    | some steps =>
      if steps.isEmpty then none
      else
        let cur := currentStepOf steps flow
        let judged := judgeAnswer lastUserText (currentMeta cur "expect".toList)
          (currentMeta cur "choice".toList) flow.key
        if !judged.ok then
          match cur with
          | none => some (.error .typeError)
          | some st =>
            some (.respond { reply := buildRepairPrompt st.text, source := "faq_repair".toList
                             faq_flow := some flow, suggest_end := false
                             reply_options := buildReplyOptions st })
        else
          let slots := saveSlot flow.slots (currentMeta cur "slot".toList) judged.value
          match decideFlowReply flow.key slots with
          | some reply =>
            some (.respond { reply := reply, source := "faq_flow_decision".toList, faq_flow := none
                             suggest_end := true, reply_options := none })
          | none =>
            some (advancedResponse "faq_flow".toList
              (advanceSteps steps { flow with slots := slots } (flow.step.addInt 1)))

/-- Tier 2, a new FAQ match (flow start or single-shot answer), and the fall
through to the later tiers. -/
def freshMatch (lastUserText : Str) (pickedFaq : List ScoredFaq) : TurnResult :=
  match pickedFaq.head? with
  | none => .fallThrough lastUserText pickedFaq
  | some top =>
    if 10 ≤ top.score then
      match parseFlowSteps top.a with
      | some (st :: more) =>
        let newFlow := prefillSlotsFromFreeText
          { key := top.q, step := JNum.ofInt 1, slots := [] } (st :: more) lastUserText
        match decideFlowReply newFlow.key newFlow.slots with
        | some reply =>
          .respond { reply := reply, source := "faq_flow_decision_start".toList, faq_flow := none
                     suggest_end := true, reply_options := none }
        | none =>
          advancedResponse "faq_flow_start".toList (advanceSteps (st :: more) newFlow (JNum.ofInt 1))
      | _ =>
        .respond { reply := normalizeFaqAnswerForReply top.a, source := "faq".toList, faq_flow := none
                   suggest_end := true, reply_options := none }
    else .fallThrough lastUserText pickedFaq

/-- The flow state after the reset check and the topic-switch check. -/
def activeFlow (flow : Option Flow) (lastUserLower : Str) (topFaq : Option ScoredFaq) : Option Flow :=
  let flow1 := if containsResetWord lastUserLower then none else flow
  match flow1, topFaq with
  | some f, some top =>
    if !f.key.isEmpty && (decide (10 ≤ top.score) && top.q != f.key) then none else some f
  | f, _ => f

/-- One turn of `fetch` from the parsed request on: the catalog as fetched,
the caller-held `faq_flow` value and the content of the last user message. -/
def turn (catalog : List FaqItem) (faqFlow : JVal) (lastUserTextRaw : Str) : TurnResult :=
  let lastUserText := normalizeUserInput lastUserTextRaw
  let lastUserLower := toLowerCase lastUserText
  if lastUserText.isEmpty then
    .respond { reply := "ご用件を入力してください。".toList, source := "system".toList, faq_flow := none
               suggest_end := false, reply_options := none }
  else
    let faqItems := catalog.filter isEnabled
    let pickedFaq := pickRelevantFaq faqItems lastUserText 5
    match activeFlow (normalizeFlow faqFlow) lastUserLower pickedFaq.head? with
    | some flow =>
      if flow.key.isEmpty then freshMatch lastUserText pickedFaq
      else
        match continueFlow faqItems flow lastUserText with
        | some result => result
        | none => freshMatch lastUserText pickedFaq
    | none => freshMatch lastUserText pickedFaq

/-! ## Query fragments (`worker.js`) -/

/-- The alternatives of the particle expression of `splitForMatch`, in the
order written. -/
def particles : List Str :=
  ["の".toList, "を".toList, "は".toList, "が".toList, "に".toList, "で".toList, "と".toList,
   "も".toList, "か".toList, "へ".toList, "って".toList, "ください".toList, "について".toList,
   "ですか".toList, "です".toList, "ます".toList]

/-- `s.split(/p1|p2|.../)` for non-empty literal alternatives: `cur` is the
piece being read; a match of the first alternative that fits at the current
position ends the piece. `fuel` bounds the scan and `s.length` is enough. -/
def splitAltsAux (pats : List Str) : Nat → Str → Str → List Str
  | 0, cur, s => [cur ++ s]
  | _ + 1, cur, [] => [cur]
  | fuel + 1, cur, c :: cs =>
    match firstAlt pats (c :: cs) with
    | some p => cur :: splitAltsAux pats fuel [] ((c :: cs).drop (max p.length 1))
    | none => splitAltsAux pats fuel (cur ++ [c]) cs

/-- `s.split(/p1|p2|.../)`. -/
def splitAlts (pats : List Str) (s : Str) : List Str := splitAltsAux pats s.length [] s

/-- `[...new Set(xs)]`: the first occurrence of every element, in order. -/
def dedupFirst : List Str → List Str
  | [] => []
  | x :: xs => x :: (dedupFirst xs).filter (fun y => y != x)

/-- What `splitForMatch` pushes for one white-space chunk: the chunk itself,
then its particle-separated pieces of length 2 or more. -/
def chunkFragments (chunk : Str) : List Str :=
  chunk :: (splitAlts particles chunk).filter (fun p => decide (2 ≤ p.length))

/-- The array `result` of `splitForMatch` before duplicates are removed. -/
def splitPushes (text : Str) : List Str :=
  (splitOnSpaces (trim text)).flatMap chunkFragments

/-- `splitForMatch(text)`. -/
def splitForMatch (text : Str) : List Str := dedupFirst (splitPushes text)

/-! ## Sheet handlers (`gas_full.js`) -/

/-- The class `[Ａ-Ｚａ-ｚ０-９]`. -/
def isFullWidthAlnum (c : Char) : Bool :=
  (0xFF21 ≤ c.toNat && c.toNat ≤ 0xFF3A) || (0xFF41 ≤ c.toNat && c.toNat ≤ 0xFF5A) ||
    (0xFF10 ≤ c.toNat && c.toNat ≤ 0xFF19)

/-- The replacement `String.fromCharCode(ch.charCodeAt(0) - 0xFEE0)` of a
full-width letter or digit; other code units are kept. -/
def foldWidthChar (c : Char) : Char :=
  if isFullWidthAlnum c then Char.ofNat (c.toNat - 0xFEE0) else c

/-- `s.replace(/[\s　]+/g, " ")`: every maximal run of white space becomes one
space, written where the run ends. -/
def collapseSpaces : Str → Str
  | [] => []
  | [c] => if isJsSpace c then [' '] else [c]
  | c :: d :: rest =>
    if isJsSpace c then
      if isJsSpace d then collapseSpaces (d :: rest) else ' ' :: collapseSpaces (d :: rest)
    else c :: collapseSpaces (d :: rest)

/-- `normText_(s)`. -/
def normText_ (s : Str) : Str := trim (collapseSpaces ((toLowerCase s).map foldWidthChar))

/-- `tokenize_(s)`. -/
def tokenize_ (s : Str) : List Str := splitOnSpaces s

/-- `scoreText_(title, text, tokens, fullQuery)`. -/
def scoreText_ (title text : Str) (tokens : List Str) (fullQuery : Str) : Nat :=
  let hay := toLowerCase (title ++ " ".toList ++ text)
  let full := if !fullQuery.isEmpty && includes hay fullQuery then 20 else 0
  tokens.foldl (fun score tok => if includes hay tok then score + 5 else score) full

/-- The values of a sheet: rows of cells (strings, numbers, booleans). -/
abbrev Sheet := List (List JVal)

/-- `String(row[idx] || "")`. -/
def cellString (row : List JVal) (idx : Nat) : Str :=
  match row.get? idx with
  | some v => if truthy v then jsToString v else []
  | none => []

/-- `header.indexOf(name)`: `none` is `-1`. -/
def headerIndex (header : List Str) (name : Str) : Option Nat :=
  if header.contains name then some (header.indexOf name) else none

/-- `(idx >= 0) ? String(row[idx] || "") : ""`. -/
def optCell (row : List JVal) (idx : Option Nat) : Str :=
  match idx with
  | some i => cellString row i
  | none => []

/-- An item `{ doc_title, chunk_id, text }` of the knowledge response. -/
structure KnowledgeItem where
  doc_title : Str
  chunk_id : Str
  text : Str
deriving DecidableEq

/-- The `limit` of `handleKnowledge_`:
`Math.max(1, Math.min(parseInt(limit || "50", 10) || 50, 200))`. -/
def knowledgeLimit (limitParam : Option Str) : Nat :=
  let raw : Str := match limitParam with
    | some s => if s.isEmpty then "50".toList else s
    | none => "50".toList
  let n : Int := match parseInt10 raw with
    | some k => if k = 0 then 50 else k
    | none => 50
  (max 1 (min n 200)).toNat

/-- The rows of the sheet after the header that have a non-empty text cell,
as items, in sheet order. -/
def knowledgeRows (rows : List (List JVal)) (idxTitle idxChunk : Option Nat) (idxText : Nat) :
    List KnowledgeItem :=
  rows.filterMap (fun row =>
    if (cellString row idxText).isEmpty then none
    else some { doc_title := optCell row idxTitle, chunk_id := optCell row idxChunk
                text := cellString row idxText })

/-- The order of `scored.sort(function(a, b) { return b.score - a.score; })`. -/
def knowledgeScoreGe (x y : Nat × KnowledgeItem) : Prop := y.1 ≤ x.1

instance : DecidableRel knowledgeScoreGe := fun x y => inferInstanceAs (Decidable (y.1 ≤ x.1))

/-- `handleKnowledge_(e)`: the `items` of the response, for the sheet (`none`
when it does not exist) and the `q` and `limit` parameters of the request. -/
def handleKnowledge_ (sheet : Option Sheet) (qParam limitParam : Option Str) : List KnowledgeItem :=
  let qRaw := trim (qParam.getD [])
  let limit := knowledgeLimit limitParam
  match sheet with
  | none => []
  | some [] => []
  | some [_] => []
  | some (head :: rows) =>
    let headerLower := head.map (fun h => toLowerCase (trim (if truthy h then jsToString h else [])))
    let idxTitle := headerIndex headerLower "doc_title".toList
    let idxChunk := headerIndex headerLower "chunk_id".toList
    match headerIndex headerLower "text".toList with
    | none => []
    | some idxText =>
      let q := normText_ qRaw
      let tokens := tokenize_ q
      if tokens.isEmpty then
        (knowledgeRows rows idxTitle idxChunk idxText).take limit
      else
        let scored := (knowledgeRows rows idxTitle idxChunk idxText).filterMap (fun it =>
          let score := scoreText_ (normText_ it.doc_title) (normText_ it.text) tokens q
          if 0 < score then some (score, it) else none)
        ((scored.insertionSort knowledgeScoreGe).take limit).map (fun p => p.2)

/-! ## Knowledge retriever (`worker.js`) -/

/-- The class of the second pass of `stripSymbols`: slashes, the middle dot,
stops and commas, exclamation and question marks, hyphen, underscore, colons,
brackets, and `\n`, `\r`, `\t`. -/
def symbolChars : Str :=
  "/／・.,，。、!！?？-_:：「」『』【】()（）\n\r\t".toList

/-- `stripSymbols(s)`: the first pass removes the ASCII and the ideographic
space, the second the members of `symbolChars`. -/
def stripSymbols (s : Str) : Str :=
  (s.filter (fun c => !(c == ' ' || c == '　'))).filter (fun c => !symbolChars.contains c)

/-- The two-unit windows `needle[i] + needle[i + 1]`, in order. -/
def bigrams : Str → List Str
  | a :: b :: rest => [a, b] :: bigrams (b :: rest)
  | _ => []

/-- The quotient `hit / size` that `bigramOverlap` returns, kept as its two
whole-number parts (`size` is positive). -/
structure Overlap where
  hit : Nat
  size : Nat
deriving DecidableEq

/-- `bigramOverlap(needle, haystack)`: over the set of distinct bigrams of the
needle, the number found in the haystack and the size of the set; `0` (as
`0 / 1`) when either string is shorter than 2. -/
def bigramOverlap (needle haystack : Str) : Overlap :=
  if needle.length < 2 || haystack.length < 2 then ⟨0, 1⟩
  else
    let bgs := dedupFirst (bigrams needle)
    ⟨(bgs.filter (fun bg => includes haystack bg)).length, bgs.length⟩

/-- The test `bg >= 0.5`. -/
def Overlap.geHalf (o : Overlap) : Bool := decide (o.size ≤ 2 * o.hit)

/-- The value `Math.round(bg * 20)`: the whole number nearest to
`20 * hit / size`, a half rounding up. -/
def Overlap.round20 (o : Overlap) : Nat := (40 * o.hit + o.size) / (2 * o.size)

/-- The fragments both scoring loops run over:
`splitForMatch(nfkc(userText).toLowerCase()).slice(0, 10)`. -/
def roughFragments (nfkc : Str → Str) (userText : Str) : List Str :=
  (splitForMatch (toLowerCase (nfkc userText))).take 10

/-- The normalized query `norm = stripSymbols(t)`, where `t` is the
canonicalized, lower-cased, trimmed query. The canonicalization
`String.prototype.normalize("NFKC")` of the platform is the parameter `nfkc`. -/
def queryNorm (nfkc : Str → Str) (userText : Str) : Str :=
  stripSymbols (trim (toLowerCase (nfkc userText)))

/-- The normalized text `hayNorm` of a chunk with the trimmed title `title`
and the trimmed text `text`:
`stripSymbols(nfkc((title + "\n" + text).toLowerCase()))`. -/
def hayNormOf (nfkc : Str → Str) (title text : Str) : Str :=
  stripSymbols (nfkc (toLowerCase (title ++ '\n' :: text)))

/-- The score `pickRelevantKnowledge` computes for a chunk with the trimmed
title `title` and the trimmed text `text`. -/
def chunkScore (nfkc : Str → Str) (userText title text : Str) : Nat :=
  let norm := queryNorm nfkc userText
  let hayNorm := hayNormOf nfkc title text
  let rough := roughFragments nfkc userText
  let score0 := if includes hayNorm norm then 30 else 0
  let score1 := rough.foldl (fun score w =>
    let wNorm := stripSymbols w
    if wNorm.isEmpty || decide (wNorm.length < 2) then score
    else if includes hayNorm wNorm then score + min 12 (4 + wNorm.length / 2)
    else score) score0
  if decide (score1 < 12) && decide (4 ≤ norm.length) then
    rough.foldl (fun score w =>
      let wN := stripSymbols w
      if wN.isEmpty || decide (wN.length < 3) then score
      else if (bigramOverlap wN hayNorm).geHalf then score + (bigramOverlap wN hayNorm).round20
      else score) score1
  else score1

/-- A scored chunk `{ score, doc_title, chunk_id, text }`. -/
structure ScoredChunk where
  score : Nat
  doc_title : Str
  chunk_id : Str
  text : Str
deriving DecidableEq

/-- The array `scored` of `pickRelevantKnowledge` before sorting, in corpus
order: chunks with an empty text are skipped, chunks with score 0 are not
pushed. -/
def knowledgeCandidates (nfkc : Str → Str) (items : List KnowledgeItem) (userText : Str) :
    List ScoredChunk :=
  items.filterMap (fun it =>
    let title := trim it.doc_title
    let text := trim it.text
    if text.isEmpty then none
    else if 0 < chunkScore nfkc userText title text then
      some { score := chunkScore nfkc userText title text, doc_title := title
             chunk_id := it.chunk_id, text := text }
    else none)

/-- The order of `scored.sort((a, b) => b.score - a.score)`. -/
def chunkGe (x y : ScoredChunk) : Prop := y.score ≤ x.score

instance : DecidableRel chunkGe := fun x y => inferInstanceAs (Decidable (y.score ≤ x.score))

/-- `pickRelevantKnowledge(items, userText, limit)`; the sort is stable. -/
def pickRelevantKnowledge (nfkc : Str → Str) (items : List KnowledgeItem) (userText : Str)
    (limit : Nat) : List ScoredChunk :=
  let t := trim (toLowerCase (nfkc userText))
  if t.isEmpty then []
  else ((knowledgeCandidates nfkc items userText).insertionSort chunkGe).take limit

/-- NFKC on text whose only compatibility characters are full-width forms and
the ideographic space: `U+FF01`..`U+FF5E` fold to `U+0021`..`U+007E`,
`U+3000` to the space, every other code unit is kept. -/
def nfkcWidth (s : Str) : Str :=
  s.map (fun c =>
    if 0xFF01 ≤ c.toNat ∧ c.toNat ≤ 0xFF5E then Char.ofNat (c.toNat - 0xFEE0)
    else if c = '　' then ' '
    else c)

/-! ## FAQ sheet handler (`gas_full.js`) -/

/-- `handleFaq_(e)`: the `items` of the response, for the FAQ sheet (`none`
when it does not exist). Every item is returned with `enabled: true`. -/
def handleFaq_ (sheet : Option Sheet) : List FaqItem :=
  match sheet with
  | none => []
  | some [] => []
  | some [_] => []
  | some (head :: rows) =>
    let header := head.map (fun h => toLowerCase (trim (if truthy h then jsToString h else [])))
    let idxK := headerIndex header "k".toList
    let idxEnabled := headerIndex header "enabled".toList
    match headerIndex header "q".toList, headerIndex header "a".toList with
    | some idxQ, some idxA =>
      rows.filterMap (fun row =>
        let enabled := match idxEnabled with
          | some i => toUpperCase (trim (cellString row i))
          | none => "TRUE".toList
        if enabled == "FALSE".toList || enabled == "0".toList || enabled == "NO".toList then none
        else
          let q := trim (cellString row idxQ)
          let a := trim (cellString row idxA)
          if q.isEmpty || a.isEmpty then none
          else
            some { q := q, a := a
                   k := match idxK with
                     | some i => trim (cellString row i)
                     | none => []
                   enabled := some (.bool true) })
    | _, _ => []

/-! ## Vocabulary of the statements -/

/-- The step ends the scan of `advanceSteps`: it is tagged `final`, declares
no slot, or its slot does not read as filled in the flow. -/
def stepStops (flow : Flow) (st : FlowStep) : Bool :=
  st.tag == "final".toList || (metaGet st "slot".toList).isEmpty ||
    !slotFilled flow.slots (metaGet st "slot".toList)

/-- What `advanceSteps` returns when its scan ends at step number `j`, the
step `st`. -/
def advancedAt (flow : Flow) (j : Nat) (st : FlowStep) : Advanced :=
  if st.tag == "final".toList then
    { reply := st.text, newFlow := none, suggest_end := true, reply_options := none }
  else
    { reply := st.text
      newFlow := some { key := flow.key, step := JNum.ofInt (j : Int), slots := flow.slots }
      suggest_end := false
      reply_options := buildReplyOptions st }

/-! ## Example data -/

/-- A small catalog: a stepped topic of the decision table, a single-shot
answer, and a template that consists of one `final` step. -/
def exampleCatalog : List FaqItem :=
  [ { q := "入れ歯が痛い".toList
      a := "[[step1 expect=yesno slot=eating]]入れ歯を外すとお食事がしにくいですか？[[final]]ご予約をお取りください。".toList
      k := "入れ歯,義歯".toList
      enabled := some (.bool true) },
    { q := "診療時間".toList
      a := " 平日は9時から18時です。\\n土曜は13時までです。\r\n".toList
      k := "診療時間,何時".toList
      enabled := none },
    { q := "予約の変更".toList
      a := "[[final]]お電話でご連絡ください。".toList
      k := "予約変更,キャンセル".toList
      enabled := some (.str "TRUE".toList) } ]

/-- The steps of the first entry of `exampleCatalog`. -/
def exampleSteps : List FlowStep :=
  [ { tag := "step1".toList, text := "入れ歯を外すとお食事がしにくいですか？".toList
      meta := [("expect".toList, "yesno".toList), ("slot".toList, "eating".toList)] },
    { tag := "final".toList, text := "ご予約をお取りください。".toList, meta := [] } ]

/-- A caller-held flow state: the first topic of `exampleCatalog` at step 1
with no slot filled. -/
def exampleFlowState : JVal :=
  .obj [("key".toList, .str "入れ歯が痛い".toList), ("step".toList, .num ⟨1, 0⟩),
        ("slots".toList, .obj [])]

/-- The flow `normalizeFlow` reads from `exampleFlowState`. -/
def exampleFlow : Flow := { key := "入れ歯が痛い".toList, step := ⟨1, 0⟩, slots := [] }

/-- A three-step template as parsed: a step with a slot, a step without one,
and a `final` step. -/
def exampleThreeSteps : List FlowStep :=
  [ { tag := "step1".toList, text := "X".toList
      meta := [("expect".toList, "yesno".toList), ("slot".toList, "a".toList)] },
    { tag := "step2".toList, text := "Y".toList, meta := [] },
    { tag := "final".toList, text := "Z".toList, meta := [] } ]

/-- A flow over `exampleThreeSteps` whose slot `a` is filled. -/
def exampleFilledFlow : Flow :=
  { key := "k".toList, step := ⟨1, 0⟩, slots := [("a".toList, .str "yes".toList)] }

/-! ## Templates as written -/

/-- A step marker as written in a template: its tag and the attribute text
that follows the tag up to the closing brackets. -/
structure Marker where
  tag : Str
  attrRaw : Str

/-- The text `[[tag attrs]]` of a marker. -/
def renderMarker (m : Marker) : Str := "[[".toList ++ m.tag ++ m.attrRaw ++ "]]".toList

/-- The marker is written the way the marker expression reads it back: the tag
is `final`, or `step` followed by digits that the attribute text does not
continue, and the attribute text contains no `]`. -/
def Marker.WellFormed (m : Marker) : Prop :=
  (m.tag = "final".toList ∨
    ∃ ds, ds ≠ [] ∧ (∀ c ∈ ds, isDigit c = true) ∧ m.tag = "step".toList ++ ds ∧
      ∀ c, m.attrRaw.head? = some c → isDigit c = false) ∧
  ∀ c ∈ m.attrRaw, c ≠ ']'

/-- Some marker is written at the very start of `s`. -/
def MarkerAt (s : Str) : Prop := ∃ m rest, m.WellFormed ∧ s = renderMarker m ++ rest

/-- No marker begins inside the text `t` when `t` is followed by `rest`. -/
def MarkerFree (t rest : Str) : Prop := ∀ u v, t = u ++ v → v ≠ [] → ¬ MarkerAt (v ++ rest)

/-- A template body: markers, each followed by its text. -/
def renderSegments : List (Marker × Str) → Str
  | [] => []
  | p :: rest => renderMarker p.1 ++ p.2 ++ renderSegments rest

/-- Every marker of the body is well formed and no further marker begins
inside a text. -/
def SegmentsClean : List (Marker × Str) → Prop
  | [] => True
  | p :: rest => p.1.WellFormed ∧ MarkerFree p.2 (renderSegments rest) ∧ SegmentsClean rest

/-- The step a marker and its text yield: none when the text is blank. -/
def stepOfSegment (p : Marker × Str) : Option FlowStep :=
  if (trim p.2).isEmpty then none
  else some { tag := p.1.tag, text := trim p.2, meta := parseAttrs p.1.attrRaw }

/-- The matches the marker expression finds in a template body that starts at
offset `pos` of the text. -/
def expectedMatches (pos : Nat) : List (Marker × Str) → List MarkerMatch
  | [] => []
  | p :: rest =>
    { index := pos, length := (renderMarker p.1).length, tag := p.1.tag, attrRaw := p.1.attrRaw } ::
      expectedMatches (pos + (renderMarker p.1).length + p.2.length) rest

/-! ## Vocabulary of the judgement statements -/

/-- The fixed vocabulary of `parseYesNo`: the exact affirmative and negative
tokens. -/
def yesNoVocabulary : List Str :=
  ["はい".toList, "うん".toList, "yes".toList, "y".toList, "1".toList, "そう".toList,
   "ok".toList, "大丈夫".toList, "いいえ".toList, "いや".toList, "no".toList, "n".toList,
   "2".toList, "ちがう".toList, "違う".toList]

/-- The two buttons of a `yesno` step. -/
def yesNoButtons : List ReplyOption :=
  [{ label := "はい".toList, value := "はい".toList },
   { label := "いいえ".toList, value := "いいえ".toList }]

/-- The one-digit strings `1` to `9`. -/
def digitStrings19 : List Str :=
  ["1".toList, "2".toList, "3".toList, "4".toList, "5".toList, "6".toList, "7".toList,
   "8".toList, "9".toList]

/-! ## Further example data -/

/-- A catalog with one three-step topic that is not in the decision table. -/
def exampleCheckupCatalog : List FaqItem :=
  [ { q := "検診を受けたい".toList
      a := "[[step1 expect=yesno slot=first]]初めてですか？[[step2 expect=when slot=since]]前回はいつですか？[[final]]ご予約ください。".toList
      k := "検診,定期検診".toList
      enabled := none } ]

/-- A caller-held state for `exampleCheckupCatalog` whose step is 1.5. -/
def exampleFractionalState : JVal :=
  .obj [("key".toList, .str "検診を受けたい".toList), ("step".toList, .num ⟨15, 1⟩),
        ("slots".toList, .obj [])]

/-- A KNOWLEDGE sheet with a header row and 51 rows that all have text. -/
def exampleKnowledgeSheet : Sheet :=
  [.str "doc_title".toList, .str "chunk_id".toList, .str "text".toList] ::
    (List.range 51).map (fun i => [.str "資料".toList, .str (natDigits i), .str "本文".toList])

/-- A choice step without enumerated lines whose `choice` attribute is the
single digit `1`. -/
def exampleSingleDigitStep : FlowStep :=
  { tag := "step1".toList, text := "痛みはありますか？".toList
    meta := [("expect".toList, "choice".toList), ("choice".toList, "1".toList)] }

/-- A choice step whose two options are written on one line. -/
def exampleInlineChoiceStep : FlowStep :=
  { tag := "step1".toList, text := "1 ある / 2 ない".toList
    meta := [("expect".toList, "choice".toList), ("choice".toList, "12".toList)] }

/-- The colloquial paraphrases `normalizeUserInput` folds. -/
def paraphrases : List Str :=
  ["違います".toList, "ちがいます".toList, "違うです".toList, "はいです".toList, "そうです".toList,
   "そうだよ".toList, "ありません".toList, "なしです".toList]

/-- Every white-space code unit of the text is a single half-width space
that is followed by a code unit that is not white space, or ends the text. -/
def SingleSpaced : Str → Prop
  | [] => True
  | c :: rest =>
    (isJsSpace c = true → c = ' ' ∧ ∀ d, rest.head? = some d → isJsSpace d = false) ∧
      SingleSpaced rest

/-- A catalog entry with two keywords and a question of four characters. -/
def exampleScoredEntry : FaqItem :=
  { q := "診療時間".toList, a := "9時から18時までです。".toList, k := "時間, 診療 ,休診".toList
    enabled := none }


/-! ## Vocabulary of the decision table statements -/

/-- The five topic keys of the decision table. -/
def decisionTopics : List Str :=
  ["歯がしみる（冷たい・甘い・風でしみる）".toList, "入れ歯が痛い".toList, "入れ歯が割れた".toList,
   "歯がグラグラする".toList, "つめもの（かぶせもの・銀歯など）が取れた".toList]

/-- The slot `name` holds exactly the string `val`. -/
def Holds (s : Slots) (name val : String) : Prop := slotIs s name.toList val.toList = true

instance (s : Slots) (name val : String) : Decidable (Holds s name val) :=
  inferInstanceAs (Decidable (slotIs s name.toList val.toList = true))

/-! ## Vocabulary of the ranking statements -/

/-- The list `result` is the first `limit` elements of the ranking of the
candidates `cands`: the ranking holds the candidates in descending order of
score, and for every score the candidates with that score stand in it in
their original order. -/
def IsTopRanked {α : Type} (score : α → Nat) (cands result : List α) (limit : Nat) : Prop :=
  ∃ ranked : List α, result = ranked.take limit ∧ ranked.Perm cands ∧
    ranked.Pairwise (fun x y => score y ≤ score x) ∧
    ∀ k, ranked.filter (fun c => score c == k) = cands.filter (fun c => score c == k)

/-! ## Example catalog and corpus for the retrievers -/

/-- A catalog in which the first and the third entry score alike for the
query 予約の変更. -/
def exampleRankCatalog : List FaqItem :=
  [ { q := "予約したい".toList, a := "お電話ください。".toList, k := "予約".toList, enabled := none },
    { q := "予約を変えたい".toList, a := "前日までにご連絡ください。".toList, k := "予約,変更".toList
      enabled := none },
    { q := "予約の確認".toList, a := "受付でご確認ください。".toList, k := "予約".toList
      enabled := none } ]

/-- A corpus in which the first and the last chunk score alike for the query
入れ歯 調整, and the second chunk scores 0. -/
def exampleCorpus : List KnowledgeItem :=
  [ { doc_title := "入れ歯".toList, chunk_id := "c1".toList, text := "入れ歯の洗い方".toList },
    { doc_title := "案内".toList, chunk_id := "c2".toList, text := "診療時間のご案内".toList },
    { doc_title := "入れ歯".toList, chunk_id := "c3".toList, text := "入れ歯調整は予約制です".toList },
    { doc_title := "入れ歯".toList, chunk_id := "c4".toList, text := "入れ歯の修理".toList } ]

/-! ## Vocabulary of the knowledge score statements -/

/-- The symbol-stripped forms of the first 10 fragments of the query. -/
def strippedFragments (nfkc : Str → Str) (userText : Str) : List Str :=
  (roughFragments nfkc userText).map stripSymbols

/-- The points for fragments found verbatim: `min(12, 4 + floor(|w| / 2))`
for each stripped fragment `w` of length at least 2 that occurs in
`hayNorm`. -/
def fragmentPoints (hayNorm : Str) (frags : List Str) : Nat :=
  ((frags.filter (fun w => decide (2 ≤ w.length) && includes hayNorm w)).map
    (fun w => min 12 (4 + w.length / 2))).sum

/-- The bigram overlap of a fragment with the chunk as a rational number. -/
def overlapFraction (needle haystack : Str) : ℚ :=
  ((bigramOverlap needle haystack).hit : ℚ) / ((bigramOverlap needle haystack).size : ℚ)

/-- The points of the bigram pass: the rounded `20 * f` for each stripped
fragment of length at least 3 whose bigram overlap `f` with `hayNorm` is at
least one half. -/
def bigramPoints (hayNorm : Str) (frags : List Str) : Nat :=
  ((frags.filter (fun w => decide (3 ≤ w.length) && (bigramOverlap w hayNorm).geHalf)).map
    (fun w => (bigramOverlap w hayNorm).round20)).sum

/-! ## Vocabulary of the bigram statements -/

/-- The overlap counted over all sliding-window positions of the needle: the
number of positions whose two code units occur in the haystack, and the
number of positions `|needle| - 1`. -/
def positionOverlap (needle haystack : Str) : Overlap :=
  ⟨((bigrams needle).filter (fun bg => includes haystack bg)).length, needle.length - 1⟩

/-! ## Example FAQ sheet -/

/-- A FAQ sheet with five rows: the `enabled` cell of the second row is the
boolean `false`, that of the third the number `0`, that of the fourth the
text `false` and that of the fifth the text `No`. -/
def exampleFaqSheet : Sheet :=
  [ [.str "q".toList, .str "a".toList, .str "k".toList, .str "enabled".toList],
    [.str "診療時間".toList, .str "9時から18時までです。".toList, .str "時間".toList, .bool true],
    [.str "休診日".toList, .str "日曜と祝日です。".toList, .str "休診".toList, .bool false],
    [.str "駐車場".toList, .str "3台分あります。".toList, .str "駐車".toList, .num ⟨0, 0⟩],
    [.str "予約方法".toList, .str "お電話ください。".toList, .str "予約".toList, .str "false".toList],
    [.str "支払い".toList, .str "現金のみです。".toList, .str "支払".toList, .str "No".toList] ]

/-! ## Vocabulary of the choice and time statements -/

/-- The presence and pain phrases of `normalizeChoiceJa12`, in the order
tested. -/
def presencePhrases : List Str :=
  ["ある".toList, "あり".toList, "痛".toList, "いた".toList, "しみ".toList, "染み".toList,
   "ズキ".toList, "うず".toList, "我慢できない".toList, "無理".toList]

/-- The absence and acceptable phrases of `normalizeChoiceJa12`, in the order
tested. -/
def absencePhrases : List Str :=
  ["ない".toList, "なし".toList, "問題ない".toList, "大丈夫".toList, "平気".toList,
   "特にない".toList, "ありません".toList, "我慢できる".toList]

/-! ## Vocabulary of the flow-state statements -/

/-- The JSON value of an emitted flow state `{ key, step, slots }` whose slots
are a plain object, as the caller holds it and sends it back. -/
def flowJson (f : Flow) : JVal :=
  .obj [("key".toList, .str f.key), ("step".toList, .num f.step), ("slots".toList, .obj f.slots)]

/-- A run of flow-continuation turns over the catalog `faqItems`, one per
utterance, each answered from tier 1 with the source `faq_flow` and a
non-null flow state that is the state of the next turn: from the state `f`
the utterances lead to the state `g`. -/
def AcceptedChain (faqItems : List FaqItem) : Flow → List Str → Flow → Prop
  | f, [], g => f = g
  | f, u :: us, g =>
    ∃ r f1, continueFlow faqItems f u = some (.respond r) ∧ r.source = "faq_flow".toList ∧
      r.faq_flow = some f1 ∧ AcceptedChain faqItems f1 us g

/-- A catalog with one topic of two steps that is not in the decision table. -/
def exampleTwoStepCatalog : List FaqItem :=
  [ { q := "検診を受けたい".toList
      a := "[[step1 expect=yesno slot=first]]初めてですか？[[step2 expect=when slot=since]]前回はいつですか？".toList
      k := "検診".toList
      enabled := none } ]

/-- A caller-held state for `exampleTwoStepCatalog` whose step is 50. -/
def exampleStep50State : JVal :=
  .obj [("key".toList, .str "検診を受けたい".toList), ("step".toList, .num ⟨50, 0⟩),
        ("slots".toList, .obj [])]

/-- A caller-held state for `exampleTwoStepCatalog` at step 1. -/
def exampleStep1State : JVal :=
  .obj [("key".toList, .str "検診を受けたい".toList), ("step".toList, .num ⟨1, 0⟩),
        ("slots".toList, .obj [])]

/-- A step that declares no slot. -/
def examplePlainStep : FlowStep :=
  { tag := "step1".toList, text := "ご用件をどうぞ。".toList, meta := [] }

/-- The state `exampleTwoStepCatalog` reaches from step 1 after the answer
`はい`. -/
def exampleStep2Flow : Flow :=
  { key := "検診を受けたい".toList, step := ⟨2, 0⟩, slots := [("first".toList, .str "yes".toList)] }

/-- The active flow of `exampleStep1State`. -/
def exampleStep1Flow : Flow :=
  { key := "検診を受けたい".toList, step := ⟨1, 0⟩, slots := [] }

/-- The two steps of the template of `exampleTwoStepCatalog`. -/
def exampleTwoSteps : List FlowStep :=
  [ { tag := "step1".toList, text := "初めてですか？".toList
      meta := [("expect".toList, "yesno".toList), ("slot".toList, "first".toList)] },
    { tag := "step2".toList, text := "前回はいつですか？".toList
      meta := [("expect".toList, "when".toList), ("slot".toList, "since".toList)] } ]

/-! ## Theorems -/

theorem activeFlow_none (l : Str) (top : Option ScoredFaq) : activeFlow none l top = none := by
  unfold activeFlow
  split <;> simp_all

theorem activeFlow_reset (flow : Option Flow) (l : Str) (top : Option ScoredFaq)
    (h : containsResetWord l = true) : activeFlow flow l top = none := by
  unfold activeFlow
  simp [h]

theorem activeFlow_switch (f : Flow) (l : Str) (top : ScoredFaq)
    (hs : 10 ≤ top.score) (hq : top.q ≠ f.key) (hk : f.key ≠ []) :
    activeFlow (some f) l (some top) = none := by
  unfold activeFlow
  by_cases hr : containsResetWord l = true
  · simp [hr]
  · simp [hr, hs, hq, hk]

theorem normalizeFlow_some (v : JVal) (f : Flow) (h : normalizeFlow v = some f) :
    ∃ props, v = .obj props ∧ flowStepOf props = some f.step ∧ f.key = flowKeyOf props ∧
      f.slots = flowSlotsOf props ∧ f.key ≠ [] ∧ f.step.ltInt 1 = false ∧ f.step.gtInt 120 = false := by
  unfold normalizeFlow at h
  cases v with
  | obj props =>
    simp only at h
    cases hst : flowStepOf props with
    | none => simp [hst] at h
    | some st =>
      simp only [hst] at h
      split at h
      · exact absurd h (by simp)
      · rename_i hc
        simp only [Option.some.injEq] at h
        subst h
        simp only [Bool.or_eq_true, not_or, Bool.not_eq_true, List.isEmpty_eq_true] at hc
        exact ⟨props, rfl, hst, rfl, rfl, by simpa using hc.1.1, hc.1.2, hc.2⟩
  | _ => simp at h

theorem normalizeFlow_key_ne (v : JVal) (f : Flow) (h : normalizeFlow v = some f) : f.key ≠ [] := by
  obtain ⟨_, _, _, _, _, hk, _⟩ := normalizeFlow_some v f h
  exact hk

/-- The turn with no flow state: only the fresh-match tier runs. -/
theorem turn_null (catalog : List FaqItem) (u : Str) :
    turn catalog .null u =
      if (normalizeUserInput u).isEmpty then
        .respond { reply := "ご用件を入力してください。".toList, source := "system".toList, faq_flow := none
                   suggest_end := false, reply_options := none }
      else freshMatch (normalizeUserInput u)
        (pickRelevantFaq (catalog.filter isEnabled) (normalizeUserInput u) 5) := by
  unfold turn
  simp only [show normalizeFlow .null = none from rfl, activeFlow_none]

/-- A turn whose flow state is discarded before tier 1 equals the turn with no
flow state. -/
theorem turn_of_activeFlow_none (catalog : List FaqItem) (faqFlow : JVal) (u : Str)
    (h : activeFlow (normalizeFlow faqFlow) (toLowerCase (normalizeUserInput u))
      (pickRelevantFaq (catalog.filter isEnabled) (normalizeUserInput u) 5).head? = none) :
    turn catalog faqFlow u = turn catalog .null u := by
  rw [turn_null]
  unfold turn
  simp only [h]

/-! ### Whole step numbers -/

@[simp] theorem JNum.ofInt_addInt (n k : Int) : (JNum.ofInt n).addInt k = JNum.ofInt (n + k) := by
  simp [JNum.ofInt, JNum.addInt]

@[simp] theorem JNum.ofInt_leInt (n k : Int) : (JNum.ofInt n).leInt k = decide (n ≤ k) := by
  simp [JNum.ofInt, JNum.leInt]

@[simp] theorem JNum.ofInt_ltInt (n k : Int) : (JNum.ofInt n).ltInt k = decide (n < k) := by
  simp [JNum.ofInt, JNum.ltInt]

@[simp] theorem JNum.ofInt_gtInt (n k : Int) : (JNum.ofInt n).gtInt k = decide (k < n) := by
  simp [JNum.ofInt, JNum.gtInt]

theorem JNum.ofInt_toIndex (n : Nat) : (JNum.ofInt (n : Int)).toIndex = some n := by
  simp [JNum.ofInt, JNum.toIndex]

theorem indexAt_ofInt {α : Type} (xs : List α) (n : Nat) :
    indexAt xs (JNum.ofInt (n : Int)) = xs.get? n := by
  simp [indexAt, JNum.ofInt_toIndex]

theorem JNum.maxInt_ofInt (k n : Int) : JNum.maxInt k (JNum.ofInt n) = JNum.ofInt (max k n) := by
  unfold JNum.maxInt
  by_cases h : n < k
  · simp [h, max_eq_left (le_of_lt h)]
  · simp [h, max_eq_right (not_lt.mp h)]

/-- The step ends the scan of `advanceSteps`: it is tagged `final`, declares
no slot, or its slot does not read as filled. -/
theorem advanceLoop_step (steps : List FlowStep) (flow : Flow) (fuel n : Nat) (st : FlowStep)
    (hn : 1 ≤ n) (hst : steps.get? (n - 1) = some st) :
    advanceLoop steps flow (fuel + 1) (JNum.ofInt (n : Int)) =
      if st.tag == "final".toList then
        .ok { reply := st.text, newFlow := none, suggest_end := true, reply_options := none }
      else if !(metaGet st "slot".toList).isEmpty && slotFilled flow.slots (metaGet st "slot".toList) then
        advanceLoop steps flow fuel (JNum.ofInt ((n + 1 : Nat) : Int))
      else
        .ok { reply := st.text
              newFlow := some { key := flow.key, step := JNum.ofInt (n : Int), slots := flow.slots }
              suggest_end := false
              reply_options := buildReplyOptions st } := by
  have hlen : n ≤ steps.length := by
    have := List.get?_eq_some.mp hst
    obtain ⟨h, _⟩ := this
    omega
  have hidx : indexAt steps ((JNum.ofInt (n : Int)).addInt (-1)) = some st := by
    have : (n : Int) + (-1) = ((n - 1 : Nat) : Int) := by omega
    rw [JNum.ofInt_addInt, this, indexAt_ofInt, hst]
  rw [JNum.ofInt_addInt] at hidx
  rw [advanceLoop]
  simp only [JNum.ofInt_leInt, Nat.cast_le, hlen, decide_True, if_true, hidx, JNum.ofInt_addInt,
    Nat.cast_add, Nat.cast_one]

theorem advanceLoop_past (steps : List FlowStep) (flow : Flow) (fuel n : Nat)
    (hn : steps.length < n) :
    advanceLoop steps flow (fuel + 1) (JNum.ofInt (n : Int)) = .ok closingAdvanced := by
  rw [advanceLoop]
  simp [JNum.ofInt_leInt, Nat.not_le.mpr hn]

theorem stepStops_false (flow : Flow) (st : FlowStep) (h : stepStops flow st = false) :
    (st.tag == "final".toList) = false ∧ (metaGet st "slot".toList).isEmpty = false ∧
      slotFilled flow.slots (metaGet st "slot".toList) = true := by
  unfold stepStops at h
  simp only [Bool.or_eq_false_iff, Bool.not_eq_false'] at h
  exact ⟨h.1.1, h.1.2, h.2⟩

theorem advanceLoop_least (steps : List FlowStep) (flow : Flow) :
    ∀ (fuel m j : Nat) (st : FlowStep), 1 ≤ m → m ≤ j → j - m < fuel →
      steps.get? (j - 1) = some st → stepStops flow st = true →
      (∀ i st', m ≤ i → i < j → steps.get? (i - 1) = some st' → stepStops flow st' = false) →
      advanceLoop steps flow fuel (JNum.ofInt (m : Int)) = .ok (advancedAt flow j st) := by
  intro fuel
  induction fuel with
  | zero => intro m j st _ _ h; omega
  | succ fuel ih =>
    intro m j st hm hmj hfuel hst hstop hbefore
    have hjlen : j - 1 < steps.length := (List.get?_eq_some.mp hst).1
    rcases Nat.eq_or_lt_of_le hmj with heq | hlt
    · subst heq
      rw [advanceLoop_step steps flow fuel m st hm hst]
      unfold advancedAt
      by_cases hfin : (st.tag == "final".toList) = true
      · rw [if_pos hfin, if_pos hfin]
      · rw [if_neg hfin, if_neg hfin]
        have hcond : (!(metaGet st "slot".toList).isEmpty &&
            slotFilled flow.slots (metaGet st "slot".toList)) = false := by
          unfold stepStops at hstop
          rw [Bool.not_eq_true] at hfin
          rw [hfin, Bool.false_or, Bool.or_eq_true] at hstop
          rcases hstop with h | h
          · rw [h]; rfl
          · rw [Bool.not_eq_true'] at h
            rw [h, Bool.and_false]
        rw [if_neg (by rw [hcond]; exact Bool.false_ne_true)]
    · have hmlen : m - 1 < steps.length := by omega
      obtain ⟨stm, hstm⟩ : ∃ stm, steps.get? (m - 1) = some stm :=
        ⟨steps.get ⟨m - 1, hmlen⟩, List.get?_eq_get hmlen⟩
      obtain ⟨h1, h2, h3⟩ := stepStops_false flow stm (hbefore m stm (le_refl m) hlt hstm)
      rw [advanceLoop_step steps flow fuel m stm hm hstm]
      simp only [h1, h2, h3, Bool.false_eq_true, if_false, Bool.not_false, Bool.and_self, if_true]
      exact ih (m + 1) j st (by omega) (by omega) (by omega) hst hstop
        (fun i st' hi hij hget => hbefore i st' (by omega) hij hget)

theorem advanceLoop_exhaust (steps : List FlowStep) (flow : Flow) :
    ∀ (fuel m : Nat), 1 ≤ m → steps.length + 1 - m < fuel →
      (∀ j st, m ≤ j → steps.get? (j - 1) = some st → stepStops flow st = false) →
      advanceLoop steps flow fuel (JNum.ofInt (m : Int)) = .ok closingAdvanced := by
  intro fuel
  induction fuel with
  | zero => intro m _ h; omega
  | succ fuel ih =>
    intro m hm hfuel hall
    by_cases hlen : steps.length < m
    · exact advanceLoop_past steps flow fuel m hlen
    · have hmlen : m - 1 < steps.length := by omega
      obtain ⟨stm, hstm⟩ : ∃ stm, steps.get? (m - 1) = some stm :=
        ⟨steps.get ⟨m - 1, hmlen⟩, List.get?_eq_get hmlen⟩
      obtain ⟨h1, h2, h3⟩ := stepStops_false flow stm (hall m stm (le_refl m) hstm)
      rw [advanceLoop_step steps flow fuel m stm hm hstm]
      simp only [h1, h2, h3, Bool.false_eq_true, if_false, Bool.not_false, Bool.and_self, if_true]
      exact ih (m + 1) (by omega) (by omega) (fun j st hj hget => hall j st (by omega) hget)

theorem advanceSteps_whole (steps : List FlowStep) (flow : Flow) (startFrom : Int) :
    advanceSteps steps flow (JNum.ofInt startFrom) =
      advanceLoop steps flow (steps.length + 1) (JNum.ofInt (((max 1 startFrom).toNat : Nat) : Int)) := by
  unfold advanceSteps
  rw [JNum.maxInt_ofInt]
  have : (((max 1 startFrom).toNat : Nat) : Int) = max 1 startFrom :=
    Int.toNat_of_nonneg (le_trans (by decide) (le_max_left 1 startFrom))
  rw [this]

/-- The result of `advanceSteps` for a whole `startFrom`, with
`m = max(1, startFrom)`: the closing message when no step numbered `m` or
later stops the scan, and otherwise the result at the least step number from
`m` on whose step stops the scan; every step skipped before it has a slot
that is filled. -/
theorem advanceSteps_least_stop (steps : List FlowStep) (flow : Flow) (startFrom : Int) :
    ((∀ j st, (max 1 startFrom).toNat ≤ j → steps.get? (j - 1) = some st →
        stepStops flow st = false) →
      advanceSteps steps flow (JNum.ofInt startFrom) = .ok closingAdvanced) ∧
    (∀ j st, (max 1 startFrom).toNat ≤ j → steps.get? (j - 1) = some st →
      stepStops flow st = true →
      (∀ i st', (max 1 startFrom).toNat ≤ i → i < j → steps.get? (i - 1) = some st' →
        stepStops flow st' = false) →
      advanceSteps steps flow (JNum.ofInt startFrom) = .ok (advancedAt flow j st) ∧
      (∀ i st', (max 1 startFrom).toNat ≤ i → i < j → steps.get? (i - 1) = some st' →
        (metaGet st' "slot".toList).isEmpty = false ∧
          slotFilled flow.slots (metaGet st' "slot".toList) = true)) := by
  have hm : 1 ≤ (max 1 startFrom).toNat := by
    have : (1 : Int) ≤ max 1 startFrom := le_max_left 1 startFrom
    omega
  refine ⟨fun hall => ?_, fun j st hj hst hstop hbefore => ⟨?_, ?_⟩⟩
  · rw [advanceSteps_whole]
    exact advanceLoop_exhaust steps flow _ _ hm (by omega) hall
  · rw [advanceSteps_whole]
    have hjlen : j - 1 < steps.length := (List.get?_eq_some.mp hst).1
    exact advanceLoop_least steps flow _ _ j st hm hj (by omega) hst hstop hbefore
  · intro i st' hi hij hget
    exact (stepStops_false flow st' (hbefore i st' hi hij hget)).2

/-- From a whole start the scan of `advanceSteps` always returns: either the
closing message, or the result at the least step that stops the scan. -/
theorem advanceLoop_total (steps : List FlowStep) (flow : Flow) :
    ∀ (fuel m : Nat), 1 ≤ m → steps.length + 1 - m < fuel →
      advanceLoop steps flow fuel (JNum.ofInt (m : Int)) = .ok closingAdvanced ∨
      ∃ j st, m ≤ j ∧ steps.get? (j - 1) = some st ∧ stepStops flow st = true ∧
        (∀ i st', m ≤ i → i < j → steps.get? (i - 1) = some st' → stepStops flow st' = false) ∧
        advanceLoop steps flow fuel (JNum.ofInt (m : Int)) = .ok (advancedAt flow j st) := by
  intro fuel
  induction fuel with
  | zero => intro m _ h; omega
  | succ fuel ih =>
    intro m hm hfuel
    by_cases hlen : steps.length < m
    · exact Or.inl (advanceLoop_past steps flow fuel m hlen)
    · have hmlen : m - 1 < steps.length := by omega
      obtain ⟨stm, hstm⟩ : ∃ stm, steps.get? (m - 1) = some stm :=
        ⟨steps.get ⟨m - 1, hmlen⟩, List.get?_eq_get hmlen⟩
      cases hstop : stepStops flow stm with
      | true =>
        refine Or.inr ⟨m, stm, le_refl m, hstm, hstop, fun i st' hi hlt _ => by omega, ?_⟩
        exact advanceLoop_least steps flow (fuel + 1) m m stm hm (le_refl m) (by omega) hstm hstop
          (fun i st' hi hlt _ => by omega)
      | false =>
        obtain ⟨h1, h2, h3⟩ := stepStops_false flow stm hstop
        have hrec : advanceLoop steps flow (fuel + 1) (JNum.ofInt (m : Int)) =
            advanceLoop steps flow fuel (JNum.ofInt ((m + 1 : Nat) : Int)) := by
          rw [advanceLoop_step steps flow fuel m stm hm hstm]
          simp only [h1, h2, h3, Bool.false_eq_true, if_false, Bool.not_false, Bool.and_self, if_true]
        rcases ih (m + 1) (by omega) (by omega) with hc | ⟨j, st, hj, hget, hst, hbefore, heq⟩
        · exact Or.inl (hrec.trans hc)
        · refine Or.inr ⟨j, st, by omega, hget, hst, ?_, hrec.trans heq⟩
          intro i st' hi hlt hget'
          rcases Nat.eq_or_lt_of_le hi with he | hl
          · subst he
            rw [hstm] at hget'
            cases hget'
            exact hstop
          · exact hbefore i st' (by omega) hlt hget'

/-- The shape of every result of `advanceSteps` from a whole start: no error;
a returned flow has the key and slots of the flow passed in, a whole step
within the step list, and comes with `suggest_end` false; no returned flow
comes with `suggest_end` true. -/
theorem advanceSteps_whole_shape (steps : List FlowStep) (flow : Flow) (startFrom : Int) :
    ∃ a, advanceSteps steps flow (JNum.ofInt startFrom) = .ok a ∧
      (a.newFlow = none → a.suggest_end = true) ∧
      (∀ f, a.newFlow = some f →
        a.suggest_end = false ∧ f.key = flow.key ∧ f.slots = flow.slots ∧
        ∃ (j : Nat) (st : FlowStep), f.step = JNum.ofInt (j : Int) ∧ (max 1 startFrom).toNat ≤ j ∧
          steps.get? ((j : Nat) - 1) = some st ∧ a.reply = st.text ∧
          a.reply_options = buildReplyOptions st ∧ stepStops flow st = true ∧
          (∀ i st', (max 1 startFrom).toNat ≤ i → i < j → steps.get? (i - 1) = some st' →
            stepStops flow st' = false)) := by
  have hm : 1 ≤ (max 1 startFrom).toNat := by
    have : (1 : Int) ≤ max 1 startFrom := le_max_left 1 startFrom
    omega
  rw [advanceSteps_whole]
  rcases advanceLoop_total steps flow (steps.length + 1) _ hm (by omega) with
    hc | ⟨j, st, hj, hget, hst, hbefore, heq⟩
  · exact ⟨closingAdvanced, hc, fun _ => rfl, fun f hf => by simp [closingAdvanced] at hf⟩
  · refine ⟨advancedAt flow j st, heq, ?_, ?_⟩
    · intro hnone
      unfold advancedAt at hnone ⊢
      by_cases hfin : (st.tag == "final".toList) = true
      · rw [if_pos hfin]
      · rw [if_neg hfin] at hnone
        simp at hnone
    · intro f hf
      unfold advancedAt at hf ⊢
      by_cases hfin : (st.tag == "final".toList) = true
      · rw [if_pos hfin] at hf
        simp at hf
      · rw [if_neg hfin] at hf ⊢
        simp only [Option.some.injEq] at hf
        subst hf
        exact ⟨rfl, rfl, rfl, j, st, rfl, hj, hget, rfl, rfl, hst, hbefore⟩

/-! ### The tiers of a turn -/

theorem activeFlow_some (f g : Flow) (l : Str) (top : Option ScoredFaq) (hk : f.key ≠ [])
    (h : activeFlow (some f) l top = some g) :
    g = f ∧ containsResetWord l = false ∧
      ∀ t, top = some t → 10 ≤ t.score → t.q = f.key := by
  unfold activeFlow at h
  cases hr : containsResetWord l with
  | true => simp [hr] at h
  | false =>
    simp only [hr, Bool.false_eq_true, if_false] at h
    cases top with
    | none =>
      simp only [Option.some.injEq] at h
      exact ⟨h.symm, rfl, fun t ht => by simp at ht⟩
    | some t0 =>
      simp only at h
      split at h
      · simp at h
      · rename_i hc
        simp only [Option.some.injEq] at h
        refine ⟨h.symm, rfl, fun t ht hs => ?_⟩
        simp only [Option.some.injEq] at ht
        subst ht
        by_contra hne
        apply hc
        simp [hk, hs, hne]

theorem activeFlow_keep (f : Flow) (l : Str) (top : Option ScoredFaq)
    (hr : containsResetWord l = false)
    (ht : ∀ t, top = some t → 10 ≤ t.score → t.q = f.key) :
    activeFlow (some f) l top = some f := by
  unfold activeFlow
  simp only [hr, Bool.false_eq_true, if_false]
  cases top with
  | none => rfl
  | some t0 =>
    simp only
    by_cases hs : 10 ≤ t0.score
    · have := ht t0 rfl hs
      simp [this]
    · simp [hs]

theorem prefill_key (flow : Flow) (steps : List FlowStep) (t : Str) :
    (prefillSlotsFromFreeText flow steps t).key = flow.key := by
  unfold prefillSlotsFromFreeText
  simp only
  split <;> rfl

theorem pickRelevantFaq_nonempty (items : List FaqItem) (t : Str) (top : ScoredFaq)
    (h : (pickRelevantFaq items t 5).head? = some top) : t ≠ [] := by
  intro ht
  subst ht
  simp [pickRelevantFaq, toLowerCase] at h

/-- The fresh-match tier raises no error, and a flow it returns is keyed by
the question of the top-ranked entry. -/
theorem freshMatch_shape (text : Str) (picked : List ScoredFaq) :
    (∀ e, freshMatch text picked ≠ .error e) ∧
    (∀ r f, freshMatch text picked = .respond r → r.faq_flow = some f →
      ∃ top, picked.head? = some top ∧ f.key = top.q) := by
  unfold freshMatch
  cases hh : picked.head? with
  | none => exact ⟨fun e h => by simp at h, fun r f h => by simp at h⟩
  | some top =>
    simp only
    by_cases hs : 10 ≤ top.score
    · simp only [hs, if_true]
      split
      · rename_i st more hsteps
        split
        · refine ⟨fun e h => by simp at h, fun r f h hf => ?_⟩
          simp only [TurnResult.respond.injEq] at h
          subst h
          simp at hf
        · obtain ⟨a, ha, _, hsome⟩ := advanceSteps_whole_shape (st :: more)
            (prefillSlotsFromFreeText { key := top.q, step := JNum.ofInt 1, slots := [] }
              (st :: more) text) 1
          rw [ha]
          refine ⟨fun e h => by simp [advancedResponse] at h, fun r f h hf => ?_⟩
          simp only [advancedResponse, TurnResult.respond.injEq] at h
          subst h
          obtain ⟨_, hkey, _⟩ := hsome f hf
          exact ⟨top, rfl, by rw [hkey, prefill_key]⟩
      · refine ⟨fun e h => by simp at h, fun r f h hf => ?_⟩
        simp only [TurnResult.respond.injEq] at h
        subst h
        simp at hf
    · simp only [hs, if_false]
      exact ⟨fun e h => by simp at h, fun r f h => by simp at h⟩

theorem turn_null_shape (catalog : List FaqItem) (u : Str) :
    (∀ e, turn catalog .null u ≠ .error e) ∧
    (∀ r f, turn catalog .null u = .respond r → r.faq_flow = some f →
      ∃ top, (pickRelevantFaq (catalog.filter isEnabled) (normalizeUserInput u) 5).head? = some top ∧
        f.key = top.q) := by
  rw [turn_null]
  split
  · refine ⟨fun e h => by simp at h, fun r f h hf => ?_⟩
    simp only [TurnResult.respond.injEq] at h
    subst h
    simp at hf
  · exact freshMatch_shape _ _

/-- C5. Scenario A (single-shot): when no flow is active and the top FAQ match
scores at least 10 with an answer template in which the parser finds no step
marker, the turn returns source `faq`, the reply is the template text with
literal backslash-n sequences turned into line feeds, CR LF turned into LF and
the ends trimmed, `faq_flow` is null and `suggest_end` is true. -/
theorem C5_single_shot (catalog : List FaqItem) (faqFlow : JVal) (u : Str) (top : ScoredFaq)
    (hflow : normalizeFlow faqFlow = none)
    (htop : (pickRelevantFaq (catalog.filter isEnabled) (normalizeUserInput u) 5).head? = some top)
    (hscore : 10 ≤ top.score)
    (hplain : matchAllMarkers (normalizeFaqAnswerForReply top.a) = []) :
    turn catalog faqFlow u =
      .respond { reply := trim (replaceAlts [['\r', '\n']] ['\n'] (replaceAlts [['\\', 'n']] ['\n'] top.a))
                 source := "faq".toList, faq_flow := none, suggest_end := true
                 reply_options := none } := by
  have hne : normalizeUserInput u ≠ [] := pickRelevantFaq_nonempty _ _ top htop
  have hparse : parseFlowSteps top.a = none := by
    unfold parseFlowSteps
    simp [hplain]
  unfold turn
  simp only [hflow, activeFlow_none, List.isEmpty_eq_true, hne, if_false]
  unfold freshMatch
  simp only [htop, hscore, if_true, hparse]
  rfl

/-- C6. Scenario D (reset): for every catalog, every caller-supplied flow state
and every utterance whose normalized, lower-cased text contains one of the
reset phrases リセット, 最初から, はじめから, やりなお, or is exactly `reset`, the
result of the turn is identical to the result for the same utterance with no
flow state. -/
theorem C6_reset_clears_flow (catalog : List FaqItem) (faqFlow : JVal) (u : Str)
    (h : includes (toLowerCase (normalizeUserInput u)) "リセット".toList = true ∨
      includes (toLowerCase (normalizeUserInput u)) "最初から".toList = true ∨
      includes (toLowerCase (normalizeUserInput u)) "はじめから".toList = true ∨
      includes (toLowerCase (normalizeUserInput u)) "やりなお".toList = true ∨
      toLowerCase (normalizeUserInput u) = "reset".toList) :
    turn catalog faqFlow u = turn catalog .null u := by
  apply turn_of_activeFlow_none
  apply activeFlow_reset
  unfold containsResetWord
  rcases h with h | h | h | h | h
  · simp only [h, Bool.or_true, Bool.true_or]
  · simp only [h, Bool.or_true, Bool.true_or]
  · simp only [h, Bool.or_true, Bool.true_or]
  · simp only [h, Bool.or_true, Bool.true_or]
  · rw [h]
    decide

/-- C7. Scenario E (topic switch): whenever a flow is active and the top-ranked
FAQ entry for the utterance scores at least 10 and its question differs from
the key of the active flow, the active flow is discarded: the result of the
turn is identical to the result for the same utterance with no flow state, and
any `faq_flow` returned carries the question of the new entry as its key. -/
theorem C7_topic_switch (catalog : List FaqItem) (faqFlow : JVal) (u : Str) (f : Flow)
    (top : ScoredFaq)
    (hflow : normalizeFlow faqFlow = some f)
    (htop : (pickRelevantFaq (catalog.filter isEnabled) (normalizeUserInput u) 5).head? = some top)
    (hscore : 10 ≤ top.score) (hq : top.q ≠ f.key) :
    turn catalog faqFlow u = turn catalog .null u ∧
    (∀ r g, turn catalog faqFlow u = .respond r → r.faq_flow = some g → g.key = top.q) := by
  have heq : turn catalog faqFlow u = turn catalog .null u := by
    apply turn_of_activeFlow_none
    rw [hflow, htop]
    exact activeFlow_switch f _ top hscore hq (normalizeFlow_key_ne faqFlow f hflow)
  refine ⟨heq, fun r g hr hg => ?_⟩
  rw [heq] at hr
  obtain ⟨t, ht, hkey⟩ := (turn_null_shape catalog u).2 r g hr hg
  rw [htop] at ht
  cases ht
  exact hkey

/-- C8. Vanished or unparsable template: if the key of the active flow equals
the question of no enabled catalog entry, or the template of the entry found
for it parses to no steps, the turn raises no error and its result is
identical to the result for the same utterance with no flow state. -/
theorem C8_vanished_template (catalog : List FaqItem) (faqFlow : JVal) (u : Str) (f : Flow)
    (hflow : normalizeFlow faqFlow = some f)
    (hgone : (catalog.filter isEnabled).find? (fun it => it.q == f.key) = none ∨
      ∃ item, (catalog.filter isEnabled).find? (fun it => it.q == f.key) = some item ∧
        parseFlowSteps item.a = none) :
    turn catalog faqFlow u = turn catalog .null u ∧
    (∀ e, turn catalog faqFlow u ≠ .error e) := by
  have hcont : continueFlow (catalog.filter isEnabled) f (normalizeUserInput u) = none := by
    unfold continueFlow
    rcases hgone with h | ⟨item, h, hp⟩
    · rw [h]
    · rw [h]
      simp only [hp]
  have heq : turn catalog faqFlow u = turn catalog .null u := by
    rw [turn_null]
    unfold turn
    simp only [hflow]
    split
    · rfl
    · split
      · rename_i g hact
        obtain ⟨hg, _, _⟩ := activeFlow_some f g _ _ (normalizeFlow_key_ne faqFlow f hflow) hact
        subst hg
        split
        · rfl
        · rw [hcont]
      · rfl
  exact ⟨heq, fun e he => (turn_null_shape catalog u).1 e (heq ▸ he)⟩

/-! ### Trimming -/

theorem trimEnd_eq_rdropWhile (s : Str) : trimEnd s = s.rdropWhile isJsSpace := rfl

theorem trimStart_of_head (c : Char) (cs : Str) (h : isJsSpace c = false) :
    trimStart (c :: cs) = c :: cs := by
  simp [trimStart, List.dropWhile, h]

theorem trimEnd_cons_ne_nil (c : Char) (cs : Str) (h : isJsSpace c = false) :
    ∃ ds, trimEnd (c :: cs) = c :: ds := by
  have hne : trimEnd (c :: cs) ≠ [] := by
    rw [trimEnd_eq_rdropWhile]
    intro hnil
    have := (List.rdropWhile_eq_nil_iff).mp hnil c (List.mem_cons_self c cs)
    simp [h] at this
  have hpre : trimEnd (c :: cs) <+: c :: cs := by
    rw [trimEnd_eq_rdropWhile]
    exact List.rdropWhile_prefix _ _
  cases hte : trimEnd (c :: cs) with
  | nil => exact absurd hte hne
  | cons d ds =>
    rw [hte] at hpre
    obtain ⟨t, ht⟩ := hpre
    simp only [List.cons_append, List.cons.injEq] at ht
    exact ⟨ds, by rw [ht.1]⟩

theorem trim_of_head (c : Char) (cs : Str) (h : isJsSpace c = false) :
    ∃ ds, trim (c :: cs) = c :: ds := by
  unfold trim
  rw [trimStart_of_head c cs h]
  exact trimEnd_cons_ne_nil c cs h

theorem trim_head_not_space (s : Str) (c : Char) (cs : Str) (h : trim s = c :: cs) :
    isJsSpace c = false := by
  unfold trim at h
  have hpre : trimEnd (trimStart s) <+: trimStart s := by
    rw [trimEnd_eq_rdropWhile]
    exact List.rdropWhile_prefix _ _
  rw [h] at hpre
  obtain ⟨t, ht⟩ := hpre
  have hlen : 0 < (List.dropWhile isJsSpace s).length := by
    have : trimStart s = c :: (cs ++ t) := by rw [← ht]; rfl
    unfold trimStart at this
    rw [this]
    simp
  have hnot := List.dropWhile_get_zero_not isJsSpace s hlen
  have hget : (List.dropWhile isJsSpace s).get ⟨0, hlen⟩ = c := by
    have : List.dropWhile isJsSpace s = c :: (cs ++ t) := by
      have h2 : trimStart s = c :: (cs ++ t) := by rw [← ht]; rfl
      exact h2
    simp [this]
  rw [hget] at hnot
  simpa using hnot

theorem trim_trim (s : Str) : trim (trim s) = trim s := by
  cases hts : trim s with
  | nil => rfl
  | cons c cs =>
    have hc := trim_head_not_space s c cs hts
    unfold trim
    rw [trimStart_of_head c cs hc]
    have : trimEnd (c :: cs) = trimEnd (trimEnd (trimStart s)) := by
      rw [← hts]; rfl
    rw [this, trimEnd_eq_rdropWhile, trimEnd_eq_rdropWhile, List.rdropWhile_idempotent,
      ← trimEnd_eq_rdropWhile]
    exact hts

/-! ### Normalized utterances -/

theorem replaceAltsAux_head (pats : List Str) (rep : Str) (r : Char) (rs : Str) (hrep : rep = r :: rs) :
    ∀ (fuel : Nat) (c : Char) (cs : Str),
      ∃ d ds, replaceAltsAux pats rep fuel (c :: cs) = d :: ds ∧ (d = c ∨ d = r) := by
  intro fuel c cs
  cases fuel with
  | zero => exact ⟨c, cs, rfl, Or.inl rfl⟩
  | succ fuel =>
    rw [replaceAltsAux]
    split
    · subst hrep
      exact ⟨r, _, rfl, Or.inr rfl⟩
    · exact ⟨c, _, rfl, Or.inl rfl⟩

theorem normalizeUserInput_head (u : Str) (h : normalizeUserInput u ≠ []) :
    ∃ c cs, normalizeUserInput u = c :: cs ∧ isJsSpace c = false := by
  unfold normalizeUserInput at h ⊢
  simp only at h ⊢
  cases hts : trim u with
  | nil => simp [hts] at h
  | cons c cs =>
    have hc := trim_head_not_space u c cs hts
    simp only [List.isEmpty_cons, Bool.false_eq_true, if_false]
    obtain ⟨d1, ds1, h1, hd1⟩ := replaceAltsAux_head
      ["違います".toList, "ちがいます".toList, "違うです".toList] "いいえ".toList 'い' "いえ".toList rfl
      (c :: cs).length c cs
    unfold replaceAlts
    rw [h1]
    obtain ⟨d2, ds2, h2, hd2⟩ := replaceAltsAux_head
      ["はいです".toList, "そうです".toList, "そうだよ".toList] "はい".toList 'は' "い".toList rfl
      (d1 :: ds1).length d1 ds1
    rw [h2]
    obtain ⟨d3, ds3, h3, hd3⟩ := replaceAltsAux_head
      ["ありません".toList, "なしです".toList] "ない".toList 'な' "い".toList rfl
      (d2 :: ds2).length d2 ds2
    rw [h3]
    refine ⟨d3, ds3, rfl, ?_⟩
    rcases hd3 with rfl | rfl
    · rcases hd2 with rfl | rfl
      · rcases hd1 with rfl | rfl
        · exact hc
        · decide
      · decide
    · decide

theorem trim_normalizeUserInput_ne (u : Str) (h : normalizeUserInput u ≠ []) :
    trim (normalizeUserInput u) ≠ [] := by
  obtain ⟨c, cs, heq, hc⟩ := normalizeUserInput_head u h
  rw [heq]
  obtain ⟨ds, hds⟩ := trim_of_head c cs hc
  rw [hds]
  simp

theorem judgeAnswer_free (text choice flowKey : Str) (h : trim text ≠ []) :
    (judgeAnswer text [] choice flowKey).ok = true := by
  unfold judgeAnswer
  simp [h, toLowerCase]

/-! ### Parsed steps -/

theorem stepsOfMatches_text (text : Str) (ms : List MarkerMatch) :
    ∀ st ∈ stepsOfMatches text ms, st.text ≠ [] ∧ trim st.text = st.text := by
  induction ms with
  | nil => intro st h; simp [stepsOfMatches] at h
  | cons m rest ih =>
    intro st h
    simp only [stepsOfMatches] at h
    split at h
    · exact ih st h
    · rename_i hne
      rcases List.mem_cons.mp h with heq | hmem
      · subst heq
        refine ⟨?_, trim_trim _⟩
        intro hnil
        apply hne
        simp only at hnil
        rw [hnil]
        rfl
      · exact ih st hmem

theorem parseFlowSteps_some (a : Str) (steps : List FlowStep) (h : parseFlowSteps a = some steps) :
    steps ≠ [] ∧ ∀ st ∈ steps, st.text ≠ [] ∧ trim st.text = st.text := by
  unfold parseFlowSteps at h
  simp only at h
  split at h
  · simp at h
  · split at h
    · simp at h
    · rename_i hne
      simp only [Option.some.injEq] at h
      subst h
      refine ⟨?_, stepsOfMatches_text _ _⟩
      intro hnil
      apply hne
      rw [hnil]
      rfl

theorem indexAt_mem {α : Type} (xs : List α) (x : JNum) (a : α) (h : indexAt xs x = some a) :
    a ∈ xs := by
  unfold indexAt at h
  split at h
  · exact List.get?_mem h
  · simp at h

/-- C1, as amended. Repair: for every active flow with a parsable template and
every utterance that is not blank and that `judgeAnswer` rejects for the
`expect` of the current step, provided the utterance contains no reset phrase
and does not trigger a different topic, the current step exists and the turn
returns source `faq_repair`, the reply "すみません、確認させてください。" followed by a
blank line and the text of the current step verbatim, `suggest_end` false, and
a `faq_flow` equal to the incoming state. -/
theorem C1_repair_keeps_state (catalog : List FaqItem) (faqFlow : JVal) (u : Str) (f : Flow)
    (item : FaqItem) (steps : List FlowStep)
    (hflow : normalizeFlow faqFlow = some f)
    (hne : normalizeUserInput u ≠ [])
    (hreset : containsResetWord (toLowerCase (normalizeUserInput u)) = false)
    (htopic : ∀ top,
      (pickRelevantFaq (catalog.filter isEnabled) (normalizeUserInput u) 5).head? = some top →
      10 ≤ top.score → top.q = f.key)
    (hitem : (catalog.filter isEnabled).find? (fun it => it.q == f.key) = some item)
    (hsteps : parseFlowSteps item.a = some steps)
    (hrej : (judgeAnswer (normalizeUserInput u)
      (currentMeta (currentStepOf steps f) "expect".toList)
      (currentMeta (currentStepOf steps f) "choice".toList) f.key).ok = false) :
    ∃ st, currentStepOf steps f = some st ∧
      turn catalog faqFlow u =
        .respond { reply := "すみません、確認させてください。\n\n".toList ++ st.text
                   source := "faq_repair".toList
                   faq_flow := some f
                   suggest_end := false
                   reply_options := buildReplyOptions st } := by
  obtain ⟨hsne, htext⟩ := parseFlowSteps_some item.a steps hsteps
  have hkey : f.key ≠ [] := normalizeFlow_key_ne faqFlow f hflow
  cases hcur : currentStepOf steps f with
  | none =>
    rw [hcur] at hrej
    have := judgeAnswer_free (normalizeUserInput u) [] f.key (trim_normalizeUserInput_ne u hne)
    simp only [currentMeta] at hrej
    rw [this] at hrej
    exact absurd hrej (by simp)
  | some st =>
    rw [hcur] at hrej
    refine ⟨st, rfl, ?_⟩
    have htrim : trim st.text = st.text := (htext st (indexAt_mem _ _ _ hcur)).2
    unfold turn
    simp only [List.isEmpty_eq_true, hne, if_false, hflow,
      activeFlow_keep f _ _ hreset htopic, hkey]
    unfold continueFlow
    simp only [hitem, hsteps, List.isEmpty_eq_true, hsne, if_false, hcur, hrej,
      Bool.not_false, if_true, buildRepairPrompt, htrim]

/-- C1 fails for a blank utterance: `judgeAnswer` rejects it for the `yesno`
step of the active flow, it contains no reset phrase and picks no FAQ entry,
yet the turn does not repair: it answers with the `system` prompt and a null
`faq_flow`. -/
theorem C1_blank_utterance_counterexample :
    normalizeFlow exampleFlowState = some exampleFlow ∧
    parseFlowSteps "[[step1 expect=yesno slot=eating]]入れ歯を外すとお食事がしにくいですか？[[final]]ご予約をお取りください。".toList
      = some exampleSteps ∧
    (judgeAnswer (normalizeUserInput " ".toList) "yesno".toList [] "入れ歯が痛い".toList).ok = false ∧
    containsResetWord (toLowerCase (normalizeUserInput " ".toList)) = false ∧
    pickRelevantFaq (exampleCatalog.filter isEnabled) (normalizeUserInput " ".toList) 5 = [] ∧
    turn exampleCatalog exampleFlowState " ".toList =
      .respond { reply := "ご用件を入力してください。".toList, source := "system".toList, faq_flow := none
                 suggest_end := false, reply_options := none } :=
  ⟨rfl, by decide, by decide, by decide, by decide, rfl⟩

/-- Witness of C1: an out-of-vocabulary reply to the `yesno` step of the
example flow is repaired with the state unchanged. -/
theorem C1_repair_witness :
    turn exampleCatalog exampleFlowState "たぶん".toList =
      .respond { reply := "すみません、確認させてください。\n\n入れ歯を外すとお食事がしにくいですか？".toList
                 source := "faq_repair".toList
                 faq_flow := some exampleFlow
                 suggest_end := false
                 reply_options := some [{ label := "はい".toList, value := "はい".toList },
                                        { label := "いいえ".toList, value := "いいえ".toList }] } :=
  match C1_repair_keeps_state exampleCatalog exampleFlowState "たぶん".toList exampleFlow
    (exampleCatalog.get ⟨0, by decide⟩) exampleSteps rfl (by decide) (by decide)
    (fun top h => by
      have hnone : (pickRelevantFaq (exampleCatalog.filter isEnabled)
          (normalizeUserInput "たぶん".toList) 5).head? = none := by decide
      rw [hnone] at h
      cases h)
    rfl (by decide) (by decide) with
  | ⟨st, hcur, hturn⟩ => by
    have h0 : currentStepOf exampleSteps exampleFlow = some (exampleSteps.get ⟨0, by decide⟩) := by
      decide
    rw [h0] at hcur
    cases hcur
    exact hturn

/-! ### Flow state normalization -/

/-- C9 fails for non-object slots: a state with a valid key and step whose
`slots` is a string is accepted, with an empty slot mapping (and so is one
whose `slots` is a number). -/
theorem C9_string_slots_counterexample :
    normalizeFlow (.obj [("key".toList, .str "入れ歯が痛い".toList), ("step".toList, .num ⟨1, 0⟩),
        ("slots".toList, .str "x".toList)]) =
      some { key := "入れ歯が痛い".toList, step := ⟨1, 0⟩, slots := [] } ∧
    normalizeFlow (.obj [("key".toList, .str "入れ歯が痛い".toList), ("step".toList, .num ⟨1, 0⟩),
        ("slots".toList, .num ⟨7, 0⟩)]) =
      some { key := "入れ歯が痛い".toList, step := ⟨1, 0⟩, slots := [] } :=
  ⟨rfl, rfl⟩

/-- C9, as amended. `normalizeFlow` returns null for every value that is not an
object, and for every object whose key is missing, empty or not a string,
whose step is missing, is a number below 1 or above 120, or is not a number
and has no integer from 1 to 120 as its `parseInt`; a `slots` value that is
not an object does not make the state malformed: an accepted state then has
the empty slot mapping. -/
theorem C9_normalizeFlow_malformed (v : JVal) :
    ((∀ props, v ≠ .obj props) → normalizeFlow v = none) ∧
    (∀ props, v = .obj props →
      ((∀ s, props.lookup "key".toList = some (.str s) → s = []) → normalizeFlow v = none) ∧
      (props.lookup "step".toList = none → normalizeFlow v = none) ∧
      (∀ n, props.lookup "step".toList = some (.num n) →
        (n.ltInt 1 = true ∨ n.gtInt 120 = true) → normalizeFlow v = none) ∧
      (∀ w, props.lookup "step".toList = some w → (∀ n, w ≠ .num n) →
        (∀ k, parseInt10 (jsToString w) = some k → k < 1 ∨ 120 < k) → normalizeFlow v = none) ∧
      (∀ f, normalizeFlow v = some f →
        (∀ kvs, props.lookup "slots".toList ≠ some (.obj kvs)) →
        (∀ xs, props.lookup "slots".toList ≠ some (.arr xs)) → f.slots = [])) := by
  refine ⟨fun h => ?_, fun props hv => ?_⟩
  · cases v with
    | obj props => exact absurd rfl (h props)
    | _ => rfl
  · subst hv
    refine ⟨fun hkey => ?_, fun hstep => ?_, fun n hstep hout => ?_, fun w hstep hnum hout => ?_,
      fun f hf hobj harr => ?_⟩
    · have hk : flowKeyOf props = [] := by
        unfold flowKeyOf
        split
        · rename_i s hs
          exact hkey s hs
        · rfl
      unfold normalizeFlow
      simp only
      split
      · rfl
      · simp [hk]
    · have hs : flowStepOf props = none := by
        unfold flowStepOf
        rw [hstep]
      unfold normalizeFlow
      simp only [hs]
    · have hs : flowStepOf props = some n := by
        unfold flowStepOf
        rw [hstep]
      unfold normalizeFlow
      simp only [hs]
      rcases hout with h | h <;> simp [h]
    · unfold normalizeFlow
      simp only
      cases hs : flowStepOf props with
      | none => rfl
      | some st =>
        simp only
        have hst : ∃ k, parseInt10 (jsToString w) = some k ∧ st = JNum.ofInt k := by
          unfold flowStepOf at hs
          rw [hstep] at hs
          have hmap : Option.map JNum.ofInt (parseInt10 (jsToString w)) = some st := by
            cases w with
            | num n => exact absurd rfl (hnum n)
            | null => exact hs
            | bool b => exact hs
            | str s => exact hs
            | arr xs => exact hs
            | obj kvs => exact hs
          obtain ⟨k, hk, hkst⟩ := Option.map_eq_some'.mp hmap
          exact ⟨k, hk, hkst.symm⟩
        obtain ⟨k, hk, hst⟩ := hst
        subst hst
        rcases hout k hk with h | h <;> simp [h]
    · obtain ⟨props', hv, _, _, hslots, _⟩ := normalizeFlow_some _ f hf
      cases hv
      rw [hslots]
      unfold flowSlotsOf
      split
      · rename_i kvs h
        exact absurd h (hobj kvs)
      · rename_i xs h
        exact absurd h (harr xs)
      · rfl

/-- Witness of C9: a state whose step is the string `0` is rejected, and a
state whose slots is a string is read with the empty slot mapping. -/
theorem C9_normalizeFlow_witness :
    normalizeFlow (.obj [("key".toList, .str "k".toList), ("step".toList, .str "0".toList)]) = none ∧
    exampleFlow.slots = [] :=
  ⟨((C9_normalizeFlow_malformed
      (.obj [("key".toList, .str "k".toList), ("step".toList, .str "0".toList)])).2 _ rfl).2.2.2.1
      (.str "0".toList) rfl (fun n h => by cases h)
      (fun k hk => by
        have h0 : parseInt10 (jsToString (.str "0".toList)) = some 0 := by decide
        rw [h0] at hk
        cases hk
        exact Or.inl (by decide)),
   ((C9_normalizeFlow_malformed
      (.obj [("key".toList, .str "入れ歯が痛い".toList), ("step".toList, .num ⟨1, 0⟩),
        ("slots".toList, .str "x".toList)])).2 _ rfl).2.2.2.2 exampleFlow rfl
      (fun kvs h => by cases h) (fun xs h => by cases h)⟩

/-! ### Slots -/

theorem lookup_setSlot_self (slots : Slots) (name : Str) (v : JVal) :
    (setSlot slots name v).lookup name = some v := by
  induction slots with
  | nil => simp [setSlot, List.lookup]
  | cons kw rest ih =>
    obtain ⟨k, w⟩ := kw
    unfold setSlot
    by_cases hk : k = name
    · subst hk
      simp [List.lookup]
    · have h1 : (k == name) = false := by simpa using hk
      have h2 : (name == k) = false := by simpa using Ne.symm hk
      simp only [h1, Bool.false_eq_true, if_false, List.lookup, h2]
      exact ih

theorem lookup_setSlot_ne (slots : Slots) (name other : Str) (v : JVal) (h : other ≠ name) :
    (setSlot slots name v).lookup other = slots.lookup other := by
  induction slots with
  | nil =>
    have : (other == name) = false := by simpa using h
    simp [setSlot, List.lookup, this]
  | cons kw rest ih =>
    obtain ⟨k, w⟩ := kw
    unfold setSlot
    by_cases hk : k = name
    · subst hk
      have h2 : (other == k) = false := by simpa using h
      simp [List.lookup, h2]
    · have h1 : (k == name) = false := by simpa using hk
      simp only [h1, Bool.false_eq_true, if_false, List.lookup]
      cases (other == k) with
      | true => rfl
      | false => exact ih

theorem slotFilled_of_lookup (slots : Slots) (name : Str) (v : JVal)
    (hv : slots.lookup name = some v) (ht : truthy v = true) : slotFilled slots name = true := by
  unfold slotFilled
  rw [hv]
  exact ht

theorem saveSlot_keeps (slots : Slots) (slot value name : Str) (v : JVal)
    (hv : slots.lookup name = some v) (ht : truthy v = true) :
    (saveSlot slots slot value).lookup name = some v := by
  unfold saveSlot
  split
  · split
    · rename_i hw
      by_cases hn : name = slot
      · subst hn
        rw [slotFilled_of_lookup slots name v hv ht] at hw
        simp at hw
      · rw [lookup_setSlot_ne slots slot name _ hn]
        exact hv
    · exact hv
  · exact hv

theorem saveSlot_other (slots : Slots) (slot value other : Str) (h : other ≠ slot) :
    (saveSlot slots slot value).lookup other = slots.lookup other := by
  unfold saveSlot
  split
  · split
    · exact lookup_setSlot_ne slots slot other _ h
    · rfl
  · rfl

theorem prefillStep_keeps (flowKey t : Str) (slots : Slots) (st : FlowStep) (name : Str) (v : JVal)
    (hv : slots.lookup name = some v) (ht : truthy v = true) :
    (prefillStep flowKey t slots st).lookup name = some v := by
  unfold prefillStep
  simp only
  split
  · exact hv
  · rename_i hc
    split
    · split
      · exact hv
      · by_cases hn : name = metaGet st "slot".toList
        · exfalso
          apply hc
          rw [← hn, slotFilled_of_lookup slots name v hv ht]
          simp
        · rw [lookup_setSlot_ne slots _ name _ hn]
          exact hv
    · exact hv

theorem prefillStep_other (flowKey t : Str) (slots : Slots) (st : FlowStep) (other : Str)
    (h : other ≠ metaGet st "slot".toList) :
    (prefillStep flowKey t slots st).lookup other = slots.lookup other := by
  unfold prefillStep
  simp only
  split
  · rfl
  · split
    · split
      · rfl
      · exact lookup_setSlot_ne slots _ other _ h
    · rfl

theorem prefillFold_keeps (flowKey t : Str) (steps : List FlowStep) :
    ∀ (slots : Slots) (name : Str) (v : JVal), slots.lookup name = some v → truthy v = true →
      (steps.foldl (prefillStep flowKey t) slots).lookup name = some v := by
  induction steps with
  | nil => intro slots name v hv _; exact hv
  | cons st rest ih =>
    intro slots name v hv ht
    rw [List.foldl_cons]
    exact ih _ name v (prefillStep_keeps flowKey t slots st name v hv ht) ht

theorem prefillFold_other (flowKey t : Str) (steps : List FlowStep) :
    ∀ (slots : Slots) (other : Str), (∀ st ∈ steps, other ≠ metaGet st "slot".toList) →
      (steps.foldl (prefillStep flowKey t) slots).lookup other = slots.lookup other := by
  induction steps with
  | nil => intro slots other _; rfl
  | cons st rest ih =>
    intro slots other h
    rw [List.foldl_cons, ih _ other (fun s hs => h s (List.mem_cons_of_mem _ hs))]
    exact prefillStep_other flowKey t slots st other (h st (List.mem_cons_self _ _))

theorem advanceLoop_flow (steps : List FlowStep) (flow : Flow) :
    ∀ (fuel : Nat) (idx : JNum) (a : Advanced) (f : Flow),
      advanceLoop steps flow fuel idx = .ok a → a.newFlow = some f →
      f.key = flow.key ∧ f.slots = flow.slots := by
  intro fuel
  induction fuel with
  | zero => intro idx a f h; simp [advanceLoop] at h
  | succ fuel ih =>
    intro idx a f h hf
    rw [advanceLoop] at h
    split at h
    · split at h
      · simp at h
      · split at h
        · simp only [Except.ok.injEq] at h
          subst h
          simp at hf
        · split at h
          · exact ih _ a f h hf
          · simp only [Except.ok.injEq] at h
            subst h
            simp only [Option.some.injEq] at hf
            subst hf
            exact ⟨rfl, rfl⟩
    · simp only [Except.ok.injEq] at h
      subst h
      simp [closingAdvanced] at hf

/-- A flow returned by a continuation turn has the slots of the incoming flow
after the slot save of the current step (or unchanged, on repair). -/
theorem continueFlow_slots (faqItems : List FaqItem) (flow : Flow) (text : Str)
    (item : FaqItem) (steps : List FlowStep) (r : Response) (f : Flow)
    (hitem : faqItems.find? (fun it => it.q == flow.key) = some item)
    (hsteps : parseFlowSteps item.a = some steps)
    (h : continueFlow faqItems flow text = some (.respond r)) (hf : r.faq_flow = some f) :
    f.key = flow.key ∧
    (f.slots = flow.slots ∨
      ∃ value, f.slots = saveSlot flow.slots (currentMeta (currentStepOf steps flow) "slot".toList) value) := by
  unfold continueFlow at h
  simp only [hitem, hsteps] at h
  split at h
  · simp at h
  · split at h
    · split at h
      · simp at h
      · simp only [Option.some.injEq, TurnResult.respond.injEq] at h
        subst h
        simp only [Option.some.injEq] at hf
        subst hf
        exact ⟨rfl, Or.inl rfl⟩
    · split at h
      · simp only [Option.some.injEq, TurnResult.respond.injEq] at h
        subst h
        simp at hf
      · simp only [Option.some.injEq] at h
        unfold advancedResponse advanceSteps at h
        split at h
        · simp at h
        · rename_i a ha
          simp only [TurnResult.respond.injEq] at h
          subst h
          obtain ⟨hk, hs⟩ := advanceLoop_flow steps _ _ _ a f ha hf
          exact ⟨hk, Or.inr ⟨_, hs⟩⟩

/-- C2. Write-once slots: a slot that already holds a non-empty (truthy) value
keeps exactly that value through the slot save of a flow-continuation turn,
through `prefillSlotsFromFreeText`, and in the flow a continuation turn
returns; and the slot save, one prefill iteration and a continuation turn
create or change no slot other than the slot of the judged step, and a whole
prefill none that no step declares. -/
theorem C2_write_once (slots : Slots) (name : Str) (v : JVal)
    (hv : slots.lookup name = some v) (ht : truthy v = true) :
    (∀ slot value, (saveSlot slots slot value).lookup name = some v) ∧
    (∀ key step steps text,
      (prefillSlotsFromFreeText { key := key, step := step, slots := slots } steps text).slots.lookup name
        = some v) ∧
    (∀ faqItems flow text item steps r f, flow.slots = slots →
      faqItems.find? (fun it => it.q == flow.key) = some item →
      parseFlowSteps item.a = some steps →
      continueFlow faqItems flow text = some (.respond r) → r.faq_flow = some f →
      f.slots.lookup name = some v ∧
      ∀ other, other ≠ currentMeta (currentStepOf steps flow) "slot".toList →
        f.slots.lookup other = flow.slots.lookup other) ∧
    (∀ slot value other, other ≠ slot →
      (saveSlot slots slot value).lookup other = slots.lookup other) ∧
    (∀ flowKey t st other, other ≠ metaGet st "slot".toList →
      (prefillStep flowKey t slots st).lookup other = slots.lookup other) ∧
    (∀ key step steps text other, (∀ st ∈ steps, other ≠ metaGet st "slot".toList) →
      (prefillSlotsFromFreeText { key := key, step := step, slots := slots } steps text).slots.lookup other
        = slots.lookup other) := by
  refine ⟨fun slot value => saveSlot_keeps slots slot value name v hv ht, ?_, ?_,
    fun slot value other h => saveSlot_other slots slot value other h,
    fun flowKey t st other h => prefillStep_other flowKey t slots st other h, ?_⟩
  · intro key step steps text
    unfold prefillSlotsFromFreeText
    simp only
    split
    · exact hv
    · exact prefillFold_keeps key _ steps slots name v hv ht
  · intro faqItems flow text item steps r f hslots hitem hsteps h hf
    obtain ⟨_, hs | ⟨value, hs⟩⟩ := continueFlow_slots faqItems flow text item steps r f hitem hsteps h hf
    · rw [hs, hslots]
      exact ⟨hv, fun _ _ => rfl⟩
    · rw [hs, hslots]
      exact ⟨saveSlot_keeps slots _ value name v hv ht,
        fun other ho => saveSlot_other slots _ value other ho⟩
  · intro key step steps text other hother
    unfold prefillSlotsFromFreeText
    simp only
    split
    · rfl
    · exact prefillFold_other key _ steps slots other hother

/-- Witness of C2: the slot `eating` already holds `yes`; an accepted `no` for
the same slot leaves it at `yes`, in the slot save and in prefill. -/
theorem C2_write_once_witness :
    (saveSlot [("eating".toList, .str "yes".toList)] "eating".toList "no".toList).lookup "eating".toList
      = some (.str "yes".toList) ∧
    (prefillSlotsFromFreeText
      { key := "入れ歯が痛い".toList, step := ⟨1, 0⟩, slots := [("eating".toList, .str "yes".toList)] }
      exampleSteps "いいえ".toList).slots.lookup "eating".toList = some (.str "yes".toList) :=
  ⟨(C2_write_once [("eating".toList, .str "yes".toList)] "eating".toList (.str "yes".toList)
      rfl rfl).1 "eating".toList "no".toList,
   (C2_write_once [("eating".toList, .str "yes".toList)] "eating".toList (.str "yes".toList)
      rfl rfl).2.1 "入れ歯が痛い".toList ⟨1, 0⟩ exampleSteps "いいえ".toList⟩

/-! ### Witnesses -/

/-- Witness of C5: the single-shot entry of the example catalog. -/
theorem C5_single_shot_witness :
    turn exampleCatalog .null "診療時間は何時までですか".toList =
      .respond { reply := "平日は9時から18時です。\n土曜は13時までです。".toList
                 source := "faq".toList, faq_flow := none, suggest_end := true
                 reply_options := none } :=
  Eq.trans
    (C5_single_shot exampleCatalog .null "診療時間は何時までですか".toList
      { score := 23, q := "診療時間".toList
        a := " 平日は9時から18時です。\\n土曜は13時までです。\r\n".toList }
      rfl (by decide) (by decide) (by decide))
    rfl

/-- Witness of C6: a reset phrase while the example flow is active. -/
theorem C6_reset_witness :
    turn exampleCatalog exampleFlowState "最初からお願いします".toList =
      turn exampleCatalog .null "最初からお願いします".toList :=
  C6_reset_clears_flow exampleCatalog exampleFlowState "最初からお願いします".toList
    (Or.inr (Or.inl (by decide)))

/-- Witness of C7: during the example flow the utterance triggers the
single-shot entry, whose question differs from the key of the flow. -/
theorem C7_topic_switch_witness :
    turn exampleCatalog exampleFlowState "診療時間は何時までですか".toList =
      turn exampleCatalog .null "診療時間は何時までですか".toList :=
  (C7_topic_switch exampleCatalog exampleFlowState "診療時間は何時までですか".toList exampleFlow
    { score := 23, q := "診療時間".toList
      a := " 平日は9時から18時です。\\n土曜は13時までです。\r\n".toList }
    rfl (by decide) (by decide) (by decide)).1

/-- Witness of C8: a flow whose key is no longer in the catalog. -/
theorem C8_vanished_template_witness :
    turn exampleCatalog
      (.obj [("key".toList, .str "消えた質問".toList), ("step".toList, .num ⟨2, 0⟩)])
      "こんにちは".toList =
      turn exampleCatalog .null "こんにちは".toList :=
  (C8_vanished_template exampleCatalog
    (.obj [("key".toList, .str "消えた質問".toList), ("step".toList, .num ⟨2, 0⟩)])
    "こんにちは".toList { key := "消えた質問".toList, step := ⟨2, 0⟩, slots := [] }
    rfl (Or.inl rfl)).1

/-! ### Flow start -/

/-- C4 fails in two ways. An utterance that triggers the stepped topic and
already answers its `yesno` step resolves the decision table during prefill:
the source is `faq_flow_decision_start` and `faq_flow` is null. A template
whose first step is `final` ends at once: the source is `faq_flow_start` but
`faq_flow` is null and `suggest_end` is true. -/
theorem C4_flow_start_counterexample :
    normalizeFlow .null = none ∧
    (pickRelevantFaq (exampleCatalog.filter isEnabled)
      (normalizeUserInput "入れ歯が痛い はい".toList) 5).head? =
      some { score := 13, q := "入れ歯が痛い".toList
             a := "[[step1 expect=yesno slot=eating]]入れ歯を外すとお食事がしにくいですか？[[final]]ご予約をお取りください。".toList } ∧
    parseFlowSteps "[[step1 expect=yesno slot=eating]]入れ歯を外すとお食事がしにくいですか？[[final]]ご予約をお取りください。".toList
      = some exampleSteps ∧
    turn exampleCatalog .null "入れ歯が痛い はい".toList =
      .respond { reply := decisionReply6, source := "faq_flow_decision_start".toList
                 faq_flow := none, suggest_end := true, reply_options := none } ∧
    (pickRelevantFaq (exampleCatalog.filter isEnabled)
      (normalizeUserInput "予約変更したい".toList) 5).head? =
      some { score := 10, q := "予約の変更".toList, a := "[[final]]お電話でご連絡ください。".toList } ∧
    parseFlowSteps "[[final]]お電話でご連絡ください。".toList =
      some [{ tag := "final".toList, text := "お電話でご連絡ください。".toList, meta := [] }] ∧
    turn exampleCatalog .null "予約変更したい".toList =
      .respond { reply := "お電話でご連絡ください。".toList, source := "faq_flow_start".toList
                 faq_flow := none, suggest_end := true, reply_options := none } :=
  ⟨rfl, by decide, by decide, rfl, by decide, by decide, rfl⟩

/-- C4, as amended. Scenario B (flow start): when no flow is active, the top FAQ
match scores at least 10 and its template parses to steps, the slots are
prefilled from the triggering utterance and then: if the decision table
resolves on them, the turn returns its reply with source
`faq_flow_decision_start`, a null `faq_flow` and `suggest_end` true;
otherwise the turn returns source `faq_flow_start` with the result of
`advanceSteps` from step 1, which is never an error. In that result a non-null
`faq_flow` has the matched question as key, the prefilled slots, `suggest_end`
false, and a step that is 1 or a later index `j` such that every earlier step
declares a slot that reads as filled after prefill; the reply is the prompt
text of step `j`. A null `faq_flow` (a `final` step reached, or the steps
exhausted) comes with `suggest_end` true. -/
theorem C4_flow_start (catalog : List FaqItem) (faqFlow : JVal) (u : Str) (top : ScoredFaq)
    (steps : List FlowStep)
    (hflow : normalizeFlow faqFlow = none)
    (htop : (pickRelevantFaq (catalog.filter isEnabled) (normalizeUserInput u) 5).head? = some top)
    (hscore : 10 ≤ top.score)
    (hsteps : parseFlowSteps top.a = some steps) :
    (∀ reply,
      decideFlowReply top.q
        (prefillSlotsFromFreeText { key := top.q, step := JNum.ofInt 1, slots := [] } steps
          (normalizeUserInput u)).slots = some reply →
      turn catalog faqFlow u =
        .respond { reply := reply, source := "faq_flow_decision_start".toList, faq_flow := none
                   suggest_end := true, reply_options := none }) ∧
    (decideFlowReply top.q
        (prefillSlotsFromFreeText { key := top.q, step := JNum.ofInt 1, slots := [] } steps
          (normalizeUserInput u)).slots = none →
      ∃ a,
        advanceSteps steps
          (prefillSlotsFromFreeText { key := top.q, step := JNum.ofInt 1, slots := [] } steps
            (normalizeUserInput u)) (JNum.ofInt 1) = .ok a ∧
        turn catalog faqFlow u =
          .respond { reply := a.reply, source := "faq_flow_start".toList, faq_flow := a.newFlow
                     suggest_end := a.suggest_end, reply_options := a.reply_options } ∧
        (a.newFlow = none → a.suggest_end = true) ∧
        (∀ f, a.newFlow = some f →
          a.suggest_end = false ∧ f.key = top.q ∧
          f.slots = (prefillSlotsFromFreeText { key := top.q, step := JNum.ofInt 1, slots := [] }
            steps (normalizeUserInput u)).slots ∧
          ∃ (j : Nat) (st : FlowStep), f.step = JNum.ofInt (j : Int) ∧ 1 ≤ j ∧
            steps.get? (j - 1) = some st ∧ a.reply = st.text ∧
            ∀ i st', 1 ≤ i → i < j → steps.get? (i - 1) = some st' →
              (metaGet st' "slot".toList).isEmpty = false ∧
              slotFilled f.slots (metaGet st' "slot".toList) = true)) := by
  have hne : normalizeUserInput u ≠ [] := pickRelevantFaq_nonempty _ _ top htop
  obtain ⟨hsne, _⟩ := parseFlowSteps_some top.a steps hsteps
  obtain ⟨st0, more, hcons⟩ : ∃ st0 more, steps = st0 :: more := by
    cases steps with
    | nil => exact absurd rfl hsne
    | cons st0 more => exact ⟨st0, more, rfl⟩
  have hturn : turn catalog faqFlow u =
      freshMatch (normalizeUserInput u)
        (pickRelevantFaq (catalog.filter isEnabled) (normalizeUserInput u) 5) := by
    unfold turn
    simp only [hflow, activeFlow_none, List.isEmpty_eq_true, hne, if_false]
  have hkey : (prefillSlotsFromFreeText { key := top.q, step := JNum.ofInt 1, slots := [] } steps
      (normalizeUserInput u)).key = top.q := prefill_key _ _ _
  refine ⟨fun reply hdec => ?_, fun hdec => ?_⟩
  · rw [hturn]
    unfold freshMatch
    subst hcons
    simp only [htop, hscore, if_true, hsteps, hkey, hdec]
  · obtain ⟨a, ha, hnone, hsome⟩ := advanceSteps_whole_shape steps
      (prefillSlotsFromFreeText { key := top.q, step := JNum.ofInt 1, slots := [] } steps
        (normalizeUserInput u)) 1
    refine ⟨a, ha, ?_, hnone, fun f hf => ?_⟩
    · rw [hturn]
      unfold freshMatch
      subst hcons
      simp only [htop, hscore, if_true, hsteps, hkey, hdec, ha, advancedResponse]
    · obtain ⟨hend, hk, hs, j, st, hstep, hj, hget, hreply, _, _, hbefore⟩ := hsome f hf
      have hm : (max 1 (1 : Int)).toNat = 1 := by decide
      rw [hm] at hj hbefore
      refine ⟨hend, hk.trans hkey, hs, j, st, hstep, hj, hget, hreply, fun i st' hi hlt hg => ?_⟩
      obtain ⟨_, h2, h3⟩ := stepStops_false _ st' (hbefore i st' hi hlt hg)
      rw [hs]
      exact ⟨h2, h3⟩

/-- Witness of C4: the stepped topic of the example catalog starts at step 1
when the utterance answers none of its steps. -/
theorem C4_flow_start_witness :
    turn exampleCatalog .null "入れ歯が痛いです".toList =
      .respond { reply := "入れ歯を外すとお食事がしにくいですか？".toList
                 source := "faq_flow_start".toList
                 faq_flow := some { key := "入れ歯が痛い".toList, step := JNum.ofInt 1, slots := [] }
                 suggest_end := false
                 reply_options := some [{ label := "はい".toList, value := "はい".toList },
                                        { label := "いいえ".toList, value := "いいえ".toList }] } :=
  match (C4_flow_start exampleCatalog .null "入れ歯が痛いです".toList
      { score := 13, q := "入れ歯が痛い".toList
        a := "[[step1 expect=yesno slot=eating]]入れ歯を外すとお食事がしにくいですか？[[final]]ご予約をお取りください。".toList }
      exampleSteps rfl (by decide) (by decide) (by decide)).2 (by decide) with
  | ⟨a, ha, hturn, _⟩ => by
    have h0 : advanceSteps exampleSteps
        (prefillSlotsFromFreeText { key := "入れ歯が痛い".toList, step := JNum.ofInt 1, slots := [] }
          exampleSteps (normalizeUserInput "入れ歯が痛いです".toList)) (JNum.ofInt 1) =
        .ok { reply := "入れ歯を外すとお食事がしにくいですか？".toList
              newFlow := some { key := "入れ歯が痛い".toList, step := JNum.ofInt 1, slots := [] }
              suggest_end := false
              reply_options := some [{ label := "はい".toList, value := "はい".toList },
                                     { label := "いいえ".toList, value := "いいえ".toList }] } := rfl
    rw [h0] at ha
    cases ha
    exact hturn

/-! ### The marker expression -/

theorem takeWhile_append_stop {α : Type} (p : α → Bool) (l r : List α)
    (hl : ∀ a ∈ l, p a = true) (hr : ∀ a, r.head? = some a → p a = false) :
    (l ++ r).takeWhile p = l := by
  induction l with
  | nil =>
    cases r with
    | nil => rfl
    | cons x xs => simp [List.takeWhile, hr x rfl]
  | cons a l ih =>
    rw [List.cons_append, List.takeWhile_cons, hl a (List.mem_cons_self a l), if_pos rfl,
      ih (fun b hb => hl b (List.mem_cons_of_mem a hb))]

theorem isPrefixOf_append (p s : Str) : p.isPrefixOf (p ++ s) = true := by
  induction p with
  | nil => simp [List.isPrefixOf]
  | cons a p ih => simp [List.isPrefixOf, ih]

theorem drop_length_append (p s : Str) : (p ++ s).drop p.length = s := by
  simp

theorem matchTag_render (m : Marker) (hm : m.WellFormed) (rest : Str) :
    matchTag (m.tag ++ m.attrRaw ++ "]]".toList ++ rest) = some m.tag := by
  obtain ⟨htag, hattr⟩ := hm
  rcases htag with hfin | ⟨ds, hne, hds, htag, hhead⟩
  · rw [hfin]
    unfold matchTag
    have h1 : "step".toList.isPrefixOf ("final".toList ++ m.attrRaw ++ "]]".toList ++ rest) = false := by
      simp [List.isPrefixOf]
    have h2 : "final".toList.isPrefixOf ("final".toList ++ m.attrRaw ++ "]]".toList ++ rest) = true := by
      rw [List.append_assoc, List.append_assoc]
      exact isPrefixOf_append _ _
    rw [h1, h2]
    rfl
  · rw [htag]
    unfold matchTag
    have h1 : "step".toList.isPrefixOf ("step".toList ++ ds ++ m.attrRaw ++ "]]".toList ++ rest) = true := by
      rw [List.append_assoc, List.append_assoc, List.append_assoc]
      exact isPrefixOf_append _ _
    have h2 : ("step".toList ++ ds ++ m.attrRaw ++ "]]".toList ++ rest).drop 4 =
        ds ++ (m.attrRaw ++ "]]".toList ++ rest) := by
      simp
    have h3 : (ds ++ (m.attrRaw ++ "]]".toList ++ rest)).takeWhile isDigit = ds := by
      apply takeWhile_append_stop isDigit ds _ hds
      intro a ha
      cases hat : m.attrRaw with
      | nil =>
        rw [hat] at ha
        simp at ha
        rw [← ha]
        decide
      | cons x xs =>
        rw [hat] at ha
        simp at ha
        rw [← ha]
        exact hhead x (by rw [hat]; rfl)
    rw [h1, h2, h3]
    have h4 : ds.isEmpty = false := by
      cases ds with
      | nil => exact absurd rfl hne
      | cons _ _ => rfl
    simp [h4]

theorem matchMarkerAt_render (m : Marker) (hm : m.WellFormed) (rest : Str) :
    matchMarkerAt (renderMarker m ++ rest) = some (m.tag, m.attrRaw, (renderMarker m).length) := by
  have htag := matchTag_render m hm rest
  obtain ⟨_, hattr⟩ := hm
  unfold matchMarkerAt
  have h1 : "[[".toList.isPrefixOf (renderMarker m ++ rest) = true := by
    unfold renderMarker
    rw [List.append_assoc, List.append_assoc, List.append_assoc]
    exact isPrefixOf_append _ _
  have h2 : (renderMarker m ++ rest).drop 2 = m.tag ++ m.attrRaw ++ "]]".toList ++ rest := by
    unfold renderMarker
    simp
  have h3 : (renderMarker m ++ rest).drop (2 + m.tag.length) = m.attrRaw ++ ("]]".toList ++ rest) := by
    unfold renderMarker
    have : "[[".toList ++ m.tag ++ m.attrRaw ++ "]]".toList ++ rest =
        ("[[".toList ++ m.tag) ++ (m.attrRaw ++ ("]]".toList ++ rest)) := by
      simp [List.append_assoc]
    rw [this]
    have hl : 2 + m.tag.length = ("[[".toList ++ m.tag).length := by
      simp
      omega
    rw [hl, drop_length_append]
  have h4 : (m.attrRaw ++ ("]]".toList ++ rest)).takeWhile (fun c => c != ']') = m.attrRaw := by
    apply takeWhile_append_stop
    · intro a ha
      simpa using hattr a ha
    · intro a ha
      simp at ha
      rw [← ha]
      decide
  rw [h1, h2, htag]
  simp only [if_true, h3, h4, drop_length_append, isPrefixOf_append]
  simp [renderMarker]
  omega

theorem drop_takeWhile_length {α : Type} (p : α → Bool) (l : List α) :
    l.drop (l.takeWhile p).length = l.dropWhile p := by
  induction l with
  | nil => rfl
  | cons x xs ih =>
    rw [List.takeWhile_cons, List.dropWhile_cons]
    split
    · simpa using ih
    · rfl

theorem eq_append_of_isPrefixOf (p s : Str) (h : p.isPrefixOf s = true) :
    s = p ++ s.drop p.length := by
  obtain ⟨t, ht⟩ := List.isPrefixOf_iff_prefix.mp h
  rw [← ht]
  simp

theorem head_takeWhile {α : Type} (p : α → Bool) (l : List α) (a : α)
    (h : (l.takeWhile p).head? = some a) : l.head? = some a := by
  cases l with
  | nil => simp at h
  | cons x xs =>
    rw [List.takeWhile_cons] at h
    split at h
    · simpa using h
    · simp at h

theorem head_dropWhile_false {α : Type} (p : α → Bool) (l : List α) (a : α)
    (h : (l.dropWhile p).head? = some a) : p a = false := by
  induction l with
  | nil => simp at h
  | cons x xs ih =>
    rw [List.dropWhile_cons] at h
    split at h
    · exact ih h
    · rename_i hx
      simp only [List.head?_cons, Option.some.injEq] at h
      rw [← h]
      simpa using hx

/-- What a successful tag match says about the text. -/
theorem matchTag_some (r tag : Str) (h : matchTag r = some tag) :
    r = tag ++ r.drop tag.length ∧
    (tag = "final".toList ∨
      ∃ ds, ds ≠ [] ∧ (∀ c ∈ ds, isDigit c = true) ∧ tag = "step".toList ++ ds ∧
        ∀ c, (r.drop tag.length).head? = some c → isDigit c = false) := by
  unfold matchTag at h
  split at h
  · rename_i hc
    simp only [Bool.and_eq_true, Bool.not_eq_true', List.isEmpty_eq_false] at hc
    obtain ⟨hpre, hne⟩ := hc
    simp only [Option.some.injEq] at h
    subst h
    have hr : r = "step".toList ++ r.drop 4 := eq_append_of_isPrefixOf _ _ hpre
    have hlen : ("step".toList ++ (r.drop 4).takeWhile isDigit).length =
        4 + ((r.drop 4).takeWhile isDigit).length := by
      simp
      omega
    have hdrop : r.drop ("step".toList ++ (r.drop 4).takeWhile isDigit).length =
        (r.drop 4).dropWhile isDigit := by
      rw [hlen, ← List.drop_drop, drop_takeWhile_length]
    refine ⟨?_, Or.inr ⟨(r.drop 4).takeWhile isDigit, ?_, ?_, rfl, ?_⟩⟩
    · rw [hdrop, List.append_assoc, List.takeWhile_append_dropWhile]
      exact hr
    · intro hnil
      apply hne
      rw [hnil]
    · intro c hcmem
      exact (List.mem_takeWhile_imp hcmem)
    · intro c hc
      rw [hdrop] at hc
      exact head_dropWhile_false isDigit _ c hc
  · split at h
    · rename_i hfin
      simp only [Option.some.injEq] at h
      subst h
      exact ⟨eq_append_of_isPrefixOf _ _ hfin, Or.inl rfl⟩
    · simp at h

/-- A match of the marker expression at the start of `s` reads a well-formed
marker written there. -/
theorem matchMarkerAt_some (s tag attr : Str) (len : Nat)
    (h : matchMarkerAt s = some (tag, attr, len)) : MarkerAt s := by
  unfold matchMarkerAt at h
  split at h
  · rename_i hpre
    split at h
    · rename_i tag0 htag
      simp only at h
      split at h
      · rename_i hclose
        simp only [Option.some.injEq, Prod.mk.injEq] at h
        obtain ⟨h1, h2, _⟩ := h
        subst h1
        obtain ⟨hr, hshape⟩ := matchTag_some _ _ htag
        have hs : s = "[[".toList ++ s.drop 2 := eq_append_of_isPrefixOf _ _ hpre
        have hafter : s.drop (2 + tag0.length) = (s.drop 2).drop tag0.length := by
          rw [List.drop_drop]
        rw [hafter] at h2 hclose
        rw [h2] at hclose
        have hsplit : (s.drop 2).drop tag0.length =
            attr ++ ((s.drop 2).drop tag0.length).drop attr.length := by
          rw [← h2, drop_takeWhile_length, List.takeWhile_append_dropWhile]
        have hclose2 : ((s.drop 2).drop tag0.length).drop attr.length =
            "]]".toList ++ (((s.drop 2).drop tag0.length).drop attr.length).drop 2 :=
          eq_append_of_isPrefixOf _ _ hclose
        refine ⟨⟨tag0, attr⟩, (((s.drop 2).drop tag0.length).drop attr.length).drop 2, ⟨?_, ?_⟩, ?_⟩
        · rcases hshape with hfin | ⟨ds, hne, hds, htg, hhead⟩
          · exact Or.inl hfin
          · refine Or.inr ⟨ds, hne, hds, htg, fun c hc => hhead c ?_⟩
            rw [← h2] at hc
            exact head_takeWhile _ _ c hc
        · intro c hc
          rw [← h2] at hc
          have := List.mem_takeWhile_imp hc
          simpa using this
        · unfold renderMarker
          simp only [List.append_assoc]
          rw [← hclose2, ← hsplit, ← hr]
          exact hs
      · simp at h
    · simp at h
  · simp at h

theorem matchMarkerAt_none_of_free (s : Str) (h : ¬ MarkerAt s) : matchMarkerAt s = none := by
  cases hm : matchMarkerAt s with
  | none => rfl
  | some r =>
    obtain ⟨tag, attr, len⟩ := r
    exact absurd (matchMarkerAt_some s tag attr len hm) h

/-! ### Scanning a template -/

theorem markerFree_tail (c : Char) (t rest : Str) (h : MarkerFree (c :: t) rest) : MarkerFree t rest := by
  intro u v huv hv
  exact h (c :: u) v (by rw [huv]; rfl) hv

theorem scan_free (rest : Str) :
    ∀ (t : Str) (fuel pos : Nat), MarkerFree t rest → (t ++ rest).length ≤ fuel →
      matchMarkersFrom fuel pos (t ++ rest) = matchMarkersFrom (fuel - t.length) (pos + t.length) rest := by
  intro t
  induction t with
  | nil => intro fuel pos _ _; rfl
  | cons c t ih =>
    intro fuel pos hfree hfuel
    cases fuel with
    | zero => simp at hfuel
    | succ f =>
      have hnone : matchMarkerAt (c :: (t ++ rest)) = none :=
        matchMarkerAt_none_of_free _ (hfree [] (c :: t) rfl (by simp))
      rw [List.cons_append, matchMarkersFrom, hnone]
      simp only
      rw [ih f (pos + 1) (markerFree_tail c t rest hfree) (by simpa using hfuel)]
      congr 1
      · simp
      · simp
        omega

theorem renderMarker_cons (m : Marker) :
    renderMarker m = '[' :: ('[' :: (m.tag ++ m.attrRaw ++ "]]".toList)) := by
  simp [renderMarker]

theorem scan_marker (m : Marker) (hm : m.WellFormed) (rest : Str) (fuel pos : Nat) :
    matchMarkersFrom (fuel + 1) pos (renderMarker m ++ rest) =
      { index := pos, length := (renderMarker m).length, tag := m.tag, attrRaw := m.attrRaw } ::
        matchMarkersFrom fuel (pos + (renderMarker m).length) rest := by
  have hmatch := matchMarkerAt_render m hm rest
  have hdrop : (renderMarker m ++ rest).drop (renderMarker m).length = rest := drop_length_append _ _
  rw [renderMarker_cons] at hmatch hdrop ⊢
  rw [List.cons_append, matchMarkersFrom]
  rw [List.cons_append] at hmatch hdrop
  rw [hmatch]
  simp only
  rw [hdrop]

theorem renderMarker_length (m : Marker) : 4 ≤ (renderMarker m).length := by
  simp [renderMarker]
  omega

theorem scan_segments :
    ∀ (segs : List (Marker × Str)) (fuel pos : Nat), SegmentsClean segs →
      (renderSegments segs).length ≤ fuel →
      matchMarkersFrom fuel pos (renderSegments segs) = expectedMatches pos segs := by
  intro segs
  induction segs with
  | nil =>
    intro fuel pos _ _
    cases fuel <;> rfl
  | cons p rest ih =>
    intro fuel pos hclean hfuel
    obtain ⟨hwf, hfree, hrest⟩ := hclean
    have hlen := renderMarker_length p.1
    simp only [renderSegments, List.length_append] at hfuel
    cases fuel with
    | zero => omega
    | succ f =>
      simp only [renderSegments, expectedMatches]
      rw [List.append_assoc, scan_marker p.1 hwf _ f pos,
        scan_free _ p.2 f _ hfree (by simp only [List.length_append]; omega),
        ih _ _ hrest (by omega)]

theorem slice_middle (done mid rest : Str) :
    slice (done ++ mid ++ rest) done.length (done.length + mid.length) = mid := by
  unfold slice
  rw [List.append_assoc, drop_length_append]
  simp

theorem steps_of_segments :
    ∀ (segs : List (Marker × Str)) (done : Str),
      stepsOfMatches (done ++ renderSegments segs) (expectedMatches done.length segs) =
        segs.filterMap stepOfSegment := by
  intro segs
  induction segs with
  | nil => intro done; rfl
  | cons p rest ih =>
    intro done
    have hih := ih (done ++ renderMarker p.1 ++ p.2)
    have htext : done ++ renderSegments (p :: rest) =
        (done ++ renderMarker p.1 ++ p.2) ++ renderSegments rest := by
      simp [renderSegments, List.append_assoc]
    have hpos : (done ++ renderMarker p.1 ++ p.2).length =
        done.length + (renderMarker p.1).length + p.2.length := by
      simp only [List.length_append]
    rw [hpos] at hih
    have hstop : chunkEnd (done ++ renderSegments (p :: rest))
        (expectedMatches (done.length + (renderMarker p.1).length + p.2.length) rest) =
        (done ++ renderMarker p.1).length + p.2.length := by
      cases rest with
      | nil =>
        simp only [expectedMatches, chunkEnd, renderSegments, List.length_append, List.length_nil,
          Nat.add_zero, Nat.add_assoc]
      | cons q more =>
        simp only [expectedMatches, chunkEnd, List.length_append]
    have hchunk : slice (done ++ renderSegments (p :: rest)) (done.length + (renderMarker p.1).length)
        ((done ++ renderMarker p.1).length + p.2.length) = p.2 := by
      have h1 : done ++ renderSegments (p :: rest) =
          (done ++ renderMarker p.1) ++ p.2 ++ renderSegments rest := by
        simp [renderSegments, List.append_assoc]
      have h2 : done.length + (renderMarker p.1).length = (done ++ renderMarker p.1).length := by
        simp
      rw [h1, h2]
      exact slice_middle _ _ _
    rw [expectedMatches, stepsOfMatches.eq_def]
    simp only
    rw [hstop, hchunk, List.filterMap_cons]
    unfold stepOfSegment
    rw [htext, hih]
    split <;> rfl

/-- C10. For every answer template whose normalized text is some leading text
followed by at least one marker `[[stepN attrs]]` or `[[final attrs]]`, each
with the text that follows it up to the next marker or the end (no marker
begins inside the leading text or inside a text), `parseFlowSteps` returns, in
marker order, exactly one step per marker whose following text is non-empty
after trimming; each step carries the tag of the marker, that trimmed text,
and the parsed attributes of the marker. When every text is blank the result
is null. -/
theorem C10_parse_rendered_template (a pre : Str) (segs : List (Marker × Str))
    (hnorm : normalizeFaqAnswerForReply a = pre ++ renderSegments segs)
    (hsegs : segs ≠ [])
    (hpre : MarkerFree pre (renderSegments segs))
    (hclean : SegmentsClean segs) :
    parseFlowSteps a =
      if (segs.filterMap stepOfSegment).isEmpty then none
      else some (segs.filterMap stepOfSegment) := by
  have hms : matchAllMarkers (pre ++ renderSegments segs) = expectedMatches pre.length segs := by
    unfold matchAllMarkers
    rw [scan_free _ pre _ 0 hpre (le_refl _), scan_segments segs _ _ hclean (by simp)]
    simp
  have hne : (expectedMatches pre.length segs).isEmpty = false := by
    cases segs with
    | nil => exact absurd rfl hsegs
    | cons p rest => rfl
  unfold parseFlowSteps
  simp only [hnorm, hms, hne, Bool.false_eq_true, if_false, steps_of_segments]

theorem markerFree_of_no_bracket (t rest : Str) (h : ∀ c ∈ t, c ≠ '[') : MarkerFree t rest := by
  intro u v huv hv hmark
  obtain ⟨m, r, _, heq⟩ := hmark
  cases v with
  | nil => exact hv rfl
  | cons c v' =>
    rw [renderMarker_cons] at heq
    simp only [List.cons_append, List.cons.injEq] at heq
    exact h c (by rw [huv]; simp) heq.1

/-- Witness of C10: the template
`[[step1 expect=yesno slot=a]]X[[step2]]Y[[final]]Z` yields exactly three
steps with the texts X, Y, Z and the attributes `expect: yesno`, `slot: a` on
the first. -/
theorem C10_parse_witness :
    parseFlowSteps "[[step1 expect=yesno slot=a]]X[[step2]]Y[[final]]Z".toList =
      some [ { tag := "step1".toList, text := "X".toList
               meta := [("expect".toList, "yesno".toList), ("slot".toList, "a".toList)] },
             { tag := "step2".toList, text := "Y".toList, meta := [] },
             { tag := "final".toList, text := "Z".toList, meta := [] } ] :=
  Eq.trans
    (C10_parse_rendered_template "[[step1 expect=yesno slot=a]]X[[step2]]Y[[final]]Z".toList []
      [ ({ tag := "step1".toList, attrRaw := " expect=yesno slot=a".toList }, "X".toList),
        ({ tag := "step2".toList, attrRaw := [] }, "Y".toList),
        ({ tag := "final".toList, attrRaw := [] }, "Z".toList) ]
      (by decide) (by simp)
      (markerFree_of_no_bracket [] _ (by simp))
      ⟨⟨Or.inr ⟨"1".toList, by decide, by decide, rfl, fun c hc => by cases hc; decide⟩, by decide⟩,
        markerFree_of_no_bracket _ _ (by decide),
       ⟨Or.inr ⟨"2".toList, by decide, by decide, rfl, fun c hc => by cases hc⟩, by decide⟩,
        markerFree_of_no_bracket _ _ (by decide),
       ⟨Or.inl rfl, by decide⟩,
        markerFree_of_no_bracket _ _ (by decide),
       trivial⟩)
    (by decide)

/-! ### The stemmer -/

theorem endsWith_iff (s e : Str) : endsWith s e = true ↔ ∃ stem, s = stem ++ e := by
  unfold endsWith
  rw [List.isPrefixOf_iff_prefix, List.reverse_prefix]
  constructor
  · rintro ⟨stem, h⟩
    exact ⟨stem, h.symm⟩
  · rintro ⟨stem, h⟩
    exact ⟨stem, h.symm⟩

theorem dropLast_append (stem e : Str) : dropLast (stem ++ e) e.length = stem := by
  unfold dropLast
  rw [List.length_append, Nat.add_sub_cancel]
  exact List.take_left' rfl

theorem endings1_length : ∀ e ∈ endings1, e.length = 1 := by decide

theorem endings2_length : ∀ e ∈ endings2, 1 ≤ e.length := by decide

theorem faqStemMatch_of_stem (t keyword stem e : Str) (he : e ∈ endings1 ++ endings2)
    (hkw : trim keyword = stem ++ e) (hlen : 2 ≤ stem.length) (hin : includes t stem = true) :
    faqStemMatch t keyword = true := by
  have hends : endsWith (stem ++ e) e = true := (endsWith_iff _ _).mpr ⟨stem, rfl⟩
  have hdrop : dropLast (stem ++ e) e.length = stem := dropLast_append stem e
  unfold faqStemMatch
  simp only [hkw]
  rcases List.mem_append.mp he with h1 | h2
  · have hl := endings1_length e h1
    have h3 : ¬ (stem ++ e).length < 3 := by
      rw [List.length_append, hl]; omega
    rw [if_neg h3, Bool.or_eq_true]
    left
    rw [List.any_eq_true]
    refine ⟨e, h1, ?_⟩
    rw [hl] at hdrop
    rw [hends, hdrop, hin, Bool.true_and, Bool.and_true, decide_eq_true_eq]
    exact hlen
  · have hl := endings2_length e h2
    have h3 : ¬ (stem ++ e).length < 3 := by
      rw [List.length_append]; omega
    rw [if_neg h3, Bool.or_eq_true]
    right
    rw [List.any_eq_true]
    refine ⟨e, h2, ?_⟩
    rw [hends, hdrop, hin, Bool.true_and, Bool.and_true, Bool.and_eq_true, decide_eq_true_eq,
      decide_eq_true_eq, List.length_append]
    exact ⟨by omega, hlen⟩

theorem faqStemMatch_stem (t keyword : Str) (h : faqStemMatch t keyword = true) :
    ∃ e ∈ endings1 ++ endings2, ∃ stem, trim keyword = stem ++ e ∧ 2 ≤ stem.length ∧
      includes t stem = true := by
  unfold faqStemMatch at h
  simp only at h
  split at h
  · exact absurd h (by simp)
  · rw [Bool.or_eq_true, List.any_eq_true, List.any_eq_true] at h
    rcases h with ⟨e, he, h⟩ | ⟨e, he, h⟩
    · rw [Bool.and_eq_true, Bool.and_eq_true] at h
      obtain ⟨hends, hlen, hin⟩ := h
      obtain ⟨stem, hst⟩ := (endsWith_iff _ _).mp hends
      have hd := dropLast_append stem e
      rw [endings1_length e he, ← hst] at hd
      rw [hd] at hin hlen
      exact ⟨e, List.mem_append_left _ he, stem, hst, of_decide_eq_true hlen, hin⟩
    · rw [Bool.and_eq_true, Bool.and_eq_true, Bool.and_eq_true] at h
      obtain ⟨⟨hends, _⟩, hlen, hin⟩ := h
      obtain ⟨stem, hst⟩ := (endsWith_iff _ _).mp hends
      have hd := dropLast_append stem e
      rw [← hst] at hd
      rw [hd] at hin hlen
      exact ⟨e, List.mem_append_right _ he, stem, hst, of_decide_eq_true hlen, hin⟩


/-! ### Keyword matching -/

/-- C21 fails for `faqStemMatch` taken alone: it never tests the keyword
itself, so a keyword that occurs verbatim but is shorter than three
characters, or has no recognised ending, does not match. -/
theorem C21_verbatim_counterexample :
    includes "歯が痛い".toList "痛い".toList = true ∧
    faqStemMatch "歯が痛い".toList "痛い".toList = false ∧
    includes "インプラントの費用".toList "インプラント".toList = true ∧
    faqStemMatch "インプラントの費用".toList "インプラント".toList = false := by
  decide

/-- C21, as amended. The keyword test of `pickRelevantFaq`, which is
`t.includes(kw) || faqStemMatch(t, kw)`, is true for every haystack and keyword
such that the keyword appears verbatim in the haystack. `faqStemMatch` alone
does not test the keyword itself: it is false for every keyword of fewer than
three characters after trimming, and it is true exactly when the trimmed
keyword is a stem of at least 2 characters followed by one of the recognised
endings and that stem occurs in the haystack. -/
theorem C21_keyword_test_verbatim (t kw : Str) :
    (includes t kw = true → faqHit t kw = true) ∧
    ((trim kw).length < 3 → faqStemMatch t kw = false) ∧
    (faqStemMatch t kw = true ↔
      ∃ e ∈ endings1 ++ endings2, ∃ stem, trim kw = stem ++ e ∧ 2 ≤ stem.length ∧
        includes t stem = true) := by
  refine ⟨fun h => ?_, fun h => ?_, ⟨fun h => faqStemMatch_stem t kw h, ?_⟩⟩
  · unfold faqHit
    rw [h]
    rfl
  · unfold faqStemMatch
    simp only [h, if_true]
  · rintro ⟨e, he, stem, hkw, hlen, hin⟩
    exact faqStemMatch_of_stem t kw stem e he hkw hlen hin

/-- Witness of C21: a two-character keyword that occurs verbatim, and the
keyword 痛みます, whose stem 痛み occurs in the haystack. -/
theorem C21_keyword_test_witness :
    faqHit "歯が痛い".toList "痛い".toList = true ∧
    faqStemMatch "歯が痛い".toList "痛い".toList = false ∧
    faqStemMatch "歯の痛みが".toList "痛みます".toList = true :=
  ⟨(C21_keyword_test_verbatim "歯が痛い".toList "痛い".toList).1 (by decide),
   (C21_keyword_test_verbatim "歯が痛い".toList "痛い".toList).2.1 (by decide),
   (C21_keyword_test_verbatim "歯の痛みが".toList "痛みます".toList).2.2.mpr
     ⟨"ます".toList, by decide, "痛み".toList, by decide, by decide, by decide⟩⟩

/-! ### Yes/no steps -/

theorem judgeAnswer_yesno (text expect choice flowKey : Str)
    (he : toLowerCase expect = "yesno".toList) :
    judgeAnswer text expect choice flowKey =
      if (trim text).isEmpty then rejected
      else if (parseYesNo (trim text)).isEmpty then rejected
      else { ok := true, value := parseYesNo (trim text) } := by
  unfold judgeAnswer
  simp only [he]
  rfl

theorem parseYesNo_values (t : Str) :
    parseYesNo t = "yes".toList ∨ parseYesNo t = "no".toList ∨ parseYesNo t = [] := by
  unfold parseYesNo
  simp only
  split
  · exact Or.inl rfl
  · split
    · exact Or.inr (Or.inl rfl)
    · split
      · exact Or.inl rfl
      · split
        · exact Or.inr (Or.inl rfl)
        · exact Or.inr (Or.inr rfl)

/-- C24. For every step whose `expect` is `yesno`, `buildReplyOptions` returns
exactly the two buttons はい and いいえ (label equal to value), and `judgeAnswer`
with `expect=yesno` accepts these two values as `yes` and `no`; every accepted
`yesno` judgement has the value `yes` or `no`; and an utterance whose trimmed,
lower-cased text is not in the fixed vocabulary and contains neither はい nor
いいえ is rejected. -/
theorem C24_yesno_step (st : FlowStep) (text expect choice flowKey : Str)
    (hst : toLowerCase (metaGet st "expect".toList) = "yesno".toList)
    (he : toLowerCase expect = "yesno".toList) :
    buildReplyOptions st = some yesNoButtons ∧
    (∀ b ∈ yesNoButtons, b.label = b.value) ∧
    judgeAnswer "はい".toList expect choice flowKey = { ok := true, value := "yes".toList } ∧
    judgeAnswer "いいえ".toList expect choice flowKey = { ok := true, value := "no".toList } ∧
    ((judgeAnswer text expect choice flowKey).ok = true →
      (judgeAnswer text expect choice flowKey).value = "yes".toList ∨
      (judgeAnswer text expect choice flowKey).value = "no".toList) ∧
    (yesNoVocabulary.contains (toLowerCase (trim text)) = false →
      includes (toLowerCase (trim text)) "はい".toList = false →
      includes (toLowerCase (trim text)) "いいえ".toList = false →
      judgeAnswer text expect choice flowKey = rejected) := by
  refine ⟨?_, by decide, ?_, ?_, ?_, ?_⟩
  · unfold buildReplyOptions
    simp only [hst]
    rfl
  · rw [judgeAnswer_yesno _ _ _ _ he]
    decide
  · rw [judgeAnswer_yesno _ _ _ _ he]
    decide
  · rw [judgeAnswer_yesno _ _ _ _ he]
    split
    · intro h
      simp [rejected] at h
    · split
      · intro h
        simp [rejected] at h
      · rename_i hne
        intro _
        rcases parseYesNo_values (trim text) with h | h | h
        · exact Or.inl h
        · exact Or.inr h
        · rw [h] at hne
          exact absurd rfl hne
  · intro hvoc hyes hno
    rw [judgeAnswer_yesno _ _ _ _ he]
    split
    · rfl
    · have hp : parseYesNo (trim text) = [] := by
        unfold parseYesNo
        rw [trim_trim]
        simp only [yesNoVocabulary, List.contains_cons, Bool.or_eq_false_iff] at hvoc
        simp only [List.contains_cons, hvoc, hyes, hno, Bool.or_self, List.contains_nil,
          Bool.false_eq_true, if_false]
      rw [hp]
      rfl

/-- Witness of C24: the `yesno` step of the example flow. -/
theorem C24_yesno_witness :
    buildReplyOptions (exampleSteps.get ⟨0, by decide⟩) = some yesNoButtons ∧
    judgeAnswer "たぶん".toList "YesNo".toList [] [] = rejected :=
  ⟨(C24_yesno_step (exampleSteps.get ⟨0, by decide⟩) "たぶん".toList "YesNo".toList [] []
      (by decide) (by decide)).1,
   (C24_yesno_step (exampleSteps.get ⟨0, by decide⟩) "たぶん".toList "YesNo".toList [] []
      (by decide) (by decide)).2.2.2.2.2 (by decide) (by decide) (by decide)⟩

/-! ### Substrings -/

theorem includes_iff_occurs (s sub : Str) : includes s sub = true ↔ sub <:+: s := by
  induction s with
  | nil =>
    simp only [includes, List.isEmpty_eq_true, List.infix_nil]
  | cons c cs ih =>
    rw [includes, Bool.or_eq_true, ih, List.infix_cons_iff, List.isPrefixOf_iff_prefix]

theorem trim_occurs (s : Str) : trim s <:+: s := by
  unfold trim
  have h1 : trimEnd (trimStart s) <+: trimStart s := by
    rw [trimEnd_eq_rdropWhile]
    exact List.rdropWhile_prefix _ _
  have h2 : trimStart s <:+ s := List.dropWhile_suffix _
  exact List.IsInfix.trans h1.isInfix h2.isInfix

theorem includes_of_trim (s sub : Str) (h : includes (trim s) sub = true) : includes s sub = true :=
  (includes_iff_occurs s sub).mpr (List.IsInfix.trans ((includes_iff_occurs _ _).mp h) (trim_occurs s))

/-! ### Choice steps -/

theorem digit19_cases (c : Char) (h : isDigit19 c = true) :
    c = '1' ∨ c = '2' ∨ c = '3' ∨ c = '4' ∨ c = '5' ∨ c = '6' ∨ c = '7' ∨ c = '8' ∨ c = '9' := by
  unfold isDigit19 at h
  simp only [Bool.and_eq_true, decide_eq_true_eq] at h
  obtain ⟨h1, h2⟩ := h
  have hc : Char.ofNat c.toNat = c := Char.ofNat_toNat c
  generalize c.toNat = n at h1 h2 hc
  subst hc
  interval_cases n <;> decide

theorem digit19_value (c : Char) (h : isDigit19 c = true) :
    (c.toNat - 0x30 != 0) = true ∧ natDigits (c.toNat - 0x30) = [c] := by
  rcases digit19_cases c h with h | h | h | h | h | h | h | h | h <;> subst h <;> decide

/-- The strings `judgeAnswer` can return for a `choice` step. -/
theorem parseChoiceDigit_of_find (t : Str) (c : Char) (h : t.find? isDigit19 = some c) :
    (parseChoiceDigit t != 0) = true ∧ natDigits (parseChoiceDigit t) = [c] := by
  unfold parseChoiceDigit
  rw [h]
  exact digit19_value c (List.find?_some h)

theorem parseChoiceDigit_of_none (t : Str) (h : t.find? isDigit19 = none) :
    parseChoiceDigit t = 0 := by
  unfold parseChoiceDigit
  rw [h]

theorem normalizeChoiceJa12_values (s : Str) :
    normalizeChoiceJa12 s = [] ∨ normalizeChoiceJa12 s = "1".toList ∨ normalizeChoiceJa12 s = "2".toList := by
  unfold normalizeChoiceJa12
  split
  · exact Or.inr (Or.inl rfl)
  · split
    · exact Or.inr (Or.inr rfl)
    · exact Or.inl rfl

theorem normalizeChoiceBySchema_values (t choice flowKey : Str) :
    normalizeChoiceBySchema t choice flowKey = [] ∨
    normalizeChoiceBySchema t choice flowKey = "1".toList ∨
    normalizeChoiceBySchema t choice flowKey = "2".toList ∨
    normalizeChoiceBySchema t choice flowKey = "3".toList ∨
    normalizeChoiceBySchema t choice flowKey = "4".toList := by
  unfold normalizeChoiceBySchema
  simp only
  split
  · split
    · exact Or.inr (Or.inl rfl)
    · split
      · exact Or.inr (Or.inr (Or.inl rfl))
      · split
        · exact Or.inr (Or.inr (Or.inr (Or.inl rfl)))
        · split
          · exact Or.inr (Or.inr (Or.inr (Or.inr rfl)))
          · exact Or.inl rfl
  · split
    · split
      · exact Or.inr (Or.inl rfl)
      · split
        · exact Or.inr (Or.inr (Or.inl rfl))
        · split
          · exact Or.inr (Or.inr (Or.inr (Or.inl rfl)))
          · exact Or.inl rfl
    · rcases normalizeChoiceJa12_values (toLowerCase (trim t)) with h | h | h
      · exact Or.inl h
      · exact Or.inr (Or.inl h)
      · exact Or.inr (Or.inr (Or.inl h))

theorem judgeAnswer_choice (text expect choice flowKey : Str)
    (he : toLowerCase expect = "choice".toList) :
    judgeAnswer text expect choice flowKey =
      if (trim text).isEmpty then rejected
      else if parseChoiceDigit (trim text) != 0 then
        if !(trim choice).isEmpty && !includes (trim choice) (natDigits (parseChoiceDigit (trim text))) then
          rejected
        else { ok := true, value := natDigits (parseChoiceDigit (trim text)) }
      else if !(normalizeChoiceBySchema (trim text) (trim choice) flowKey).isEmpty then
        if !(trim choice).isEmpty &&
            !includes (trim choice) (normalizeChoiceBySchema (trim text) (trim choice) flowKey) then
          rejected
        else { ok := true, value := normalizeChoiceBySchema (trim text) (trim choice) flowKey }
      else rejected := by
  unfold judgeAnswer
  simp only [he]
  rfl

theorem setAttr_trimmed (meta : StepMeta) (key v : Str)
    (hm : ∀ kv ∈ meta, trim kv.2 = kv.2) (hv : trim v = v) :
    ∀ kv ∈ setAttr meta key v, trim kv.2 = kv.2 := by
  induction meta with
  | nil =>
    intro kv hkv
    simp only [setAttr, List.mem_singleton] at hkv
    rw [hkv]
    exact hv
  | cons p rest ih =>
    obtain ⟨k, w⟩ := p
    intro kv hkv
    unfold setAttr at hkv
    split at hkv
    · rcases List.mem_cons.mp hkv with h | h
      · rw [h]
        exact hv
      · exact hm kv (List.mem_cons_of_mem _ h)
    · rcases List.mem_cons.mp hkv with h | h
      · rw [h]
        exact hm (k, w) (List.mem_cons_self _ _)
      · exact ih (fun kv' h' => hm kv' (List.mem_cons_of_mem _ h')) kv h

theorem parseAttrs_trimmed (attrRaw : Str) : ∀ kv ∈ parseAttrs attrRaw, trim kv.2 = kv.2 := by
  unfold parseAttrs
  simp only
  split
  · intro kv hkv
    simp at hkv
  · generalize splitOnSpaces (trim attrRaw) = toks
    have hgen : ∀ (meta : StepMeta), (∀ kv ∈ meta, trim kv.2 = kv.2) →
        ∀ kv ∈ toks.foldl (fun meta p =>
          match matchAttr p with
          | some (key, v) =>
            if toLowerCase key == "__proto__".toList then meta
            else setAttr meta (toLowerCase key) (trim v)
          | none => meta) meta, trim kv.2 = kv.2 := by
      induction toks with
      | nil => intro meta hm; exact hm
      | cons p rest ih =>
        intro meta hm
        rw [List.foldl_cons]
        apply ih
        split
        · split
          · exact hm
          · exact setAttr_trimmed meta _ _ hm (trim_trim _)
        · exact hm
    exact hgen [] (fun kv hkv => by simp at hkv)

theorem lookup_mem {β : Type} (l : List (Str × β)) (k : Str) (v : β) (h : l.lookup k = some v) :
    ∃ k', (k', v) ∈ l := by
  induction l with
  | nil => simp [List.lookup] at h
  | cons p rest ih =>
    obtain ⟨a, b⟩ := p
    rw [List.lookup] at h
    split at h
    · simp only [Option.some.injEq] at h
      exact ⟨a, by rw [h]; exact List.mem_cons_self _ _⟩
    · obtain ⟨k', hk'⟩ := ih h
      exact ⟨k', List.mem_cons_of_mem _ hk'⟩

theorem stepsOfMatches_meta (text : Str) (ms : List MarkerMatch) :
    ∀ st ∈ stepsOfMatches text ms, ∃ raw, st.meta = parseAttrs raw := by
  induction ms with
  | nil => intro st h; simp [stepsOfMatches] at h
  | cons m rest ih =>
    intro st h
    simp only [stepsOfMatches] at h
    split at h
    · exact ih st h
    · rcases List.mem_cons.mp h with heq | hmem
      · exact ⟨m.attrRaw, by rw [heq]⟩
      · exact ih st hmem

/-- Every attribute of a parsed step reads as a trimmed string. -/
theorem parsed_meta_trimmed (a : Str) (steps : List FlowStep) (st : FlowStep) (name : Str)
    (h : parseFlowSteps a = some steps) (hst : st ∈ steps) :
    trim (metaGet st name) = metaGet st name := by
  have hmeta : ∃ raw, st.meta = parseAttrs raw := by
    unfold parseFlowSteps at h
    simp only at h
    split at h
    · simp at h
    · split at h
      · simp at h
      · simp only [Option.some.injEq] at h
        subst h
        exact stepsOfMatches_meta _ _ st hst
  obtain ⟨raw, hraw⟩ := hmeta
  unfold metaGet
  cases hl : st.meta.lookup name with
  | none => rfl
  | some v =>
    obtain ⟨k', hk'⟩ := lookup_mem _ _ _ hl
    rw [hraw] at hk'
    exact parseAttrs_trimmed raw (k', v) hk'

/-- C22. Choice judging: whenever `judgeAnswer` with `expect=choice` accepts an
utterance, the value is a single digit character `1`..`9` and, if the choice
attribute is not blank, that digit occurs in the attribute (the choice
attribute of a parsed step is never blank unless it is empty); an utterance
that contains a digit 1–9 is judged by its first such digit alone, accepted
exactly when the digit is in the choice set if one is given; and an utterance
with no digit and no applicable free-text mapping is rejected. -/
theorem C22_choice_judging (text expect choice flowKey : Str)
    (he : toLowerCase expect = "choice".toList) :
    ((judgeAnswer text expect choice flowKey).ok = true →
      (judgeAnswer text expect choice flowKey).value ∈ digitStrings19 ∧
      (trim choice ≠ [] →
        includes choice (judgeAnswer text expect choice flowKey).value = true)) ∧
    (∀ c, (trim text).find? isDigit19 = some c →
      judgeAnswer text expect choice flowKey =
        if !(trim choice).isEmpty && !includes (trim choice) [c] then rejected
        else { ok := true, value := [c] }) ∧
    ((trim text).find? isDigit19 = none →
      normalizeChoiceBySchema (trim text) (trim choice) flowKey = [] →
      judgeAnswer text expect choice flowKey = rejected) ∧
    (∀ a steps st, parseFlowSteps a = some steps → st ∈ steps →
      metaGet st "choice".toList ≠ [] → trim (metaGet st "choice".toList) ≠ []) := by
  refine ⟨?_, ?_, ?_, ?_⟩
  · rw [judgeAnswer_choice _ _ _ _ he]
    split
    · intro h; simp [rejected] at h
    · split
      · rename_i hd
        have hfind : ∃ c, (trim text).find? isDigit19 = some c := by
          cases hf : (trim text).find? isDigit19 with
          | none =>
            rw [parseChoiceDigit_of_none _ hf] at hd
            simp at hd
          | some c => exact ⟨c, rfl⟩
        obtain ⟨c, hc⟩ := hfind
        obtain ⟨_, hval⟩ := parseChoiceDigit_of_find _ c hc
        rw [hval]
        split
        · intro h; simp [rejected] at h
        · rename_i hin
          intro _
          refine ⟨?_, fun hch => ?_⟩
          · rcases digit19_cases c (List.find?_some hc) with h | h | h | h | h | h | h | h | h <;>
              subst h <;> decide
          · apply includes_of_trim
            cases hi : includes (trim choice) [c] with
            | true => rfl
            | false =>
              exfalso
              apply hin
              have : (trim choice).isEmpty = false := by
                cases htc : trim choice with
                | nil => exact absurd htc hch
                | cons _ _ => rfl
              rw [this, hi]
              rfl
      · split
        · rename_i hne
          split
          · intro h; simp [rejected] at h
          · rename_i hin
            intro _
            refine ⟨?_, fun hch => ?_⟩
            · rcases normalizeChoiceBySchema_values (trim text) (trim choice) flowKey with
                h | h | h | h | h
              · rw [h] at hne
                simp at hne
              all_goals (rw [h]; decide)
            · apply includes_of_trim
              cases hi : includes (trim choice)
                  (normalizeChoiceBySchema (trim text) (trim choice) flowKey) with
              | true => rfl
              | false =>
                exfalso
                apply hin
                have : (trim choice).isEmpty = false := by
                  cases htc : trim choice with
                  | nil => exact absurd htc hch
                  | cons _ _ => rfl
                rw [this, hi]
                rfl
        · intro h; simp [rejected] at h
  · intro c hc
    obtain ⟨hd, hval⟩ := parseChoiceDigit_of_find _ c hc
    have hne : (trim text).isEmpty = false := by
      cases htt : trim text with
      | nil => rw [htt] at hc; simp at hc
      | cons _ _ => rfl
    rw [judgeAnswer_choice _ _ _ _ he, hne, hval]
    simp only [Bool.false_eq_true, if_false, hd, if_true]
  · intro hnone hmap
    rw [judgeAnswer_choice _ _ _ _ he, parseChoiceDigit_of_none _ hnone, hmap]
    split <;> rfl
  · intro a steps st hp hst hne
    rw [parsed_meta_trimmed a steps st _ hp hst]
    exact hne

/-- Witness of C22: the first digit decides, whatever follows it. -/
theorem C22_choice_witness :
    judgeAnswer "3番か1番です".toList "choice".toList "12".toList [] = rejected ∧
    judgeAnswer "たぶん".toList "choice".toList "12".toList [] = rejected :=
  ⟨Eq.trans ((C22_choice_judging "3番か1番です".toList "choice".toList "12".toList []
      (by decide)).2.1 '3' (by decide)) (by decide),
   (C22_choice_judging "たぶん".toList "choice".toList "12".toList [] (by decide)).2.2.1
      (by decide) (by decide)⟩

/-! ### Tooth steps -/

theorem judgeAnswer_tooth (text expect choice flowKey : Str)
    (he : toLowerCase expect = "tooth".toList) :
    judgeAnswer text expect choice flowKey =
      if (trim text).isEmpty then rejected
      else if (parseToothLocation (trim text)).isEmpty then rejected
      else { ok := true, value := parseToothLocation (trim text) } := by
  unfold judgeAnswer
  simp only [he]
  rfl

/-- An accepted `tooth` judgement has a strong locator and a non-empty value. -/
theorem judgeAnswer_tooth_strong (text expect choice flowKey : Str)
    (he : toLowerCase expect = "tooth".toList)
    (hok : (judgeAnswer text expect choice flowKey).ok = true) :
    looksLikeToothStrong (trim text) = true ∧
    (judgeAnswer text expect choice flowKey).value ≠ [] := by
  rw [judgeAnswer_tooth _ _ _ _ he] at hok ⊢
  split at hok
  · simp [rejected] at hok
  · rename_i hne
    rw [if_neg hne]
    split at hok
    · simp [rejected] at hok
    · rename_i hp
      rw [if_neg hp]
      refine ⟨?_, fun h => hp (by simp only at h; rw [h]; rfl)⟩
      cases hs : looksLikeToothStrong (trim text) with
      | true => rfl
      | false =>
        exfalso
        apply hp
        unfold parseToothLocation
        simp only [trim_trim, hs]
        rfl

/-- C23 fails: no utterance is accepted by `judgeAnswer` with `expect=tooth`
and also reads as a symptom without a strong locator, which is the only
condition under which prefill discards a `tooth` judgement. -/
theorem C23_no_discarded_tooth_counterexample :
    ¬ ∃ u : Str, (judgeAnswer u "tooth".toList [] []).ok = true ∧
      looksLikeSymptom (trim u) = true ∧ looksLikeToothStrong (trim u) = false := by
  rintro ⟨u, hok, _, hstrong⟩
  have := (judgeAnswer_tooth_strong u "tooth".toList [] [] (by decide) hok).1
  rw [hstrong] at this
  exact absurd this (by decide)

/-- C23, as amended. The tooth exception of prefill never fires: for every
utterance that `judgeAnswer` with `expect=tooth` accepts, the utterance has a
strong locator, and the prefill iteration of a `tooth` step whose slot is
declared and not yet filled stores the judged value, exactly as a direct
question turn would. -/
theorem C23_prefill_keeps_accepted_tooth (flowKey u : Str) (slots : Slots) (st : FlowStep)
    (he : toLowerCase (metaGet st "expect".toList) = "tooth".toList)
    (hslot : metaGet st "slot".toList ≠ [])
    (hfree : slotFilled slots (metaGet st "slot".toList) = false)
    (hok : (judgeAnswer (trim u) (metaGet st "expect".toList) (metaGet st "choice".toList)
      flowKey).ok = true) :
    looksLikeToothStrong (trim u) = true ∧
    prefillStep flowKey (trim u) slots st =
      setSlot slots (metaGet st "slot".toList)
        (.str (judgeAnswer (trim u) (metaGet st "expect".toList) (metaGet st "choice".toList)
          flowKey).value) ∧
    saveSlot slots (metaGet st "slot".toList)
        (judgeAnswer (trim u) (metaGet st "expect".toList) (metaGet st "choice".toList)
          flowKey).value =
      prefillStep flowKey (trim u) slots st := by
  obtain ⟨hstrong, hval⟩ := judgeAnswer_tooth_strong _ _ _ _ he hok
  rw [trim_trim] at hstrong
  have hs : (metaGet st "slot".toList).isEmpty = false := by
    cases h : metaGet st "slot".toList with
    | nil => exact absurd h hslot
    | cons _ _ => rfl
  have hv : (judgeAnswer (trim u) (metaGet st "expect".toList) (metaGet st "choice".toList)
      flowKey).value.isEmpty = false := by
    cases h : (judgeAnswer (trim u) (metaGet st "expect".toList) (metaGet st "choice".toList)
      flowKey).value with
    | nil => exact absurd h hval
    | cons _ _ => rfl
  have hpre : prefillStep flowKey (trim u) slots st =
      setSlot slots (metaGet st "slot".toList)
        (.str (judgeAnswer (trim u) (metaGet st "expect".toList) (metaGet st "choice".toList)
          flowKey).value) := by
    unfold prefillStep
    simp only [hs, hfree, hok, hv, hstrong, he, Bool.or_self, Bool.false_eq_true, if_false,
      Bool.not_false, Bool.and_self, if_true, Bool.not_true, Bool.and_false]
  refine ⟨hstrong, hpre, ?_⟩
  rw [hpre]
  unfold saveSlot
  simp only [hs, hfree, hv, Bool.not_false, Bool.and_self, if_true]

/-- Witness of C23: an utterance with a locator and a symptom is accepted and
stored by prefill. -/
theorem C23_prefill_tooth_witness :
    prefillStep [] (trim "右上の奥歯が痛い".toList) []
        { tag := "step1".toList, text := "どの歯ですか？".toList
          meta := [("expect".toList, "tooth".toList), ("slot".toList, "tooth".toList)] } =
      [("tooth".toList, .str "右上の奥歯が痛い".toList)] :=
  Eq.trans
    (C23_prefill_keeps_accepted_tooth [] "右上の奥歯が痛い".toList []
      { tag := "step1".toList, text := "どの歯ですか？".toList
        meta := [("expect".toList, "tooth".toList), ("slot".toList, "tooth".toList)] }
      (by decide) (by decide) (by decide) (by decide)).2.1
    rfl

/-! ### Steps that are not whole -/

/-- C30 fails on the code: a caller-supplied step of 1.5 is accepted by
`normalizeFlow`; with a three-step template the current-step lookup reads
`undefined`, the answer is accepted as free text, and `advanceSteps` from 2.5
reads `st.tag` of a missing element: the turn ends in a `TypeError`. -/
theorem C30_fractional_step_type_error :
    normalizeFlow exampleFractionalState =
      some { key := "検診を受けたい".toList, step := ⟨15, 1⟩, slots := [] } ∧
    (JNum.mk 15 1).toIndex = none ∧
    (parseFlowSteps "[[step1 expect=yesno slot=first]]初めてですか？[[step2 expect=when slot=since]]前回はいつですか？[[final]]ご予約ください。".toList).map List.length
      = some 3 ∧
    turn exampleCheckupCatalog exampleFractionalState "はい".toList = .error .typeError :=
  ⟨rfl, by decide, rfl, rfl⟩

/-! ### The knowledge handler -/

/-- With an empty `q` the handler returns the rows that have text, cut to
`limit`. -/
theorem handleKnowledge_all_rows (head : List JVal) (row : List JVal) (rows : List (List JVal))
    (qParam limitParam : Option Str) (idxText : Nat)
    (hq : tokenize_ (normText_ (trim (qParam.getD []))) = [])
    (htext : headerIndex (head.map (fun h => toLowerCase (trim (if truthy h then jsToString h else []))))
      "text".toList = some idxText) :
    handleKnowledge_ (some (head :: row :: rows)) qParam limitParam =
      (knowledgeRows (row :: rows)
        (headerIndex (head.map (fun h => toLowerCase (trim (if truthy h then jsToString h else []))))
          "doc_title".toList)
        (headerIndex (head.map (fun h => toLowerCase (trim (if truthy h then jsToString h else []))))
          "chunk_id".toList)
        idxText).take (knowledgeLimit limitParam) := by
  unfold handleKnowledge_
  simp only [htext, hq, List.isEmpty_nil, if_true]

/-- C29 fails on the code: with an empty `q` and no `limit` parameter, a sheet
of 51 rows that all have text yields only the first 50 of them. -/
theorem C29_knowledge_truncated :
    (exampleKnowledgeSheet.tail.filter (fun row => !(cellString row 2).isEmpty)).length = 51 ∧
    knowledgeLimit none = 50 ∧
    (handleKnowledge_ (some exampleKnowledgeSheet) none none).length = 50 ∧
    (handleKnowledge_ (some exampleKnowledgeSheet) (some " ".toList) none).length = 50 := by
  decide

/-! ### Choice buttons -/

/-- C25 fails when the `choice` attribute has fewer than two digits: a choice
step without enumerated lines whose attribute is the single digit `1` gets no
buttons at all, not one button. -/
theorem C25_single_digit_counterexample :
    toLowerCase (metaGet exampleSingleDigitStep "expect".toList) = "choice".toList ∧
    ((splitOnChar '\n' exampleSingleDigitStep.text).filterMap lineOption).length = 0 ∧
    (metaGet exampleSingleDigitStep "choice".toList).filter isDigit = ['1'] ∧
    buildReplyOptions exampleSingleDigitStep = none := by
  decide

/-- C25, as amended. Choice reply-option fallback: for every choice step whose
text yields fewer than two enumerated lines, if the `choice` attribute holds
at least two digits, `buildReplyOptions` returns exactly one button per digit
of the attribute, in attribute order, each with value equal to that digit and
a label that is either the bare digit or the digit, `）` and the trimmed text
captured after the first place in the step text where the digit is followed
by an enumerator mark or white space; if the attribute holds fewer than two
digits the result is null. -/
theorem C25_choice_fallback (st : FlowStep)
    (he : toLowerCase (metaGet st "expect".toList) = "choice".toList)
    (hfew : ((splitOnChar '\n' st.text).filterMap lineOption).length < 2) :
    (2 ≤ ((metaGet st "choice".toList).filter isDigit).length →
      buildReplyOptions st =
        some (((metaGet st "choice".toList).filter isDigit).map (fallbackOption st.text))) ∧
    (((metaGet st "choice".toList).filter isDigit).length < 2 → buildReplyOptions st = none) ∧
    (∀ d, (fallbackOption st.text d).value = [d] ∧
      ((firstMatch (matchChoiceLabelAt d) st.text = none ∧ (fallbackOption st.text d).label = [d]) ∨
        ∃ cap, firstMatch (matchChoiceLabelAt d) st.text = some cap ∧
          (fallbackOption st.text d).label = [d] ++ "）".toList ++ trim cap)) := by
  have hnot : ¬ (2 ≤ ((splitOnChar '\n' st.text).filterMap lineOption).length) := by omega
  refine ⟨fun hd => ?_, fun hd => ?_, fun d => ?_⟩
  · have hne : (metaGet st "choice".toList).isEmpty = false := by
      cases h : metaGet st "choice".toList with
      | nil => rw [h] at hd; simp at hd
      | cons _ _ => rfl
    unfold buildReplyOptions
    simp only [he, hnot, hne, hd, if_false, decide_True, Bool.not_false, Bool.and_self, if_true]
    rfl
  · have hnd : ¬ (2 ≤ ((metaGet st "choice".toList).filter isDigit).length) := by omega
    unfold buildReplyOptions
    simp only [he, hnot, hnd, if_false, decide_False, Bool.and_false]
    rfl
  · unfold fallbackOption
    cases hm : firstMatch (matchChoiceLabelAt d) st.text with
    | none => exact ⟨rfl, Or.inl ⟨rfl, rfl⟩⟩
    | some cap => exact ⟨rfl, Or.inr ⟨cap, rfl, rfl⟩⟩

/-- Witness of C25: a choice step whose options are written on one line. -/
theorem C25_choice_fallback_witness :
    buildReplyOptions exampleInlineChoiceStep =
      some [{ label := "1）ある / 2 ない".toList, value := "1".toList },
            { label := "2）ない".toList, value := "2".toList }] :=
  Eq.trans
    ((C25_choice_fallback exampleInlineChoiceStep (by decide) (by decide)).1 (by decide))
    (by decide)

/-! ### Query fragments -/

theorem mem_dedupFirst (l : List Str) (x : Str) : x ∈ dedupFirst l ↔ x ∈ l := by
  induction l with
  | nil => simp [dedupFirst]
  | cons a l ih =>
    simp only [dedupFirst, List.mem_cons, List.mem_filter, bne_iff_ne, ne_eq, ih]
    constructor
    · rintro (h | ⟨h, _⟩)
      · exact Or.inl h
      · exact Or.inr h
    · rintro (h | h)
      · exact Or.inl h
      · by_cases hx : x = a
        · exact Or.inl hx
        · exact Or.inr ⟨h, hx⟩

theorem nodup_dedupFirst (l : List Str) : (dedupFirst l).Nodup := by
  induction l with
  | nil => simp [dedupFirst]
  | cons a l ih =>
    simp only [dedupFirst, List.nodup_cons, List.mem_filter, bne_iff_ne, ne_eq, not_true_eq_false,
      and_false, not_false_eq_true, true_and]
    exact ih.filter _

theorem indexOf_head (a : Str) (l : List Str) : (a :: l).indexOf a = 0 := by
  simp [List.indexOf_cons]

theorem indexOf_tail (a x : Str) (l : List Str) (h : x ≠ a) :
    (a :: l).indexOf x = l.indexOf x + 1 := by
  have : (a == x) = false := by simpa using Ne.symm h
  simp [List.indexOf_cons, this]

theorem dedupFirst_order (l : List Str) :
    (dedupFirst l).Pairwise (fun x y => l.indexOf x < l.indexOf y) := by
  induction l with
  | nil => simp [dedupFirst]
  | cons a l ih =>
    simp only [dedupFirst, List.pairwise_cons]
    refine ⟨fun y hy => ?_, ?_⟩
    · have hya : y ≠ a := by
        have := (List.mem_filter.mp hy).2
        simpa using this
      rw [indexOf_head, indexOf_tail a y l hya]
      exact Nat.succ_pos _
    · have hsub : ((dedupFirst l).filter (fun y => y != a)).Pairwise
          (fun x y => l.indexOf x < l.indexOf y) := ih.sublist (List.filter_sublist _)
      refine hsub.imp_of_mem ?_
      intro x y hx hy hlt
      have hxa : x ≠ a := by simpa using (List.mem_filter.mp hx).2
      have hya : y ≠ a := by simpa using (List.mem_filter.mp hy).2
      rw [indexOf_tail a x l hxa, indexOf_tail a y l hya]
      exact Nat.succ_lt_succ hlt

theorem splitOnSpaces_ne_nil (s : Str) : ∀ w ∈ splitOnSpaces s, w ≠ [] := by
  intro w hw
  unfold splitOnSpaces at hw
  have := (List.mem_filter.mp hw).2
  intro h
  rw [h] at this
  simp at this

/-- C28 fails: a white-space chunk is always kept, whatever its length, so
fragments of length 1 occur. -/
theorem C28_short_fragment_counterexample :
    splitForMatch "歯 が 痛い".toList = ["歯".toList, "が".toList, "痛い".toList] ∧
    ("歯".toList).length = 1 := by
  decide

/-- C28, as amended. For every text, `splitForMatch` returns a sequence in
which every fragment is either a whole white-space chunk of the trimmed text
(which is not empty, but may have length 1) or a particle-separated piece of
length 2 or more; no fragment occurs twice; the fragments are exactly the
pushed ones, in the order of their first occurrence. -/
theorem C28_splitForMatch_fragments (text : Str) :
    (∀ f ∈ splitForMatch text,
      f ≠ [] ∧ (f ∈ splitOnSpaces (trim text) ∨
        (2 ≤ f.length ∧ ∃ chunk ∈ splitOnSpaces (trim text), f ∈ splitAlts particles chunk))) ∧
    (splitForMatch text).Nodup ∧
    (∀ f, f ∈ splitForMatch text ↔ f ∈ splitPushes text) ∧
    (splitForMatch text).Pairwise
      (fun x y => (splitPushes text).indexOf x < (splitPushes text).indexOf y) := by
  refine ⟨fun f hf => ?_, nodup_dedupFirst _, fun f => mem_dedupFirst _ f, dedupFirst_order _⟩
  have hp : f ∈ splitPushes text := (mem_dedupFirst _ f).mp hf
  unfold splitPushes at hp
  obtain ⟨chunk, hchunk, hfc⟩ := List.mem_flatMap.mp hp
  unfold chunkFragments at hfc
  rcases List.mem_cons.mp hfc with h | h
  · subst h
    exact ⟨splitOnSpaces_ne_nil _ f hchunk, Or.inl hchunk⟩
  · obtain ⟨hmem, hlen⟩ := List.mem_filter.mp h
    have h2 : 2 ≤ f.length := by simpa using hlen
    refine ⟨?_, Or.inr ⟨h2, chunk, hchunk, hmem⟩⟩
    intro hnil
    rw [hnil] at h2
    simp at h2

/-- Witness of C28: a text whose two chunks are the same. -/
theorem C28_splitForMatch_witness :
    (splitForMatch "歯が痛いです 歯が痛いです".toList).Nodup ∧
    splitForMatch "歯が痛いです 歯が痛いです".toList = ["歯が痛いです".toList, "痛い".toList] :=
  ⟨(C28_splitForMatch_fragments "歯が痛いです 歯が痛いです".toList).2.1, by decide⟩

/-! ### Normalized utterances are trimmed -/

theorem replaceAltsAux_last (pats : List Str) (rep : Str) (r : Char) (rs : Str)
    (hrep : rep = r :: rs) (hlast : ∀ c, rep.getLast? = some c → isJsSpace c = false) :
    ∀ (fuel : Nat) (s : Str), (∀ c, s.getLast? = some c → isJsSpace c = false) →
      ∀ c, (replaceAltsAux pats rep fuel s).getLast? = some c → isJsSpace c = false := by
  intro fuel
  induction fuel with
  | zero => intro s hs c hc; exact hs c hc
  | succ fuel ih =>
    intro s hs c hc
    cases s with
    | nil => simp [replaceAltsAux] at hc
    | cons a as =>
      rw [replaceAltsAux] at hc
      split at hc
      · rename_i p _
        have hdrop : ∀ d, ((a :: as).drop (max p.length 1)).getLast? = some d → isJsSpace d = false := by
          intro d hd
          rw [List.getLast?_drop] at hd
          split at hd
          · simp at hd
          · exact hs d hd
        have hX := ih _ hdrop
        rw [List.getLast?_append] at hc
        cases hx : (replaceAltsAux pats rep fuel ((a :: as).drop (max p.length 1))).getLast? with
        | none =>
          rw [hx] at hc
          exact hlast c (by simpa using hc)
        | some d =>
          rw [hx] at hc
          simp only [Option.or_some, Option.some.injEq] at hc
          rw [← hc]
          exact hX d hx
      · have htail : ∀ d, as.getLast? = some d → isJsSpace d = false := by
          intro d hd
          cases as with
          | nil => simp at hd
          | cons b bs =>
            apply hs d
            rw [List.getLast?_cons_cons]
            exact hd
        have hX := ih as htail
        rw [List.getLast?_cons] at hc
        cases hx : (replaceAltsAux pats rep fuel as).getLast? with
        | none =>
          rw [hx] at hc
          simp only [Option.getD_none, Option.some.injEq] at hc
          have has : as = [] := by
            cases as with
            | nil => rfl
            | cons b bs =>
              obtain ⟨d, ds, hd, _⟩ := replaceAltsAux_head pats rep r rs hrep fuel b bs
              rw [hd] at hx
              have := List.getLast?_eq_getLast (d :: ds) (by simp)
              rw [hx] at this
              simp at this
          subst has
          rw [← hc]
          exact hs a rfl
        | some d =>
          rw [hx] at hc
          simp only [Option.getD_some, Option.some.injEq] at hc
          rw [← hc]
          exact hX d hx

theorem trim_last_not_space (s : Str) : ∀ c, (trim s).getLast? = some c → isJsSpace c = false := by
  intro c hc
  have hne : trim s ≠ [] := by
    intro h
    rw [h] at hc
    simp at hc
  have hlast := List.getLast?_eq_getLast (trim s) hne
  rw [hc] at hlast
  simp only [Option.some.injEq] at hlast
  have hnot : ¬ isJsSpace ((List.rdropWhile isJsSpace (trimStart s)).getLast hne) = true :=
    List.rdropWhile_last_not isJsSpace (trimStart s) hne
  have heq : (List.rdropWhile isJsSpace (trimStart s)).getLast hne = c := hlast.symm
  rw [heq] at hnot
  simpa using hnot

theorem trim_eq_self_of_ends (s : Str) (c : Char) (cs : Str) (hs : s = c :: cs)
    (hhead : isJsSpace c = false) (hlast : ∀ d, s.getLast? = some d → isJsSpace d = false) :
    trim s = s := by
  unfold trim
  rw [hs, trimStart_of_head c cs hhead, trimEnd_eq_rdropWhile, List.rdropWhile_eq_self_iff]
  intro hl
  have h1 := List.getLast?_eq_getLast (c :: cs) hl
  have := hlast _ (by rw [hs]; exact h1)
  simp [this]

/-- The normalized utterance has no white space at either end. -/
theorem normalizeUserInput_trimmed (u : Str) : trim (normalizeUserInput u) = normalizeUserInput u := by
  by_cases hne : normalizeUserInput u = []
  · rw [hne]
    rfl
  · obtain ⟨c, cs, heq, hc⟩ := normalizeUserInput_head u hne
    apply trim_eq_self_of_ends _ c cs heq hc
    unfold normalizeUserInput
    simp only
    split
    · exact trim_last_not_space u
    · unfold replaceAlts
      apply replaceAltsAux_last _ _ 'な' "い".toList rfl (by decide)
      apply replaceAltsAux_last _ _ 'は' "い".toList rfl (by decide)
      apply replaceAltsAux_last _ _ 'い' "いえ".toList rfl (by decide)
      exact trim_last_not_space u

/-! ### Paraphrase folding -/

theorem firstAlt_none_of_absent (pats : List Str) (s : Str)
    (h : ∀ p ∈ pats, includes s p = false) : firstAlt pats s = none := by
  unfold firstAlt
  rw [List.find?_eq_none]
  intro p hp hpre
  have hin := h p hp
  cases s with
  | nil =>
    simp only [includes] at hin
    cases p with
    | nil => simp at hin
    | cons _ _ => simp [List.isPrefixOf] at hpre
  | cons c cs =>
    rw [includes, Bool.or_eq_false_iff] at hin
    rw [hin.1] at hpre
    exact absurd hpre (by simp)

theorem includes_tail (c : Char) (cs p : Str) (h : includes (c :: cs) p = false) :
    includes cs p = false := by
  rw [includes, Bool.or_eq_false_iff] at h
  exact h.2

/-- A text in which no alternative occurs is left unchanged. -/
theorem replaceAltsAux_absent (pats : List Str) (rep : Str) :
    ∀ (s : Str) (fuel : Nat), (∀ p ∈ pats, includes s p = false) →
      replaceAltsAux pats rep fuel s = s := by
  intro s
  induction s with
  | nil => intro fuel _; cases fuel <;> rfl
  | cons c cs ih =>
    intro fuel h
    cases fuel with
    | zero => rfl
    | succ f =>
      rw [replaceAltsAux, firstAlt_none_of_absent pats _ h]
      simp only
      rw [ih f (fun p hp => includes_tail c cs p (h p hp))]

theorem replaceAlts_absent (pats : List Str) (rep s : Str)
    (h : ∀ p ∈ pats, includes s p = false) : replaceAlts pats rep s = s :=
  replaceAltsAux_absent pats rep s _ h

/-- C27 fails: folding `そうですです` gives `はいです`, which a second application folds
again to `はい`. -/
theorem C27_not_idempotent_counterexample :
    normalizeUserInput "そうですです".toList = "はいです".toList ∧
    normalizeUserInput (normalizeUserInput "そうですです".toList) = "はい".toList := by
  decide

/-- C27, as amended. `normalizeUserInput` is idempotent at every utterance
whose normalized form contains none of the eight paraphrases it folds:
`normalizeUserInput(normalizeUserInput(x)) = normalizeUserInput(x)`; in
general a second application can fold a paraphrase that the first one
created. -/
theorem C27_fixed_without_paraphrase (x : Str)
    (hfree : ∀ p ∈ paraphrases, includes (normalizeUserInput x) p = false) :
    normalizeUserInput (normalizeUserInput x) = normalizeUserInput x := by
  have htrim := normalizeUserInput_trimmed x
  generalize normalizeUserInput x = y at htrim hfree
  unfold normalizeUserInput
  simp only [htrim]
  split
  · rfl
  · have h1 : replaceAlts ["違います".toList, "ちがいます".toList, "違うです".toList] "いいえ".toList y = y :=
      replaceAlts_absent _ _ _ (fun p hp => hfree p (by
        simp only [paraphrases, List.mem_cons] at hp ⊢
        rcases hp with h | h | h | h
        · exact Or.inl h
        · exact Or.inr (Or.inl h)
        · exact Or.inr (Or.inr (Or.inl h))
        · simp at h))
    have h2 : replaceAlts ["はいです".toList, "そうです".toList, "そうだよ".toList] "はい".toList y = y :=
      replaceAlts_absent _ _ _ (fun p hp => hfree p (by
        simp only [paraphrases, List.mem_cons] at hp ⊢
        rcases hp with h | h | h | h
        · exact Or.inr (Or.inr (Or.inr (Or.inl h)))
        · exact Or.inr (Or.inr (Or.inr (Or.inr (Or.inl h))))
        · exact Or.inr (Or.inr (Or.inr (Or.inr (Or.inr (Or.inl h)))))
        · simp at h))
    have h3 : replaceAlts ["ありません".toList, "なしです".toList] "ない".toList y = y :=
      replaceAlts_absent _ _ _ (fun p hp => hfree p (by
        simp only [paraphrases, List.mem_cons] at hp ⊢
        rcases hp with h | h | h
        · exact Or.inr (Or.inr (Or.inr (Or.inr (Or.inr (Or.inr (Or.inl h))))))
        · exact Or.inr (Or.inr (Or.inr (Or.inr (Or.inr (Or.inr (Or.inr (Or.inl h)))))))
        · simp at h))
    rw [h1, h2, h3]

/-- Witness of C27: `そうです` folds to `はい`, which is a fixed point. -/
theorem C27_fixed_witness :
    normalizeUserInput (normalizeUserInput " そうです ".toList) = normalizeUserInput " そうです ".toList :=
  C27_fixed_without_paraphrase " そうです ".toList (by decide)

/-! ### The width-folding normalizer -/

theorem foldLower_fixed (c : Char) :
    lowerChar (foldWidthChar (lowerChar c)) = foldWidthChar (lowerChar c) ∧
    foldWidthChar (foldWidthChar (lowerChar c)) = foldWidthChar (lowerChar c) ∧
    isFullWidthAlnum (foldWidthChar (lowerChar c)) = false := by
  by_cases h1 : 0x41 ≤ c.toNat ∧ c.toNat ≤ 0x5A
  · obtain ⟨ha, hb⟩ := h1
    have hc : Char.ofNat c.toNat = c := Char.ofNat_toNat c
    generalize c.toNat = n at ha hb hc
    subst hc
    interval_cases n <;> decide
  · by_cases h2 : 0xFF10 ≤ c.toNat ∧ c.toNat ≤ 0xFF5A
    · obtain ⟨ha, hb⟩ := h2
      have hc : Char.ofNat c.toNat = c := Char.ofNat_toNat c
      generalize c.toNat = n at ha hb hc
      subst hc
      interval_cases n <;> decide
    · have hl : lowerChar c = c := by
        unfold lowerChar
        rw [if_neg]
        intro h
        rcases h with h | h
        · exact h1 h
        · exact h2 ⟨by omega, by omega⟩
      have hf : isFullWidthAlnum c = false := by
        unfold isFullWidthAlnum
        simp only [Bool.or_eq_false_iff, Bool.and_eq_false_iff, decide_eq_false_iff_not, not_le]
        refine ⟨⟨?_, ?_⟩, ?_⟩ <;> omega
      have hw : foldWidthChar c = c := by
        unfold foldWidthChar
        rw [hf]
        rfl
      rw [hl, hw, hl, hw]
      exact ⟨rfl, rfl, hf⟩

theorem collapseSpaces_cons_not_space (c : Char) (cs : Str) (h : isJsSpace c = false) :
    collapseSpaces (c :: cs) = c :: collapseSpaces cs := by
  cases cs with
  | nil => simp [collapseSpaces, h]
  | cons d rest => simp [collapseSpaces, h]

theorem collapseSpaces_space_space (c d : Char) (rest : Str) (hc : isJsSpace c = true)
    (hd : isJsSpace d = true) : collapseSpaces (c :: d :: rest) = collapseSpaces (d :: rest) := by
  simp [collapseSpaces, hc, hd]

theorem collapseSpaces_space_other (c d : Char) (rest : Str) (hc : isJsSpace c = true)
    (hd : isJsSpace d = false) :
    collapseSpaces (c :: d :: rest) = ' ' :: collapseSpaces (d :: rest) := by
  simp [collapseSpaces, hc, hd]

theorem collapseSpaces_space_end (c : Char) (hc : isJsSpace c = true) :
    collapseSpaces [c] = [' '] := by
  simp [collapseSpaces, hc]

theorem collapseSpaces_mem (s : Str) : ∀ x ∈ collapseSpaces s, x = ' ' ∨ x ∈ s := by
  induction s with
  | nil => intro x hx; simp [collapseSpaces] at hx
  | cons c cs ih =>
    intro x hx
    cases hc : isJsSpace c with
    | false =>
      rw [collapseSpaces_cons_not_space c cs hc] at hx
      rcases List.mem_cons.mp hx with h | h
      · exact Or.inr (by rw [h]; exact List.mem_cons_self _ _)
      · rcases ih x h with h' | h'
        · exact Or.inl h'
        · exact Or.inr (List.mem_cons_of_mem _ h')
    | true =>
      cases cs with
      | nil =>
        rw [collapseSpaces_space_end c hc] at hx
        exact Or.inl (List.mem_singleton.mp hx)
      | cons d rest =>
        cases hd : isJsSpace d with
        | true =>
          rw [collapseSpaces_space_space c d rest hc hd] at hx
          rcases ih x hx with h' | h'
          · exact Or.inl h'
          · exact Or.inr (List.mem_cons_of_mem _ h')
        | false =>
          rw [collapseSpaces_space_other c d rest hc hd] at hx
          rcases List.mem_cons.mp hx with h | h
          · exact Or.inl h
          · rcases ih x h with h' | h'
            · exact Or.inl h'
            · exact Or.inr (List.mem_cons_of_mem _ h')

theorem singleSpaced_collapse (s : Str) : SingleSpaced (collapseSpaces s) := by
  induction s with
  | nil => simp [collapseSpaces, SingleSpaced]
  | cons c cs ih =>
    cases hc : isJsSpace c with
    | false =>
      rw [collapseSpaces_cons_not_space c cs hc]
      exact ⟨fun h => by rw [hc] at h; exact absurd h (by simp), ih⟩
    | true =>
      cases cs with
      | nil =>
        rw [collapseSpaces_space_end c hc]
        exact ⟨fun _ => ⟨rfl, fun d hd => by simp at hd⟩, trivial⟩
      | cons d rest =>
        cases hd : isJsSpace d with
        | true =>
          rw [collapseSpaces_space_space c d rest hc hd]
          exact ih
        | false =>
          rw [collapseSpaces_space_other c d rest hc hd]
          refine ⟨fun _ => ⟨rfl, fun e he => ?_⟩, ih⟩
          rw [collapseSpaces_cons_not_space d rest hd] at he
          simp only [List.head?_cons, Option.some.injEq] at he
          rw [← he]
          exact hd

theorem collapse_of_singleSpaced (w : Str) (h : SingleSpaced w) : collapseSpaces w = w := by
  induction w with
  | nil => rfl
  | cons c cs ih =>
    obtain ⟨hc, hrest⟩ := h
    cases hsp : isJsSpace c with
    | false => rw [collapseSpaces_cons_not_space c cs hsp, ih hrest]
    | true =>
      obtain ⟨hceq, hnext⟩ := hc hsp
      cases cs with
      | nil => rw [collapseSpaces_space_end c hsp, hceq]
      | cons d rest =>
        have hd : isJsSpace d = false := hnext d rfl
        rw [collapseSpaces_space_other c d rest hsp hd, ih hrest, hceq]

theorem singleSpaced_final (v w : Str) (h : v <:+ w) (hw : SingleSpaced w) : SingleSpaced v := by
  induction w with
  | nil =>
    have : v = [] := List.suffix_nil.mp h
    rw [this]
    trivial
  | cons c cs ih =>
    rcases List.suffix_cons_iff.mp h with heq | hsuf
    · rw [heq]
      exact hw
    · exact ih hsuf hw.2

theorem singleSpaced_initial : ∀ (v w : Str), v <+: w → SingleSpaced w → SingleSpaced v := by
  intro v
  induction v with
  | nil => intro w _ _; trivial
  | cons c cs ih =>
    intro w h hw
    cases w with
    | nil => simp at h
    | cons d ds =>
      obtain ⟨hcd, hpre⟩ := List.cons_prefix_cons.mp h
      subst hcd
      refine ⟨fun hsp => ?_, ih ds hpre hw.2⟩
      obtain ⟨hceq, hnext⟩ := hw.1 hsp
      refine ⟨hceq, fun e he => hnext e ?_⟩
      cases cs with
      | nil => simp at he
      | cons x xs =>
        cases ds with
        | nil => simp at hpre
        | cons y ys =>
          obtain ⟨hxy, _⟩ := List.cons_prefix_cons.mp hpre
          simp only [List.head?_cons, Option.some.injEq] at he ⊢
          rw [← hxy]
          exact he

theorem singleSpaced_trim (w : Str) (hw : SingleSpaced w) : SingleSpaced (trim w) := by
  unfold trim
  apply singleSpaced_initial _ (trimStart w)
  · rw [trimEnd_eq_rdropWhile]
    exact List.rdropWhile_prefix _ _
  · exact singleSpaced_final _ w (List.dropWhile_suffix _) hw

theorem singleSpaced_adjacent : ∀ (w : Str), SingleSpaced w → ∀ pre a b post,
    w = pre ++ a :: b :: post → isJsSpace a = true → isJsSpace b = false := by
  intro w hw pre
  induction pre generalizing w with
  | nil =>
    intro a b post heq ha
    rw [heq] at hw
    exact (hw.1 ha).2 b rfl
  | cons p pre ih =>
    intro a b post heq ha
    rw [heq] at hw
    exact ih _ hw.2 a b post rfl ha

theorem normText_mem (s : Str) : ∀ x ∈ normText_ s, x = ' ' ∨ ∃ c, x = foldWidthChar (lowerChar c) := by
  intro x hx
  unfold normText_ at hx
  have hx2 : x ∈ collapseSpaces ((toLowerCase s).map foldWidthChar) :=
    (trim_occurs _).subset hx
  rcases collapseSpaces_mem _ x hx2 with h | h
  · exact Or.inl h
  · unfold toLowerCase at h
    simp only [List.map_map, List.mem_map, Function.comp] at h
    obtain ⟨c, _, hc⟩ := h
    exact Or.inr ⟨c, hc.symm⟩

/-- C26. The width-folding normalizer `normText_` is idempotent:
`normText_(normText_(x)) = normText_(x)` for every string `x`; its output
contains no full-width Latin letter or digit, no two adjacent white-space
characters (every white-space character in it is a single half-width space),
and no leading or trailing white space. -/
theorem C26_normText_idempotent (x : Str) :
    normText_ (normText_ x) = normText_ x ∧
    (∀ c ∈ normText_ x, isFullWidthAlnum c = false) ∧
    (∀ pre a b post, normText_ x = pre ++ a :: b :: post → isJsSpace a = true →
      isJsSpace b = false) ∧
    (∀ c ∈ normText_ x, isJsSpace c = true → c = ' ') ∧
    trim (normText_ x) = normText_ x := by
  have hss : SingleSpaced (normText_ x) := singleSpaced_trim _ (singleSpaced_collapse _)
  have hfix : ∀ c ∈ normText_ x, foldWidthChar (lowerChar c) = c ∧ isFullWidthAlnum c = false := by
    intro c hc
    rcases normText_mem x c hc with h | ⟨d, h⟩
    · subst h
      exact ⟨by decide, by decide⟩
    · obtain ⟨h1, h2, h3⟩ := foldLower_fixed d
      subst h
      exact ⟨by rw [h1, h2], h3⟩
  have htrim : trim (normText_ x) = normText_ x := by
    unfold normText_
    exact trim_trim _
  refine ⟨?_, fun c hc => (hfix c hc).2, singleSpaced_adjacent _ hss, ?_, htrim⟩
  · have hmap : (toLowerCase (normText_ x)).map foldWidthChar = normText_ x := by
      unfold toLowerCase
      rw [List.map_map]
      conv_rhs => rw [← List.map_id (normText_ x)]
      apply List.map_congr_left
      intro c hc
      exact (hfix c hc).1
    conv_lhs => rw [normText_, hmap, collapse_of_singleSpaced _ hss, htrim]
  · intro c hc hsp
    obtain ⟨pre, post, hsplit⟩ := List.append_of_mem hc
    have := singleSpaced_final (c :: post) _ ⟨pre, hsplit.symm⟩ hss
    exact (this.1 hsp).1

/-- Witness of C26: a text with full-width letters and digits and mixed
white space. -/
theorem C26_normText_witness :
    normText_ "　ＡＢｃ１  Ｘ\n y ".toList = "abc1 x y".toList ∧
    normText_ (normText_ "　ＡＢｃ１  Ｘ\n y ".toList) = normText_ "　ＡＢｃ１  Ｘ\n y ".toList :=
  ⟨by decide, (C26_normText_idempotent "　ＡＢｃ１  Ｘ\n y ".toList).1⟩

/-- C20. Stemmer. Let the keyword, trimmed as the stemmer trims it, end in one
of the 9 single-character or 10 multi-character endings, with a stem of at
least 2 characters before that ending: `faqStemMatch` is true for every
haystack that contains the stem. And for a haystack that contains neither the
keyword nor any stem obtained by stripping a recognised ending from the
keyword, the keyword test (verbatim or `faqStemMatch`) is false. -/
theorem C20_stemmer (t keyword : Str) :
    (∀ stem e, e ∈ endings1 ++ endings2 → trim keyword = stem ++ e → 2 ≤ stem.length →
        includes t stem = true → faqStemMatch t keyword = true) ∧
    (includes t keyword = false →
      (∀ e ∈ endings1 ++ endings2, ∀ stem, trim keyword = stem ++ e → includes t stem = false) →
        faqHit t keyword = false) := by
  refine ⟨fun stem e he hkw hlen hin => faqStemMatch_of_stem t keyword stem e he hkw hlen hin, ?_⟩
  intro hnot hstems
  unfold faqHit
  rw [hnot, Bool.false_or]
  cases hm : faqStemMatch t keyword with
  | false => rfl
  | true =>
    obtain ⟨e, he, stem, hst, _, hin⟩ := faqStemMatch_stem t keyword hm
    rw [hstems e he stem hst] at hin
    exact absurd hin (by simp)

/-- C20 at the keyword 痛みます: the haystack 歯の痛みが contains the stem 痛み, and
the haystack 予約したい contains neither the keyword nor a stem of it. -/
theorem C20_stemmer_witness :
    faqStemMatch "歯の痛みが".toList "痛みます".toList = true ∧
    faqHit "予約したい".toList "痛みます".toList = false :=
  ⟨(C20_stemmer "歯の痛みが".toList "痛みます".toList).1 "痛み".toList "ます".toList
      (by decide) (by decide) (by decide) (by decide),
   (C20_stemmer "予約したい".toList "痛みます".toList).2 (by decide) (fun e he stem hst => by
      have h := (by decide : ∀ e ∈ endings1 ++ endings2,
        includes "予約したい".toList (dropLast (trim "痛みます".toList) e.length) = false) e he
      rw [hst, dropLast_append] at h
      exact h)⟩

/-! ### FAQ scoring -/

theorem foldl_add_if {α : Type} (p : α → Bool) (f : α → Nat) (l : List α) :
    ∀ init : Nat, l.foldl (fun s w => if p w then s + f w else s) init
      = init + ((l.filter p).map f).sum := by
  induction l with
  | nil => intro init; rfl
  | cons x xs ih =>
    intro init
    rw [List.foldl_cons, ih]
    cases hp : p x with
    | false => simp [List.filter_cons, hp]
    | true => simp [List.filter_cons, hp, Nat.add_assoc]

theorem faqScore_eq (t : Str) (it : FaqItem) :
    faqScore t it = 10 * ((faqKeywords it.k).filter (faqHit t)).length +
      (if 4 ≤ (toLowerCase it.q).length ∧ faqHit t (toLowerCase it.q) = true then 3 else 0) := by
  have hk := foldl_add_if (faqHit t) (fun _ => 10) (faqKeywords it.k) 0
  simp only [List.map_const', List.sum_replicate, smul_eq_mul, Nat.zero_add] at hk
  unfold faqScore
  simp only [hk, Bool.and_eq_true, decide_eq_true_eq]
  split <;> omega

theorem mem_faqCandidates (items : List FaqItem) (t : Str) (c : ScoredFaq) :
    c ∈ faqCandidates items t ↔
      ∃ it ∈ items, it.q ≠ [] ∧ it.a ≠ [] ∧ 0 < faqScore t it ∧
        c = { score := faqScore t it, q := it.q, a := it.a } := by
  unfold faqCandidates
  rw [List.mem_filterMap]
  constructor
  · rintro ⟨it, hit, h⟩
    refine ⟨it, hit, ?_⟩
    split at h
    · exact absurd h (by simp)
    · rename_i hqa
      rw [Bool.or_eq_true, not_or] at hqa
      split at h
      · rename_i hpos
        simp only [Option.some.injEq] at h
        refine ⟨?_, ?_, hpos, h.symm⟩
        · intro hq; exact hqa.1 (by rw [hq]; rfl)
        · intro ha; exact hqa.2 (by rw [ha]; rfl)
      · exact absurd h (by simp)
  · rintro ⟨it, hit, hq, ha, hpos, hc⟩
    refine ⟨it, hit, ?_⟩
    have hq2 : it.q.isEmpty = false := by
      cases hqq : it.q with
      | nil => exact absurd hqq hq
      | cons _ _ => rfl
    have ha2 : it.a.isEmpty = false := by
      cases haa : it.a with
      | nil => exact absurd haa ha
      | cons _ _ => rfl
    rw [hq2, ha2, Bool.or_self, if_neg (by simp), if_pos hpos, hc]

/-- C14. Scoring of `pickRelevantFaq`. For every entry and every query, the
score of the entry against the lower-cased query is 10 times the number of its
keywords (the keyword cell split on commas, each trimmed and lower-cased, the
empty ones dropped) that are a substring of the lower-cased query or satisfy
`faqStemMatch`, plus 3 when the lower-cased question has length at least 4
and is a substring of the lower-cased query or satisfies `faqStemMatch`. An
entry of the catalog with a non-empty question and answer is a candidate
exactly when this score is positive, every candidate is such an entry, and
for a non-empty query the result is the sorted candidates cut to the limit. -/
theorem C14_faq_scoring (items : List FaqItem) (query : Str) (it : FaqItem) :
    faqKeywords it.k =
      ((splitOnChar ',' it.k).map (fun s => toLowerCase (trim s))).filter (fun s => !s.isEmpty) ∧
    faqScore (toLowerCase query) it =
      10 * ((faqKeywords it.k).filter
          (fun kw => includes (toLowerCase query) kw || faqStemMatch (toLowerCase query) kw)).length +
        (if 4 ≤ (toLowerCase it.q).length ∧
            (includes (toLowerCase query) (toLowerCase it.q) ||
              faqStemMatch (toLowerCase query) (toLowerCase it.q)) = true then 3 else 0) ∧
    (it ∈ items → it.q ≠ [] → it.a ≠ [] →
      (({ score := faqScore (toLowerCase query) it, q := it.q, a := it.a } : ScoredFaq) ∈
          faqCandidates items (toLowerCase query) ↔ 0 < faqScore (toLowerCase query) it)) ∧
    (∀ c ∈ faqCandidates items (toLowerCase query), ∃ e ∈ items, e.q ≠ [] ∧ e.a ≠ [] ∧
      0 < faqScore (toLowerCase query) e ∧
      c = { score := faqScore (toLowerCase query) e, q := e.q, a := e.a }) ∧
    (query ≠ [] → ∀ limit, pickRelevantFaq items query limit =
      ((faqCandidates items (toLowerCase query)).insertionSort scoreGe).take limit) := by
  refine ⟨rfl, faqScore_eq _ it, ?_, ?_, ?_⟩
  · intro hit hq ha
    rw [mem_faqCandidates]
    constructor
    · rintro ⟨e, _, _, _, hpos, hc⟩
      have hs : faqScore (toLowerCase query) it = faqScore (toLowerCase query) e :=
        congrArg ScoredFaq.score hc
      rw [hs]
      exact hpos
    · intro hpos
      exact ⟨it, hit, hq, ha, hpos, rfl⟩
  · intro c hc
    exact (mem_faqCandidates _ _ c).mp hc
  · intro hq limit
    unfold pickRelevantFaq
    have hne : (toLowerCase query).isEmpty = false := by
      cases query with
      | nil => exact absurd rfl hq
      | cons _ _ => rfl
    simp only [hne, Bool.false_eq_true, if_false]

/-- C14 at the query 診療時間を教えて: two keywords and the question match,
the score is 23 and the entry is the one candidate. -/
theorem C14_faq_scoring_witness :
    faqScore (toLowerCase "診療時間を教えて".toList) exampleScoredEntry = 23 ∧
    (({ score := faqScore (toLowerCase "診療時間を教えて".toList) exampleScoredEntry,
        q := exampleScoredEntry.q, a := exampleScoredEntry.a } : ScoredFaq) ∈
        faqCandidates [exampleScoredEntry] (toLowerCase "診療時間を教えて".toList) ↔
      0 < faqScore (toLowerCase "診療時間を教えて".toList) exampleScoredEntry) ∧
    pickRelevantFaq [exampleScoredEntry] "診療時間を教えて".toList 5 =
      [{ score := 23, q := "診療時間".toList, a := "9時から18時までです。".toList }] :=
  ⟨by decide,
   (C14_faq_scoring [exampleScoredEntry] "診療時間を教えて".toList exampleScoredEntry).2.2.1
      (List.mem_cons_self _ _) (by decide) (by decide),
   by decide⟩

/-! ### One more keyword -/

theorem splitOnP_append_sep {α : Type} (p : α → Bool) (sep : α) (hsep : p sep = true)
    (kw : List α) (hkw : ∀ x ∈ kw, ¬ p x = true) :
    ∀ k : List α, (k ++ sep :: kw).splitOnP p = k.splitOnP p ++ [kw] := by
  intro k
  induction k with
  | nil =>
    rw [List.nil_append, List.splitOnP_cons, if_pos hsep, List.splitOnP_eq_single p kw hkw,
      List.splitOnP_nil]
    rfl
  | cons x xs ih =>
    rw [List.cons_append, List.splitOnP_cons, List.splitOnP_cons, ih]
    by_cases hx : p x = true
    · rw [if_pos hx, if_pos hx, List.cons_append]
    · rw [if_neg hx, if_neg hx]
      cases hs : List.splitOnP p xs with
      | nil => exact absurd hs (List.splitOnP_ne_nil p xs)
      | cons y ys => rfl

theorem splitOnChar_append (sep : Char) (k kw : Str) (hkw : sep ∉ kw) :
    splitOnChar sep (k ++ sep :: kw) = splitOnChar sep k ++ [kw] := by
  unfold splitOnChar List.splitOn
  apply splitOnP_append_sep
  · exact beq_self_eq_true sep
  · intro x hx hxs
    rw [beq_iff_eq] at hxs
    subst hxs
    exact hkw hx

theorem faqKeywords_append (k kw : Str) (hcomma : ',' ∉ kw) (hne : trim kw ≠ []) :
    faqKeywords (k ++ ',' :: kw) = faqKeywords k ++ [toLowerCase (trim kw)] := by
  unfold faqKeywords
  rw [splitOnChar_append ',' k kw hcomma, List.map_append, List.filter_append]
  congr 1
  have h : (toLowerCase (trim kw)).isEmpty = false := by
    unfold toLowerCase
    cases ht : trim kw with
    | nil => exact absurd ht hne
    | cons _ _ => rfl
  simp only [List.map_cons, List.map_nil, List.filter_cons, h, Bool.not_false, if_true,
    List.filter_nil]

/-- C16. Monotonicity of the FAQ score. Append to the keyword cell of an entry
a comma and one more keyword that contains no comma and is not blank. The
keyword list of the entry gains exactly that keyword (trimmed, lower-cased) at
its end; when it matches the lower-cased query (as a substring or by
`faqStemMatch`) the score of the entry grows by exactly 10, and when it does
not match the score is unchanged. -/
theorem C16_faq_score_monotone (query : Str) (it : FaqItem) (kw : Str)
    (hcomma : ',' ∉ kw) (hne : trim kw ≠ []) :
    faqKeywords (it.k ++ ',' :: kw) = faqKeywords it.k ++ [toLowerCase (trim kw)] ∧
    (faqHit (toLowerCase query) (toLowerCase (trim kw)) = true →
      faqScore (toLowerCase query) { it with k := it.k ++ ',' :: kw } =
        faqScore (toLowerCase query) it + 10) ∧
    (faqHit (toLowerCase query) (toLowerCase (trim kw)) = false →
      faqScore (toLowerCase query) { it with k := it.k ++ ',' :: kw } =
        faqScore (toLowerCase query) it) := by
  have hk := faqKeywords_append it.k kw hcomma hne
  refine ⟨hk, ?_, ?_⟩
  · intro hhit
    rw [faqScore_eq, faqScore_eq]
    simp only [hk, List.filter_append, List.filter_cons, hhit, if_true, List.filter_nil,
      List.length_append, List.length_singleton]
    split <;> omega
  · intro hmiss
    rw [faqScore_eq, faqScore_eq]
    simp only [hk, List.filter_append, List.filter_cons, hmiss, Bool.false_eq_true, if_false,
      List.filter_nil, List.append_nil]

/-- C16 at the entry of 診療時間 and the query 診療時間を教えて: the keyword 教えて
matches and lifts the score from 23 to 33, the keyword 支払い does not match and
leaves it at 23. -/
theorem C16_faq_score_witness :
    faqScore (toLowerCase "診療時間を教えて".toList) exampleScoredEntry = 23 ∧
    faqScore (toLowerCase "診療時間を教えて".toList)
      { exampleScoredEntry with k := exampleScoredEntry.k ++ ',' :: " 教えて".toList } =
        faqScore (toLowerCase "診療時間を教えて".toList) exampleScoredEntry + 10 ∧
    faqScore (toLowerCase "診療時間を教えて".toList)
      { exampleScoredEntry with k := exampleScoredEntry.k ++ ',' :: "支払い".toList } =
        faqScore (toLowerCase "診療時間を教えて".toList) exampleScoredEntry :=
  ⟨by decide,
   (C16_faq_score_monotone "診療時間を教えて".toList exampleScoredEntry " 教えて".toList
      (by decide) (by decide)).2.1 (by decide),
   (C16_faq_score_monotone "診療時間を教えて".toList exampleScoredEntry "支払い".toList
      (by decide) (by decide)).2.2 (by decide)⟩

/-! ### The decision table -/

theorem slotIs_unique (s : Slots) (name v w : Str) (hv : slotIs s name v = true)
    (hw : slotIs s name w = true) : v = w := by
  unfold slotIs at hv hw
  split at hv
  · rename_i x hx
    rw [hx] at hw
    simp only [beq_iff_eq] at hv hw
    rw [← hv, ← hw]
  · exact absurd hv (by simp)

theorem holds_unique (s : Slots) (name v w : String) (hne : v.toList ≠ w.toList) :
    ¬ (Holds s name v ∧ Holds s name w) :=
  fun h => hne (slotIs_unique s name.toList v.toList w.toList h.1 h.2)

theorem decide_sensitive (s : Slots) :
    (decideFlowReply "歯がしみる（冷たい・甘い・風でしみる）".toList s).isSome = true ↔
      Holds s "source" "1" ∨
      (Holds s "source" "2" ∧ (Holds s "tmpcap" "yes" ∨ Holds s "tmpcap" "no")) ∨
      (Holds s "source" "3" ∧ (Holds s "tolerable" "1" ∨ Holds s "tolerable" "2")) := by
  have e23 := holds_unique s "source" "2" "3" (by decide)
  unfold Holds at *
  unfold decideFlowReply
  rw [if_pos (by decide)]
  split_ifs <;> simp_all

theorem decide_denture_pain (s : Slots) :
    (decideFlowReply "入れ歯が痛い".toList s).isSome = true ↔
      Holds s "eating" "yes" ∨ Holds s "eating" "no" := by
  unfold Holds at *
  unfold decideFlowReply
  rw [if_neg (by decide), if_pos (by decide)]
  split_ifs <;> simp_all

theorem decide_denture_broken (s : Slots) :
    (decideFlowReply "入れ歯が割れた".toList s).isSome = true ↔
      Holds s "eat" "yes" ∨ Holds s "eat" "no" := by
  unfold Holds at *
  unfold decideFlowReply
  rw [if_neg (by decide), if_neg (by decide), if_pos (by decide)]
  split_ifs <;> simp_all

theorem decide_loose (s : Slots) :
    (decideFlowReply "歯がグラグラする".toList s).isSome = true ↔
      (Holds s "type" "1" ∧
        (Holds s "pain" "no" ∨
          (Holds s "pain" "yes" ∧ (Holds s "throb" "yes" ∨ Holds s "throb" "no")))) ∨
      (Holds s "type" "2" ∧ (Holds s "pain" "yes" ∨ Holds s "pain" "no")) ∨
      ((Holds s "type" "3" ∨ Holds s "type" "4") ∧
        (Holds s "pain" "yes" ∨ Holds s "pain" "no")) := by
  have e12 := holds_unique s "type" "1" "2" (by decide)
  have e13 := holds_unique s "type" "1" "3" (by decide)
  have e14 := holds_unique s "type" "1" "4" (by decide)
  have e23 := holds_unique s "type" "2" "3" (by decide)
  have e24 := holds_unique s "type" "2" "4" (by decide)
  have ep := holds_unique s "pain" "no" "yes" (by decide)
  unfold Holds at *
  unfold decideFlowReply
  rw [if_neg (by decide), if_neg (by decide), if_neg (by decide), if_pos (by decide)]
  split_ifs <;> simp_all

theorem decide_filling (s : Slots) :
    (decideFlowReply "つめもの（かぶせもの・銀歯など）が取れた".toList s).isSome = true ↔
      (Holds s "treating" "no" ∧
        (Holds s "symptom" "2" ∨
          (Holds s "symptom" "1" ∧ (Holds s "pain" "1" ∨ Holds s "pain" "2")))) ∨
      (Holds s "treating" "yes" ∧
        (Holds s "rct" "yes" ∨
          (Holds s "rct" "no" ∧
            ((Holds s "caries" "yes" ∧ (Holds s "cold" "no" ∨ Holds s "cold" "yes")) ∨
              Holds s "caries" "no")))) := by
  have et := holds_unique s "treating" "no" "yes" (by decide)
  have es := holds_unique s "symptom" "2" "1" (by decide)
  have er := holds_unique s "rct" "yes" "no" (by decide)
  have ec := holds_unique s "caries" "yes" "no" (by decide)
  unfold Holds at *
  unfold decideFlowReply
  rw [if_neg (by decide), if_neg (by decide), if_neg (by decide), if_neg (by decide),
    if_pos (by decide)]
  split_ifs <;> simp_all

theorem decide_other_key (flowKey : Str) (s : Slots) (h : flowKey ∉ decisionTopics) :
    decideFlowReply flowKey s = none := by
  unfold decisionTopics at h
  simp only [List.mem_cons, List.mem_singleton, List.not_mem_nil, or_false, not_or] at h
  obtain ⟨h1, h2, h3, h4, h5⟩ := h
  unfold decideFlowReply
  rw [if_neg (by rw [beq_iff_eq]; exact h1), if_neg (by rw [beq_iff_eq]; exact h2),
    if_neg (by rw [beq_iff_eq]; exact h3), if_neg (by rw [beq_iff_eq]; exact h4),
    if_neg (by rw [beq_iff_eq]; exact h5)]

/-- C13. Completeness of the decision table. For each of the five topic keys
`decideFlowReply` returns a reply exactly when every slot consulted along the
branch taken holds one of the values the branch asks for (`yes` or `no`, or
one of its digits): the branch tree of each topic is the right-hand side of
its equivalence. So it returns null only when some slot on the branch taken
is unset or holds another value; and it returns null for every key that is
not one of the five. -/
theorem C13_decision_table_complete (flowKey : Str) (s : Slots) :
    (flowKey = "歯がしみる（冷たい・甘い・風でしみる）".toList →
      ((decideFlowReply flowKey s).isSome = true ↔
        Holds s "source" "1" ∨
        (Holds s "source" "2" ∧ (Holds s "tmpcap" "yes" ∨ Holds s "tmpcap" "no")) ∨
        (Holds s "source" "3" ∧ (Holds s "tolerable" "1" ∨ Holds s "tolerable" "2")))) ∧
    (flowKey = "入れ歯が痛い".toList →
      ((decideFlowReply flowKey s).isSome = true ↔
        Holds s "eating" "yes" ∨ Holds s "eating" "no")) ∧
    (flowKey = "入れ歯が割れた".toList →
      ((decideFlowReply flowKey s).isSome = true ↔
        Holds s "eat" "yes" ∨ Holds s "eat" "no")) ∧
    (flowKey = "歯がグラグラする".toList →
      ((decideFlowReply flowKey s).isSome = true ↔
        (Holds s "type" "1" ∧
          (Holds s "pain" "no" ∨
            (Holds s "pain" "yes" ∧ (Holds s "throb" "yes" ∨ Holds s "throb" "no")))) ∨
        (Holds s "type" "2" ∧ (Holds s "pain" "yes" ∨ Holds s "pain" "no")) ∨
        ((Holds s "type" "3" ∨ Holds s "type" "4") ∧
          (Holds s "pain" "yes" ∨ Holds s "pain" "no")))) ∧
    (flowKey = "つめもの（かぶせもの・銀歯など）が取れた".toList →
      ((decideFlowReply flowKey s).isSome = true ↔
        (Holds s "treating" "no" ∧
          (Holds s "symptom" "2" ∨
            (Holds s "symptom" "1" ∧ (Holds s "pain" "1" ∨ Holds s "pain" "2")))) ∨
        (Holds s "treating" "yes" ∧
          (Holds s "rct" "yes" ∨
            (Holds s "rct" "no" ∧
              ((Holds s "caries" "yes" ∧ (Holds s "cold" "no" ∨ Holds s "cold" "yes")) ∨
                Holds s "caries" "no")))))) ∧
    (flowKey ∉ decisionTopics → decideFlowReply flowKey s = none) := by
  refine ⟨?_, ?_, ?_, ?_, ?_, decide_other_key flowKey s⟩
  · intro h; subst h; exact decide_sensitive s
  · intro h; subst h; exact decide_denture_pain s
  · intro h; subst h; exact decide_denture_broken s
  · intro h; subst h; exact decide_loose s
  · intro h; subst h; exact decide_filling s

/-- C13 at the loose-tooth topic: with type 1, pain yes and throb no the table
replies; with throb unset it returns null; a key outside the table returns
null. -/
theorem C13_decision_table_witness :
    (decideFlowReply "歯がグラグラする".toList
      [("type".toList, .str "1".toList), ("pain".toList, .str "yes".toList),
       ("throb".toList, .str "no".toList)]).isSome = true ∧
    decideFlowReply "歯がグラグラする".toList
      [("type".toList, .str "1".toList), ("pain".toList, .str "yes".toList)] = none ∧
    decideFlowReply "検診を受けたい".toList [("first".toList, .str "yes".toList)] = none :=
  ⟨((C13_decision_table_complete "歯がグラグラする".toList
      [("type".toList, .str "1".toList), ("pain".toList, .str "yes".toList),
       ("throb".toList, .str "no".toList)]).2.2.2.1 rfl).mpr
      (Or.inl ⟨by decide, Or.inr ⟨by decide, Or.inr (by decide)⟩⟩),
   by decide,
   (C13_decision_table_complete "検診を受けたい".toList
      [("first".toList, .str "yes".toList)]).2.2.2.2.2 (by decide)⟩

/-! ### Templates without steps -/

theorem markerFree_nil (rest : Str) : MarkerFree [] rest := by
  intro u v huv hv
  have h := List.append_eq_nil.mp huv.symm
  exact absurd h.2 hv

theorem template_segments :
    ∀ (n : Nat) (text : Str), text.length ≤ n →
      ∃ pre segs, text = pre ++ renderSegments segs ∧ MarkerFree pre (renderSegments segs) ∧
        SegmentsClean segs := by
  intro n
  induction n with
  | zero =>
    intro text hlen
    have ht : text = [] := List.length_eq_zero.mp (Nat.le_zero.mp hlen)
    exact ⟨[], [], by rw [ht]; rfl, markerFree_nil _, trivial⟩
  | succ n ih =>
    intro text hlen
    cases text with
    | nil => exact ⟨[], [], rfl, markerFree_nil _, trivial⟩
    | cons c t =>
      by_cases hm : MarkerAt (c :: t)
      · obtain ⟨m, rest, hwf, heq⟩ := hm
        have hl := renderMarker_length m
        have hrest : rest.length ≤ n := by
          have h := congrArg List.length heq
          rw [List.length_append] at h
          omega
        obtain ⟨pre, segs, hdec, hfree, hclean⟩ := ih rest hrest
        refine ⟨[], (m, pre) :: segs, ?_, markerFree_nil _, hwf, hfree, hclean⟩
        rw [heq, hdec]
        simp [renderSegments, List.append_assoc]
      · have ht : t.length ≤ n := by
          rw [List.length_cons] at hlen
          omega
        obtain ⟨pre, segs, hdec, hfree, hclean⟩ := ih t ht
        refine ⟨c :: pre, segs, by rw [hdec]; rfl, ?_, hclean⟩
        intro u v huv hv
        cases u with
        | nil =>
          rw [List.nil_append] at huv
          rw [← huv, List.cons_append, ← hdec]
          exact hm
        | cons d u2 =>
          rw [List.cons_append, List.cons.injEq] at huv
          exact hfree u2 v huv.2 hv

theorem parse_of_segments (a pre : Str) (segs : List (Marker × Str))
    (hnorm : normalizeFaqAnswerForReply a = pre ++ renderSegments segs)
    (hpre : MarkerFree pre (renderSegments segs))
    (hclean : SegmentsClean segs) :
    parseFlowSteps a =
      if (segs.filterMap stepOfSegment).isEmpty then none
      else some (segs.filterMap stepOfSegment) := by
  have hms : matchAllMarkers (pre ++ renderSegments segs) = expectedMatches pre.length segs := by
    unfold matchAllMarkers
    rw [scan_free _ pre _ 0 hpre (le_refl _), scan_segments segs _ _ hclean (by simp)]
    simp
  unfold parseFlowSteps
  cases segs with
  | nil =>
    simp only [hnorm, hms]
    rfl
  | cons p rest =>
    have hne : (expectedMatches pre.length (p :: rest)).isEmpty = false := rfl
    simp only [hnorm, hms, hne, Bool.false_eq_true, if_false, steps_of_segments]

theorem stepOfSegment_none (p : Marker × Str) : stepOfSegment p = none ↔ trim p.2 = [] := by
  unfold stepOfSegment
  constructor
  · intro h
    split at h
    · rename_i he
      exact List.isEmpty_iff.mp he
    · exact absurd h (by simp)
  · intro h
    rw [h]
    rfl

/-- C11. Every template, once normalized, reads as some leading text followed
by zero or more markers, each with the text that follows it up to the next
marker. However it is read this way, `parseFlowSteps` returns null exactly
when no marker is followed by text that is non-empty after trimming; in
particular it returns null when the template contains no marker. When it
returns steps the list is not empty, and the text of every step is non-empty
and neither begins nor ends with white space. -/
theorem C11_parse_null (a : Str) :
    (∃ pre segs, normalizeFaqAnswerForReply a = pre ++ renderSegments segs ∧
      MarkerFree pre (renderSegments segs) ∧ SegmentsClean segs) ∧
    (∀ pre segs, normalizeFaqAnswerForReply a = pre ++ renderSegments segs →
      MarkerFree pre (renderSegments segs) → SegmentsClean segs →
      (parseFlowSteps a = none ↔ ∀ p ∈ segs, trim p.2 = [])) ∧
    (MarkerFree (normalizeFaqAnswerForReply a) [] → parseFlowSteps a = none) ∧
    (∀ steps, parseFlowSteps a = some steps →
      steps ≠ [] ∧ ∀ st ∈ steps, st.text ≠ [] ∧
        (∀ c, st.text.head? = some c → isJsSpace c = false) ∧
        (∀ c, st.text.getLast? = some c → isJsSpace c = false)) := by
  have hiff : ∀ pre segs, normalizeFaqAnswerForReply a = pre ++ renderSegments segs →
      MarkerFree pre (renderSegments segs) → SegmentsClean segs →
      (parseFlowSteps a = none ↔ ∀ p ∈ segs, trim p.2 = []) := by
    intro pre segs hnorm hpre hclean
    rw [parse_of_segments a pre segs hnorm hpre hclean]
    constructor
    · intro h p hp
      split at h
      · rename_i he
        exact (stepOfSegment_none p).mp
          (List.filterMap_eq_nil_iff.mp (List.isEmpty_iff.mp he) p hp)
      · exact absurd h (by simp)
    · intro h
      have hnil : segs.filterMap stepOfSegment = [] :=
        List.filterMap_eq_nil_iff.mpr (fun p hp => (stepOfSegment_none p).mpr (h p hp))
      rw [hnil]
      rfl
  refine ⟨template_segments _ _ (le_refl _), hiff, ?_, ?_⟩
  · intro hfree
    exact (hiff (normalizeFaqAnswerForReply a) [] (by simp [renderSegments]) hfree trivial).mpr
      (fun p hp => absurd hp (List.not_mem_nil p))
  · intro steps hsome
    obtain ⟨hne, htexts⟩ := parseFlowSteps_some a steps hsome
    refine ⟨hne, fun st hst => ?_⟩
    obtain ⟨hnonempty, htrim⟩ := htexts st hst
    refine ⟨hnonempty, ?_, ?_⟩
    · intro c hc
      cases htx : st.text with
      | nil => exact absurd htx hnonempty
      | cons d ds =>
        rw [htx, List.head?_cons, Option.some.injEq] at hc
        subst hc
        exact trim_head_not_space st.text d ds (by rw [htrim]; exact htx)
    · intro c hc
      rw [← htrim] at hc
      exact trim_last_not_space st.text c hc

/-- C11 at three templates: one without a marker, one whose only marker is
followed by blanks, and one with a step and a blank final text. -/
theorem C11_parse_null_witness :
    parseFlowSteps "診療時間は9時からです。".toList = none ∧
    parseFlowSteps "ご案内 [[step1 expect=yesno]]   ".toList = none ∧
    parseFlowSteps "[[step1 expect=yesno]] 痛みますか？ [[final]] ".toList =
      some [{ tag := "step1".toList, text := "痛みますか？".toList,
              meta := [("expect".toList, "yesno".toList)] }] :=
  ⟨(C11_parse_null "診療時間は9時からです。".toList).2.2.1
      (markerFree_of_no_bracket _ _ (by decide)),
   by decide, by decide⟩

/-! ### The letter case of a tag -/

theorem segmentsClean_wellFormed :
    ∀ (segs : List (Marker × Str)), SegmentsClean segs → ∀ p ∈ segs, p.1.WellFormed := by
  intro segs
  induction segs with
  | nil => intro _ p hp; exact absurd hp (List.not_mem_nil p)
  | cons q rest ih =>
    intro hclean p hp
    obtain ⟨hwf, _, hrest⟩ := hclean
    rcases List.mem_cons.mp hp with h | h
    · rw [h]; exact hwf
    · exact ih hrest p h

theorem matchTag_lower (r : Str) (h : (matchTag r).isSome = true) :
    "step".toList.isPrefixOf r = true ∨ "final".toList.isPrefixOf r = true := by
  unfold matchTag at h
  split at h
  · rename_i hc
    rw [Bool.and_eq_true] at hc
    exact Or.inl hc.1
  · split at h
    · rename_i hf
      exact Or.inr hf
    · exact absurd h (by simp)

theorem matchMarkerAt_lower (s : Str) (h : (matchMarkerAt s).isSome = true) :
    "[[step".toList.isPrefixOf s = true ∨ "[[final".toList.isPrefixOf s = true := by
  unfold matchMarkerAt at h
  split at h
  · rename_i hpre
    have hs := eq_append_of_isPrefixOf _ _ hpre
    have htag : (matchTag (s.drop 2)).isSome = true := by
      cases hm : matchTag (s.drop 2) with
      | none => rw [hm] at h; exact absurd h (by simp)
      | some t => rfl
    have h2 : "[[".toList.length = 2 := rfl
    rw [h2] at hs
    rcases matchTag_lower _ htag with h1 | h1
    · left
      have hr := eq_append_of_isPrefixOf _ _ h1
      rw [hs, hr]
      exact isPrefixOf_append "[[step".toList _
    · right
      have hr := eq_append_of_isPrefixOf _ _ h1
      rw [hs, hr]
      exact isPrefixOf_append "[[final".toList _
  · exact absurd h (by simp)

/-- C12, as the claim states it, fails: the template with the tags `STEP1` and
`Final` yields no steps at all, while the same template with lower-case tags
yields two steps; and an upper-case `FINAL` after a lower-case step stays in
the text of that step. -/
theorem C12_case_insensitive_counterexample :
    parseFlowSteps "[[STEP1 expect=yesno]]痛みますか？[[Final]]ご予約ください。".toList = none ∧
    parseFlowSteps "[[step1 expect=yesno]]痛みますか？[[final]]ご予約ください。".toList =
      some [{ tag := "step1".toList, text := "痛みますか？".toList,
              meta := [("expect".toList, "yesno".toList)] },
            { tag := "final".toList, text := "ご予約ください。".toList, meta := [] }] ∧
    parseFlowSteps "[[step1 expect=yesno]]痛みますか？[[FINAL]]ご予約ください。".toList =
      some [{ tag := "step1".toList, text := "痛みますか？[[FINAL]]ご予約ください。".toList,
              meta := [("expect".toList, "yesno".toList)] }] := by
  decide

/-- C12, amended. The tag of a step marker is case-sensitive. The marker
expression matches only at text that begins with `[[step` or `[[final` in
exactly this lower-case spelling, so a marker whose tag is written in another
letter case is not a marker; and every step that `parseFlowSteps` returns
carries the tag `final` or `step` followed by decimal digits. -/
theorem C12_tag_case_sensitive (a : Str) :
    (∀ s, (matchMarkerAt s).isSome = true →
      "[[step".toList.isPrefixOf s = true ∨ "[[final".toList.isPrefixOf s = true) ∧
    (∀ steps, parseFlowSteps a = some steps → ∀ st ∈ steps,
      st.tag = "final".toList ∨
        ∃ ds, ds ≠ [] ∧ (∀ c ∈ ds, isDigit c = true) ∧ st.tag = "step".toList ++ ds) := by
  refine ⟨matchMarkerAt_lower, ?_⟩
  intro steps hsome st hst
  obtain ⟨pre, segs, hnorm, hpre, hclean⟩ := template_segments _ (normalizeFaqAnswerForReply a) (le_refl _)
  rw [parse_of_segments a pre segs hnorm hpre hclean] at hsome
  split at hsome
  · exact absurd hsome (by simp)
  · rw [Option.some.injEq] at hsome
    rw [← hsome, List.mem_filterMap] at hst
    obtain ⟨p, hp, hstep⟩ := hst
    have hwf := segmentsClean_wellFormed segs hclean p hp
    have htag : st.tag = p.1.tag := by
      unfold stepOfSegment at hstep
      split at hstep
      · exact absurd hstep (by simp)
      · rw [Option.some.injEq] at hstep
        rw [← hstep]
    rw [htag]
    rcases hwf.1 with h | ⟨ds, hne, hdig, heq, _⟩
    · exact Or.inl h
    · exact Or.inr ⟨ds, hne, hdig, heq⟩

/-- C12 (amended) at a template with lower-case tags: both steps carry a
lower-case tag, and no marker is matched at `[[STEP1 ...`. -/
theorem C12_tag_case_witness :
    matchMarkerAt "[[STEP1 expect=yesno]]痛みますか？".toList = none ∧
    ∀ st ∈ [({ tag := "step1".toList, text := "痛みますか？".toList,
               meta := [("expect".toList, "yesno".toList)] } : FlowStep),
            { tag := "final".toList, text := "ご予約ください。".toList, meta := [] }],
      st.tag = "final".toList ∨
        ∃ ds, ds ≠ [] ∧ (∀ c ∈ ds, isDigit c = true) ∧ st.tag = "step".toList ++ ds :=
  ⟨by decide,
   (C12_tag_case_sensitive "[[step1 expect=yesno]]痛みますか？[[final]]ご予約ください。".toList).2
      _ (by decide)⟩

/-! ### Ranking -/

theorem insertionSort_stable {α : Type} (r : α → α → Prop) [DecidableRel r] (score : α → Nat)
    (hr : ∀ x y, r x y ↔ score y ≤ score x) (l : List α) (k : Nat) :
    (l.insertionSort r).filter (fun c => score c == k) = l.filter (fun c => score c == k) := by
  have hpair : (l.filter (fun c => score c == k)).Pairwise r := by
    apply List.pairwise_of_forall_mem_list
    intro a ha b hb
    have h1 := (List.mem_filter.mp ha).2
    have h2 := (List.mem_filter.mp hb).2
    rw [beq_iff_eq] at h1 h2
    rw [hr, h1, h2]
  have hsub : (l.filter (fun c => score c == k)).Sublist (l.insertionSort r) :=
    List.sublist_insertionSort hpair (List.filter_sublist l)
  have hsub2 := hsub.filter (fun c => score c == k)
  simp only [List.filter_filter, Bool.and_self] at hsub2
  have hperm : ((l.insertionSort r).filter (fun c => score c == k)).Perm
      (l.filter (fun c => score c == k)) := (List.perm_insertionSort r l).filter _
  exact (hsub2.eq_of_length hperm.length_eq.symm).symm

theorem isTopRanked_sort {α : Type} (r : α → α → Prop) [DecidableRel r] (score : α → Nat)
    (hr : ∀ x y, r x y ↔ score y ≤ score x) (l : List α) (limit : Nat) :
    IsTopRanked score l ((l.insertionSort r).take limit) limit := by
  haveI : IsTotal α r := ⟨fun a b => by rw [hr, hr]; exact Nat.le_total _ _⟩
  haveI : IsTrans α r := ⟨fun a b c hab hbc => by
    rw [hr] at hab hbc ⊢; exact Nat.le_trans hbc hab⟩
  refine ⟨l.insertionSort r, rfl, List.perm_insertionSort r l, ?_, insertionSort_stable r score hr l⟩
  exact (List.sorted_insertionSort r l).imp (fun h => (hr _ _).mp h)

theorem filterMap_map_sublist {α β γ : Type} (f : α → Option β) (g : β → γ) (h : α → γ)
    (hfg : ∀ x y, f x = some y → g y = h x) :
    ∀ l : List α, ((l.filterMap f).map g).Sublist (l.map h) := by
  intro l
  induction l with
  | nil => exact List.Sublist.slnil
  | cons x xs ih =>
    cases hx : f x with
    | none =>
      rw [List.filterMap_cons_none hx, List.map_cons]
      exact List.Sublist.cons _ ih
    | some y =>
      rw [List.filterMap_cons_some hx, List.map_cons, List.map_cons, hfg x y hx]
      exact List.Sublist.cons₂ _ ih

/-! ### The candidates of the two retrievers -/

theorem faqHit_empty_query (kw : Str) (hkw : kw ≠ []) : faqHit [] kw = false := by
  unfold faqHit
  have h1 : includes [] kw = false := by
    cases kw with
    | nil => exact absurd rfl hkw
    | cons _ _ => rfl
  rw [h1, Bool.false_or]
  cases hm : faqStemMatch [] kw with
  | false => rfl
  | true =>
    obtain ⟨e, _, stem, _, hlen, hin⟩ := faqStemMatch_stem [] kw hm
    cases stem with
    | nil => simp at hlen
    | cons _ _ => exact absurd hin (by simp [includes])

theorem faqScore_empty_query (it : FaqItem) : faqScore [] it = 0 := by
  rw [faqScore_eq]
  have hk : (faqKeywords it.k).filter (faqHit []) = [] := by
    rw [List.filter_eq_nil_iff]
    intro kw hkw
    unfold faqKeywords at hkw
    have hne := (List.mem_filter.mp hkw).2
    rw [faqHit_empty_query kw (by intro h; rw [h] at hne; simp at hne)]
    simp
  rw [hk]
  have hq : ¬ (4 ≤ (toLowerCase it.q).length ∧ faqHit [] (toLowerCase it.q) = true) := by
    rintro ⟨hlen, hhit⟩
    rw [faqHit_empty_query _ (by intro h; rw [h] at hlen; simp at hlen)] at hhit
    exact absurd hhit (by simp)
  rw [if_neg hq]
  rfl

theorem faqCandidates_empty_query (items : List FaqItem) : faqCandidates items [] = [] := by
  cases h : faqCandidates items [] with
  | nil => rfl
  | cons c cs =>
    have hc : c ∈ faqCandidates items [] := by rw [h]; exact List.mem_cons_self _ _
    obtain ⟨it, _, _, _, hpos, _⟩ := (mem_faqCandidates items [] c).mp hc
    rw [faqScore_empty_query] at hpos
    exact absurd hpos (Nat.lt_irrefl 0)

theorem mem_knowledgeCandidates (nfkc : Str → Str) (items : List KnowledgeItem) (userText : Str)
    (c : ScoredChunk) :
    c ∈ knowledgeCandidates nfkc items userText ↔
      ∃ it ∈ items, trim it.text ≠ [] ∧
        0 < chunkScore nfkc userText (trim it.doc_title) (trim it.text) ∧
        c = { score := chunkScore nfkc userText (trim it.doc_title) (trim it.text)
              doc_title := trim it.doc_title, chunk_id := it.chunk_id, text := trim it.text } := by
  unfold knowledgeCandidates
  rw [List.mem_filterMap]
  constructor
  · rintro ⟨it, hit, h⟩
    refine ⟨it, hit, ?_⟩
    simp only at h
    split at h
    · exact absurd h (by simp)
    · rename_i hne
      split at h
      · rename_i hpos
        rw [Option.some.injEq] at h
        exact ⟨fun ht => hne (by rw [ht]; rfl), hpos, h.symm⟩
      · exact absurd h (by simp)
  · rintro ⟨it, hit, hne, hpos, hc⟩
    refine ⟨it, hit, ?_⟩
    have h2 : (trim it.text).isEmpty = false := by
      cases ht : trim it.text with
      | nil => exact absurd ht hne
      | cons _ _ => rfl
    simp only [h2, Bool.false_eq_true, if_false, if_pos hpos, hc]

/-- C15. Ranking of both retrievers. The candidates of `pickRelevantFaq` are
entries of the catalog and those of `pickRelevantKnowledge` are chunks of the
corpus, in their original order, each with a positive score. The result of
`pickRelevantFaq`, and for a query that is not blank the result of
`pickRelevantKnowledge`, is the first `limit` elements of the ranking of the
candidates: the candidates in descending order of score, candidates of equal
score in their original order. Every returned element has a positive score
and the result has at most `limit` elements. -/
theorem C15_ranking (nfkc : Str → Str) (catalog : List FaqItem) (corpus : List KnowledgeItem)
    (query : Str) (limit : Nat) :
    ((faqCandidates catalog (toLowerCase query)).map (fun c => (c.q, c.a))).Sublist
        (catalog.map (fun it => (it.q, it.a))) ∧
    ((knowledgeCandidates nfkc corpus query).map (fun c => (c.doc_title, c.chunk_id, c.text))).Sublist
        (corpus.map (fun it => (trim it.doc_title, it.chunk_id, trim it.text))) ∧
    IsTopRanked ScoredFaq.score (faqCandidates catalog (toLowerCase query))
      (pickRelevantFaq catalog query limit) limit ∧
    (trim (toLowerCase (nfkc query)) ≠ [] →
      IsTopRanked ScoredChunk.score (knowledgeCandidates nfkc corpus query)
        (pickRelevantKnowledge nfkc corpus query limit) limit) ∧
    (∀ c ∈ pickRelevantFaq catalog query limit, 0 < c.score) ∧
    (∀ c ∈ pickRelevantKnowledge nfkc corpus query limit, 0 < c.score) ∧
    (pickRelevantFaq catalog query limit).length ≤ limit ∧
    (pickRelevantKnowledge nfkc corpus query limit).length ≤ limit := by
  have hfaq : pickRelevantFaq catalog query limit =
      ((faqCandidates catalog (toLowerCase query)).insertionSort scoreGe).take limit := by
    unfold pickRelevantFaq
    simp only
    split
    · rename_i he
      rw [List.isEmpty_iff.mp he, faqCandidates_empty_query, List.insertionSort, List.take_nil]
    · rfl
  have hkn : pickRelevantKnowledge nfkc corpus query limit = [] ∨
      pickRelevantKnowledge nfkc corpus query limit =
        ((knowledgeCandidates nfkc corpus query).insertionSort chunkGe).take limit := by
    unfold pickRelevantKnowledge
    simp only
    split
    · exact Or.inl rfl
    · exact Or.inr rfl
  refine ⟨?_, ?_, ?_, ?_, ?_, ?_, ?_, ?_⟩
  · apply filterMap_map_sublist
    intro it c h
    split at h
    · exact absurd h (by simp)
    · split at h
      · rw [Option.some.injEq] at h
        rw [← h]
      · exact absurd h (by simp)
  · apply filterMap_map_sublist
    intro it c h
    simp only at h
    split at h
    · exact absurd h (by simp)
    · split at h
      · rw [Option.some.injEq] at h
        rw [← h]
      · exact absurd h (by simp)
  · rw [hfaq]
    exact isTopRanked_sort scoreGe ScoredFaq.score (fun _ _ => Iff.rfl) _ limit
  · intro hne
    have h : pickRelevantKnowledge nfkc corpus query limit =
        ((knowledgeCandidates nfkc corpus query).insertionSort chunkGe).take limit := by
      unfold pickRelevantKnowledge
      have he : (trim (toLowerCase (nfkc query))).isEmpty = false := by
        cases ht : trim (toLowerCase (nfkc query)) with
        | nil => exact absurd ht hne
        | cons _ _ => rfl
      simp only [he, Bool.false_eq_true, if_false]
    rw [h]
    exact isTopRanked_sort chunkGe ScoredChunk.score (fun _ _ => Iff.rfl) _ limit
  · intro c hc
    rw [hfaq] at hc
    have hmem := (List.mem_insertionSort scoreGe).mp (List.mem_of_mem_take hc)
    obtain ⟨it, _, _, _, hpos, heq⟩ := (mem_faqCandidates _ _ c).mp hmem
    rw [heq]
    exact hpos
  · intro c hc
    rcases hkn with h | h
    · rw [h] at hc
      exact absurd hc (List.not_mem_nil c)
    · rw [h] at hc
      have hmem := (List.mem_insertionSort chunkGe).mp (List.mem_of_mem_take hc)
      obtain ⟨it, _, _, hpos, heq⟩ := (mem_knowledgeCandidates _ _ _ c).mp hmem
      rw [heq]
      exact hpos
  · rw [hfaq]
    exact List.length_take_le _ _
  · rcases hkn with h | h
    · rw [h]
      exact Nat.zero_le _
    · rw [h]
      exact List.length_take_le _ _

/-- C15 at a catalog and a corpus with ties: the entry and the chunk that come
first in the original order win the tie for the second place. -/
theorem C15_ranking_witness :
    pickRelevantFaq exampleRankCatalog "予約の変更".toList 2 =
      [{ score := 20, q := "予約を変えたい".toList, a := "前日までにご連絡ください。".toList },
       { score := 10, q := "予約したい".toList, a := "お電話ください。".toList }] ∧
    pickRelevantKnowledge nfkcWidth exampleCorpus "入れ歯 調整".toList 2 =
      [{ score := 40, doc_title := "入れ歯".toList, chunk_id := "c3".toList
         text := "入れ歯調整は予約制です".toList },
       { score := 25, doc_title := "入れ歯".toList, chunk_id := "c1".toList
         text := "入れ歯の洗い方".toList }] ∧
    IsTopRanked ScoredChunk.score (knowledgeCandidates nfkcWidth exampleCorpus "入れ歯 調整".toList)
      (pickRelevantKnowledge nfkcWidth exampleCorpus "入れ歯 調整".toList 2) 2 :=
  ⟨by decide, by decide,
   (C15_ranking nfkcWidth exampleRankCatalog exampleCorpus "入れ歯 調整".toList 2).2.2.2.1
      (by decide)⟩

/-! ### The knowledge score -/

theorem foldl_strip_add (p : Str → Bool) (f : Str → Nat) (l : List Str) (init : Nat) :
    l.foldl (fun s w => if p (stripSymbols w) then s + f (stripSymbols w) else s) init
      = init + (((l.map stripSymbols).filter p).map f).sum := by
  rw [foldl_add_if (fun w => p (stripSymbols w)) (fun w => f (stripSymbols w)) l init]
  congr 1
  induction l with
  | nil => rfl
  | cons x xs ih =>
    rw [List.map_cons, List.filter_cons, List.filter_cons]
    cases hp : p (stripSymbols x) with
    | false => simpa using ih
    | true => simpa using ih

theorem length_guard (w : Str) (n : Nat) (hn : 0 < n) :
    (w.isEmpty || decide (w.length < n)) = !decide (n ≤ w.length) := by
  cases w with
  | nil => simp [hn]; omega
  | cons c cs =>
    simp only [List.isEmpty_cons, Bool.false_or]
    by_cases h : (c :: cs).length < n
    · rw [decide_eq_true h]
      simp only [Bool.true_eq, Bool.not_eq_true', decide_eq_false_iff_not]
      omega
    · rw [decide_eq_false h]
      simp only [Bool.false_eq, Bool.not_eq_false', decide_eq_true_eq]
      omega

theorem chunkScore_eq (nfkc : Str → Str) (query title text : Str) :
    chunkScore nfkc query title text =
      (if includes (hayNormOf nfkc title text) (queryNorm nfkc query) then 30 else 0) +
        fragmentPoints (hayNormOf nfkc title text) (strippedFragments nfkc query) +
        (if (if includes (hayNormOf nfkc title text) (queryNorm nfkc query) then 30 else 0) +
              fragmentPoints (hayNormOf nfkc title text) (strippedFragments nfkc query) < 12 ∧
            4 ≤ (queryNorm nfkc query).length then
          bigramPoints (hayNormOf nfkc title text) (strippedFragments nfkc query)
        else 0) := by
  have h1 : ∀ init : Nat, (roughFragments nfkc query).foldl (fun score w =>
      let wNorm := stripSymbols w
      if wNorm.isEmpty || decide (wNorm.length < 2) then score
      else if includes (hayNormOf nfkc title text) wNorm then score + min 12 (4 + wNorm.length / 2)
      else score) init =
      init + fragmentPoints (hayNormOf nfkc title text) (strippedFragments nfkc query) := by
    intro init
    unfold fragmentPoints strippedFragments
    rw [← foldl_strip_add]
    congr 1
    funext score w
    simp only [length_guard _ 2 (by decide)]
    by_cases hl : 2 ≤ (stripSymbols w).length
    · simp [hl]
    · simp [hl]
  have h2 : ∀ init : Nat, (roughFragments nfkc query).foldl (fun score w =>
      if (stripSymbols w).isEmpty || decide ((stripSymbols w).length < 3) then score
      else if (bigramOverlap (stripSymbols w) (hayNormOf nfkc title text)).geHalf then
        score + (bigramOverlap (stripSymbols w) (hayNormOf nfkc title text)).round20
      else score) init =
      init + bigramPoints (hayNormOf nfkc title text) (strippedFragments nfkc query) := by
    intro init
    unfold bigramPoints strippedFragments
    rw [← foldl_strip_add]
    congr 1
    funext score w
    simp only [length_guard _ 3 (by decide)]
    by_cases hl : 3 ≤ (stripSymbols w).length
    · simp [hl]
    · simp [hl]
  unfold chunkScore
  simp only [h1]
  simp only [h2, Bool.and_eq_true, decide_eq_true_eq]
  split_ifs <;> omega

/-! ### The bigram overlap as a fraction -/

theorem dedupFirst_length_pos (x : Str) (xs : List Str) : 0 < (dedupFirst (x :: xs)).length := by
  rw [dedupFirst, List.length_cons]
  exact Nat.succ_pos _

theorem bigramOverlap_size_pos (needle haystack : Str) : 0 < (bigramOverlap needle haystack).size := by
  unfold bigramOverlap
  split
  · exact Nat.one_pos
  · rename_i h
    rw [Bool.or_eq_true, not_or, decide_eq_true_eq, not_lt] at h
    match needle, h.1 with
    | a :: b :: rest, _ =>
      simp only [bigrams]
      exact dedupFirst_length_pos _ _

theorem geHalf_iff (needle haystack : Str) :
    (bigramOverlap needle haystack).geHalf = true ↔ (1 / 2 : ℚ) ≤ overlapFraction needle haystack := by
  have hs := bigramOverlap_size_pos needle haystack
  have hq : (0 : ℚ) < ((bigramOverlap needle haystack).size : ℚ) := by exact_mod_cast hs
  unfold Overlap.geHalf overlapFraction
  rw [decide_eq_true_eq, le_div_iff₀ hq]
  constructor
  · intro h
    have h2 : ((bigramOverlap needle haystack).size : ℚ) ≤ 2 * (bigramOverlap needle haystack).hit := by
      exact_mod_cast h
    linarith
  · intro h
    have h2 : ((bigramOverlap needle haystack).size : ℚ) ≤ 2 * (bigramOverlap needle haystack).hit := by
      linarith
    exact_mod_cast h2

theorem round20_eq (needle haystack : Str) :
    ((bigramOverlap needle haystack).round20 : ℤ) = round (20 * overlapFraction needle haystack) := by
  have hs := bigramOverlap_size_pos needle haystack
  have hq : ((bigramOverlap needle haystack).size : ℚ) ≠ 0 := by
    have : (0 : ℚ) < ((bigramOverlap needle haystack).size : ℚ) := by exact_mod_cast hs
    exact ne_of_gt this
  unfold Overlap.round20 overlapFraction
  rw [round_eq]
  have hx : 20 * (((bigramOverlap needle haystack).hit : ℚ) / ((bigramOverlap needle haystack).size : ℚ))
      + 1 / 2 =
      ((40 * (bigramOverlap needle haystack).hit + (bigramOverlap needle haystack).size : ℕ) : ℚ) /
        ((2 * (bigramOverlap needle haystack).size : ℕ) : ℚ) := by
    push_cast
    field_simp
    ring
  rw [hx, Rat.floor_natCast_div_natCast]
  exact Int.natCast_div _ _

/-! ### Claims on the knowledge retriever -/

/-- C19. Score formula of `pickRelevantKnowledge`. For every query and every
chunk (trimmed title and text), the score is 30 if `hayNorm` contains `norm`,
plus `min(12, 4 + floor(|w| / 2))` for each of the first 10 fragments of
`splitForMatch` of the canonicalized, lower-cased query whose stripped form
`w` has length at least 2 and occurs in `hayNorm`, plus, only when that
running total is below 12 and `norm` has length at least 4, the rounded
`20 * f` for each of those fragments with `|w| ≥ 3` whose bigram overlap `f`
with `hayNorm` is at least one half. The test on `f` and the rounding are
those of the rational number `f`. Every candidate of a corpus carries this
score of its chunk. -/
theorem C19_knowledge_score (nfkc : Str → Str) (corpus : List KnowledgeItem)
    (query title text : Str) :
    strippedFragments nfkc query =
      ((splitForMatch (toLowerCase (nfkc query))).take 10).map stripSymbols ∧
    chunkScore nfkc query title text =
      (if includes (hayNormOf nfkc title text) (queryNorm nfkc query) then 30 else 0) +
        fragmentPoints (hayNormOf nfkc title text) (strippedFragments nfkc query) +
        (if (if includes (hayNormOf nfkc title text) (queryNorm nfkc query) then 30 else 0) +
              fragmentPoints (hayNormOf nfkc title text) (strippedFragments nfkc query) < 12 ∧
            4 ≤ (queryNorm nfkc query).length then
          bigramPoints (hayNormOf nfkc title text) (strippedFragments nfkc query)
        else 0) ∧
    (∀ w hay, ((bigramOverlap w hay).geHalf = true ↔ (1 / 2 : ℚ) ≤ overlapFraction w hay) ∧
      ((bigramOverlap w hay).round20 : ℤ) = round (20 * overlapFraction w hay)) ∧
    (∀ c ∈ knowledgeCandidates nfkc corpus query, ∃ it ∈ corpus, trim it.text ≠ [] ∧
      c.doc_title = trim it.doc_title ∧ c.chunk_id = it.chunk_id ∧ c.text = trim it.text ∧
      c.score = chunkScore nfkc query (trim it.doc_title) (trim it.text)) := by
  refine ⟨rfl, chunkScore_eq nfkc query title text, fun w hay => ⟨geHalf_iff w hay, round20_eq w hay⟩, ?_⟩
  intro c hc
  obtain ⟨it, hit, hne, _, heq⟩ := (mem_knowledgeCandidates nfkc corpus query c).mp hc
  refine ⟨it, hit, hne, ?_, ?_, ?_, ?_⟩ <;> rw [heq]

/-- C19 at the query 入れ歯 調整: the chunk 入れ歯調整は予約制です scores 30 + 5 + 5, and
the chunk 入れ歯の洗い方 scores 0 + 5 and then 20 in the bigram pass. -/
theorem C19_knowledge_score_witness :
    chunkScore nfkcWidth "入れ歯 調整".toList "入れ歯".toList "入れ歯調整は予約制です".toList = 40 ∧
    chunkScore nfkcWidth "入れ歯 調整".toList "入れ歯".toList "入れ歯の洗い方".toList = 25 ∧
    fragmentPoints (hayNormOf nfkcWidth "入れ歯".toList "入れ歯の洗い方".toList)
      (strippedFragments nfkcWidth "入れ歯 調整".toList) = 5 ∧
    bigramPoints (hayNormOf nfkcWidth "入れ歯".toList "入れ歯の洗い方".toList)
      (strippedFragments nfkcWidth "入れ歯 調整".toList) = 20 ∧
    chunkScore nfkcWidth "入れ歯 調整".toList "入れ歯".toList "入れ歯の洗い方".toList =
      (if includes (hayNormOf nfkcWidth "入れ歯".toList "入れ歯の洗い方".toList)
          (queryNorm nfkcWidth "入れ歯 調整".toList) then 30 else 0) +
        fragmentPoints (hayNormOf nfkcWidth "入れ歯".toList "入れ歯の洗い方".toList)
          (strippedFragments nfkcWidth "入れ歯 調整".toList) +
        (if (if includes (hayNormOf nfkcWidth "入れ歯".toList "入れ歯の洗い方".toList)
                (queryNorm nfkcWidth "入れ歯 調整".toList) then 30 else 0) +
              fragmentPoints (hayNormOf nfkcWidth "入れ歯".toList "入れ歯の洗い方".toList)
                (strippedFragments nfkcWidth "入れ歯 調整".toList) < 12 ∧
            4 ≤ (queryNorm nfkcWidth "入れ歯 調整".toList).length then
          bigramPoints (hayNormOf nfkcWidth "入れ歯".toList "入れ歯の洗い方".toList)
            (strippedFragments nfkcWidth "入れ歯 調整".toList)
        else 0) :=
  ⟨by decide, by decide, by decide, by decide,
   (C19_knowledge_score nfkcWidth exampleCorpus "入れ歯 調整".toList "入れ歯".toList
      "入れ歯の洗い方".toList).2.1⟩

/-- C18, as the claim states it, fails: for the one-character query 歯 no
fragment has a stripped length of 2 or more, so the chunk 歯が痛い contains none
of them and no bigram overlap is computed, yet the chunk contains the
normalized query, scores 30 and is returned. -/
theorem C18_one_character_query_counterexample :
    (∀ w ∈ strippedFragments nfkcWidth "歯".toList,
      ¬ (2 ≤ w.length ∧ includes (hayNormOf nfkcWidth [] "歯が痛い".toList) w = true)) ∧
    (∀ w ∈ strippedFragments nfkcWidth "歯".toList,
      ¬ (3 ≤ w.length ∧ (bigramOverlap w (hayNormOf nfkcWidth [] "歯が痛い".toList)).geHalf = true)) ∧
    chunkScore nfkcWidth "歯".toList [] "歯が痛い".toList = 30 ∧
    pickRelevantKnowledge nfkcWidth
        [{ doc_title := [], chunk_id := "c1".toList, text := "歯が痛い".toList }] "歯".toList 3 =
      [{ score := 30, doc_title := [], chunk_id := "c1".toList, text := "歯が痛い".toList }] := by
  decide

theorem sum_map_filter_nil {α : Type} (p : α → Bool) (f : α → Nat) (l : List α)
    (h : ∀ x ∈ l, p x = false) : ((l.filter p).map f).sum = 0 := by
  have hnil : l.filter p = [] := by
    rw [List.filter_eq_nil_iff]
    intro x hx
    rw [h x hx]
    simp
  rw [hnil]
  rfl

/-- C18, amended. Let the normalized text of a chunk not contain the
normalized query itself, contain none of the (first 10) fragments of the
query whose stripped form has length at least 2, and let no fragment of
stripped length at least 3 have a bigram overlap of one half or more with it:
the chunk scores 0 and no element of the result is this chunk. And a chunk
whose normalized text contains the normalized query scores at least 30. -/
theorem C18_knowledge_exclusion (nfkc : Str → Str) (corpus : List KnowledgeItem)
    (query title text : Str) (limit : Nat) :
    (includes (hayNormOf nfkc title text) (queryNorm nfkc query) = false →
      (∀ w ∈ strippedFragments nfkc query, 2 ≤ w.length →
        includes (hayNormOf nfkc title text) w = false) →
      (∀ w ∈ strippedFragments nfkc query, 3 ≤ w.length →
        ¬ ((1 / 2 : ℚ) ≤ overlapFraction w (hayNormOf nfkc title text))) →
      chunkScore nfkc query title text = 0 ∧
        ∀ c ∈ pickRelevantKnowledge nfkc corpus query limit,
          ¬ (c.doc_title = title ∧ c.text = text)) ∧
    (includes (hayNormOf nfkc title text) (queryNorm nfkc query) = true →
      30 ≤ chunkScore nfkc query title text) := by
  constructor
  · intro hnorm hfrag hbg
    have hf : fragmentPoints (hayNormOf nfkc title text) (strippedFragments nfkc query) = 0 := by
      unfold fragmentPoints
      apply sum_map_filter_nil
      intro w hw
      by_cases hl : 2 ≤ w.length
      · rw [hfrag w hw hl, Bool.and_false]
      · rw [decide_eq_false hl, Bool.false_and]
    have hb : bigramPoints (hayNormOf nfkc title text) (strippedFragments nfkc query) = 0 := by
      unfold bigramPoints
      apply sum_map_filter_nil
      intro w hw
      by_cases hl : 3 ≤ w.length
      · have hge : (bigramOverlap w (hayNormOf nfkc title text)).geHalf = false := by
          cases hg : (bigramOverlap w (hayNormOf nfkc title text)).geHalf with
          | false => rfl
          | true => exact absurd ((geHalf_iff _ _).mp hg) (hbg w hw hl)
        rw [hge, Bool.and_false]
      · rw [decide_eq_false hl, Bool.false_and]
    have hzero : chunkScore nfkc query title text = 0 := by
      rw [chunkScore_eq, hnorm, hf, hb]
      simp
    refine ⟨hzero, ?_⟩
    intro c hc hsame
    have hmem : c ∈ knowledgeCandidates nfkc corpus query := by
      unfold pickRelevantKnowledge at hc
      simp only at hc
      split at hc
      · exact absurd hc (List.not_mem_nil c)
      · exact (List.mem_insertionSort chunkGe).mp (List.mem_of_mem_take hc)
    obtain ⟨it, _, _, hpos, heq⟩ := (mem_knowledgeCandidates nfkc corpus query c).mp hmem
    have h1 : trim it.doc_title = title := by rw [← hsame.1, heq]
    have h2 : trim it.text = text := by rw [← hsame.2, heq]
    rw [h1, h2, hzero] at hpos
    exact absurd hpos (Nat.lt_irrefl 0)
  · intro hnorm
    rw [chunkScore_eq, hnorm]
    simp only [if_true]
    omega

/-- C18 (amended) at the query 入れ歯 調整: the chunk 診療時間のご案内 shares nothing
with the query, scores 0 and is not in the result; the chunk 入れ歯調整は予約制です
contains the normalized query and scores at least 30. -/
theorem C18_knowledge_exclusion_witness :
    (chunkScore nfkcWidth "入れ歯 調整".toList "案内".toList "診療時間のご案内".toList = 0 ∧
      ∀ c ∈ pickRelevantKnowledge nfkcWidth exampleCorpus "入れ歯 調整".toList 3,
        ¬ (c.doc_title = "案内".toList ∧ c.text = "診療時間のご案内".toList)) ∧
    30 ≤ chunkScore nfkcWidth "入れ歯 調整".toList "入れ歯".toList "入れ歯調整は予約制です".toList :=
  ⟨(C18_knowledge_exclusion nfkcWidth exampleCorpus "入れ歯 調整".toList "案内".toList
      "診療時間のご案内".toList 3).1 (by decide) (by decide)
      (fun w hw hl hge =>
        absurd ((geHalf_iff w _).mpr hge)
          ((by decide : ∀ w ∈ strippedFragments nfkcWidth "入れ歯 調整".toList, 3 ≤ w.length →
            ¬ (bigramOverlap w (hayNormOf nfkcWidth "案内".toList "診療時間のご案内".toList)).geHalf
              = true) w hw hl)),
   (C18_knowledge_exclusion nfkcWidth exampleCorpus "入れ歯 調整".toList "入れ歯".toList
      "入れ歯調整は予約制です".toList 3).2 (by decide)⟩

theorem includes_nil (s : Str) : includes s [] = true :=
  (includes_iff_occurs s []).mpr List.nil_infix

theorem knowledgeCandidates_length (nfkc : Str → Str) (query : Str)
    (hall : ∀ title text, 0 < chunkScore nfkc query title text) :
    ∀ corpus : List KnowledgeItem,
      (knowledgeCandidates nfkc corpus query).length =
        (corpus.filter (fun it => !(trim it.text).isEmpty)).length := by
  intro corpus
  induction corpus with
  | nil => rfl
  | cons it rest ih =>
    unfold knowledgeCandidates at ih ⊢
    simp only [hall, if_true] at ih ⊢
    rw [List.filterMap_cons, List.filter_cons]
    cases he : (trim it.text).isEmpty with
    | true =>
      simp only [if_true, Bool.not_true, Bool.false_eq_true, if_false]
      exact ih
    | false =>
      simp only [Bool.false_eq_true, if_false, Bool.not_false, if_true, List.length_cons]
      rw [ih]

/-- C17 fails in the code. The guard of `pickRelevantKnowledge` tests the
trimmed query, not its normalized form `norm`. For every query that is not
blank but whose `norm` is empty, every chunk contains `norm` and scores at
least 30, so the result is not empty: it has as many elements as the corpus
has chunks with text, up to `limit`. -/
theorem C17_empty_norm_returns_chunks (nfkc : Str → Str) (corpus : List KnowledgeItem)
    (query : Str) (limit : Nat)
    (ht : trim (toLowerCase (nfkc query)) ≠ []) (hnorm : queryNorm nfkc query = []) :
    (∀ title text, 30 ≤ chunkScore nfkc query title text) ∧
    (pickRelevantKnowledge nfkc corpus query limit).length =
      min limit (corpus.filter (fun it => !(trim it.text).isEmpty)).length := by
  have hscore : ∀ title text, 30 ≤ chunkScore nfkc query title text := by
    intro title text
    rw [chunkScore_eq, hnorm, includes_nil]
    simp only [if_true]
    omega
  refine ⟨hscore, ?_⟩
  unfold pickRelevantKnowledge
  have he : (trim (toLowerCase (nfkc query))).isEmpty = false := by
    cases h : trim (toLowerCase (nfkc query)) with
    | nil => exact absurd h ht
    | cons _ _ => rfl
  simp only [he, Bool.false_eq_true, if_false]
  rw [List.length_take, List.length_insertionSort,
    knowledgeCandidates_length nfkc query (fun title text => by have := hscore title text; omega)]

/-- C17 at the queries ？ and 。。: both are not blank, their `norm` is empty,
and the first three chunks of the corpus are returned with score 30. -/
theorem C17_symbol_only_query_witness :
    queryNorm nfkcWidth "？".toList = [] ∧ queryNorm nfkcWidth "。。".toList = [] ∧
    pickRelevantKnowledge nfkcWidth exampleCorpus "？".toList 3 =
      [{ score := 30, doc_title := "入れ歯".toList, chunk_id := "c1".toList
         text := "入れ歯の洗い方".toList },
       { score := 30, doc_title := "案内".toList, chunk_id := "c2".toList
         text := "診療時間のご案内".toList },
       { score := 30, doc_title := "入れ歯".toList, chunk_id := "c3".toList
         text := "入れ歯調整は予約制です".toList }] ∧
    pickRelevantKnowledge nfkcWidth exampleCorpus "。。".toList 3 =
      pickRelevantKnowledge nfkcWidth exampleCorpus "？".toList 3 ∧
    (pickRelevantKnowledge nfkcWidth exampleCorpus "？".toList 3).length =
      min 3 (exampleCorpus.filter (fun it => !(trim it.text).isEmpty)).length :=
  ⟨by decide, by decide, by decide, by decide,
   (C17_empty_norm_returns_chunks nfkcWidth exampleCorpus "？".toList 3
      (by decide) (by decide)).2⟩

/-! ### The bigram overlap -/

theorem bigrams_occur : ∀ (needle : Str), ∀ bg ∈ bigrams needle, bg <:+: needle := by
  intro needle
  induction needle with
  | nil => intro bg h; simp [bigrams] at h
  | cons a rest ih =>
    cases rest with
    | nil => intro bg h; simp [bigrams] at h
    | cons b more =>
      intro bg h
      rw [bigrams, List.mem_cons] at h
      rcases h with h | h
      · rw [h]
        exact ⟨[], more, rfl⟩
      · exact List.IsInfix.trans (ih bg h) (List.suffix_cons a (b :: more)).isInfix

theorem bigrams_length : ∀ (needle : Str), (bigrams needle).length = needle.length - 1 := by
  intro needle
  induction needle with
  | nil => rfl
  | cons a rest ih =>
    cases rest with
    | nil => rfl
    | cons b more =>
      rw [bigrams, List.length_cons, ih]
      simp

theorem dedupFirst_of_nodup : ∀ (l : List Str), l.Nodup → dedupFirst l = l := by
  intro l
  induction l with
  | nil => intro _; rfl
  | cons x xs ih =>
    intro h
    obtain ⟨hx, hxs⟩ := List.nodup_cons.mp h
    rw [dedupFirst, ih hxs]
    congr 1
    rw [List.filter_eq_self]
    intro y hy
    simp only [bne_iff_ne, ne_eq]
    intro hyx
    exact hx (hyx ▸ hy)

theorem bigramOverlap_long (needle haystack : Str) (hn : 2 ≤ needle.length)
    (hh : 2 ≤ haystack.length) :
    bigramOverlap needle haystack =
      ⟨((dedupFirst (bigrams needle)).filter (fun bg => includes haystack bg)).length,
       (dedupFirst (bigrams needle)).length⟩ := by
  unfold bigramOverlap
  have h : ¬ ((decide (needle.length < 2) || decide (haystack.length < 2)) = true) := by
    rw [Bool.or_eq_true, decide_eq_true_eq, decide_eq_true_eq]
    omega
  rw [if_neg h]

theorem bigramOverlap_short (needle haystack : Str)
    (h : needle.length < 2 ∨ haystack.length < 2) : bigramOverlap needle haystack = ⟨0, 1⟩ := by
  unfold bigramOverlap
  have hc : (decide (needle.length < 2) || decide (haystack.length < 2)) = true := by
    rw [Bool.or_eq_true, decide_eq_true_eq, decide_eq_true_eq]
    exact h
  rw [if_pos hc]

theorem bigramOverlap_hit_le (needle haystack : Str) :
    (bigramOverlap needle haystack).hit ≤ (bigramOverlap needle haystack).size := by
  unfold bigramOverlap
  split
  · exact Nat.zero_le _
  · exact List.length_filter_le _ _

/-- C31, as the claim states it, fails: the needle いたいた has three
sliding-window positions but two distinct bigrams; against the haystack
たいへん one bigram is found, so the code returns 1/2, which passes the test
`>= 0.5`, while the fraction over all positions is 1/3. -/
theorem C31_position_count_counterexample :
    bigramOverlap "いたいた".toList "たいへん".toList = ⟨1, 2⟩ ∧
    positionOverlap "いたいた".toList "たいへん".toList = ⟨1, 3⟩ ∧
    (bigramOverlap "いたいた".toList "たいへん".toList).geHalf = true ∧
    (positionOverlap "いたいた".toList "たいへん".toList).geHalf = false := by
  decide

/-- C31, amended. `bigramOverlap(needle, haystack)` is the fraction, counted
over the distinct 2-character substrings of the needle, of those that occur
somewhere in the haystack. It is a rational number between 0 and 1, equals 1
whenever the needle (of length at least 2) is a substring of the haystack,
and is 0 when either argument is shorter than 2. When no 2-character
substring occurs twice in the needle, it is the fraction counted over all
`|needle| - 1` positions. -/
theorem C31_bigram_overlap (needle haystack : Str) :
    (2 ≤ needle.length → 2 ≤ haystack.length →
      bigramOverlap needle haystack =
        ⟨((dedupFirst (bigrams needle)).filter (fun bg => includes haystack bg)).length,
         (dedupFirst (bigrams needle)).length⟩ ∧
      (dedupFirst (bigrams needle)).Nodup ∧
      (∀ bg, bg ∈ dedupFirst (bigrams needle) ↔ bg ∈ bigrams needle)) ∧
    (0 ≤ overlapFraction needle haystack ∧ overlapFraction needle haystack ≤ 1) ∧
    (2 ≤ needle.length → needle <:+: haystack → overlapFraction needle haystack = 1) ∧
    (needle.length < 2 ∨ haystack.length < 2 → overlapFraction needle haystack = 0) ∧
    (2 ≤ needle.length → 2 ≤ haystack.length → (bigrams needle).Nodup →
      bigramOverlap needle haystack = positionOverlap needle haystack) := by
  have hpos := bigramOverlap_size_pos needle haystack
  have hq : (0 : ℚ) < ((bigramOverlap needle haystack).size : ℚ) := by exact_mod_cast hpos
  refine ⟨?_, ⟨?_, ?_⟩, ?_, ?_, ?_⟩
  · intro hn hh
    exact ⟨bigramOverlap_long needle haystack hn hh, nodup_dedupFirst _, mem_dedupFirst _⟩
  · unfold overlapFraction
    exact div_nonneg (Nat.cast_nonneg _) (le_of_lt hq)
  · unfold overlapFraction
    rw [div_le_one hq]
    exact_mod_cast bigramOverlap_hit_le needle haystack
  · intro hn hsub
    have hh : 2 ≤ haystack.length := le_trans hn hsub.length_le
    have hall : (dedupFirst (bigrams needle)).filter (fun bg => includes haystack bg) =
        dedupFirst (bigrams needle) := by
      rw [List.filter_eq_self]
      intro bg hbg
      exact (includes_iff_occurs haystack bg).mpr
        (List.IsInfix.trans (bigrams_occur needle bg ((mem_dedupFirst _ bg).mp hbg)) hsub)
    have hsize : (bigramOverlap needle haystack).hit = (bigramOverlap needle haystack).size := by
      rw [bigramOverlap_long needle haystack hn hh, hall]
    unfold overlapFraction
    rw [hsize]
    exact div_self (ne_of_gt hq)
  · intro hshort
    unfold overlapFraction
    rw [bigramOverlap_short needle haystack hshort]
    simp
  · intro hn hh hnd
    rw [bigramOverlap_long needle haystack hn hh, dedupFirst_of_nodup _ hnd]
    unfold positionOverlap
    rw [bigrams_length]

/-- C31 (amended) at the needle 入れ歯: it is a substring of the haystack
入れ歯の調整, both its bigrams are found and the overlap is 1; against the
one-character haystack 歯 the overlap is 0. -/
theorem C31_bigram_overlap_witness :
    bigramOverlap "入れ歯".toList "入れ歯の調整".toList = ⟨2, 2⟩ ∧
    overlapFraction "入れ歯".toList "入れ歯の調整".toList = 1 ∧
    overlapFraction "入れ歯".toList "歯".toList = 0 ∧
    bigramOverlap "入れ歯".toList "入れ歯の調整".toList =
      positionOverlap "入れ歯".toList "入れ歯の調整".toList :=
  ⟨by decide,
   (C31_bigram_overlap "入れ歯".toList "入れ歯の調整".toList).2.2.1 (by decide)
      ⟨[], "の調整".toList, by decide⟩,
   (C31_bigram_overlap "入れ歯".toList "歯".toList).2.2.2.1 (Or.inr (by decide)),
   (C31_bigram_overlap "入れ歯".toList "入れ歯の調整".toList).2.2.2.2 (by decide) (by decide)
      (by decide)⟩

/-! ### The generic two-way choice mapping -/

/-- Called directly on ありません, a call the worker never makes,
`normalizeChoiceJa12` finds あり first and returns "1": the entry ありません of its
absence list is shadowed. -/
theorem normalizeChoiceJa12_direct_call :
    normalizeChoiceJa12 "ありません".toList = "1".toList ∧
    normalizeUserInput "ありません".toList = "ない".toList := by
  decide

theorem normalizeChoiceBySchema_generic (t choice flowKey : Str)
    (hkey : flowKey ≠ "歯がグラグラする".toList) (h3 : includes choice "3".toList = false) :
    normalizeChoiceBySchema t choice flowKey = normalizeChoiceJa12 (toLowerCase (trim t)) := by
  unfold normalizeChoiceBySchema
  have hk : (flowKey == "歯がグラグラする".toList) = false := by
    rw [beq_eq_false_iff_ne]
    exact hkey
  simp only [hk, h3, Bool.false_eq_true, if_false]

theorem judgeAnswer_generic (text choice flowKey v : Str)
    (hkey : flowKey ≠ "歯がグラグラする".toList) (h3 : includes (trim choice) "3".toList = false)
    (hne : (trim text).isEmpty = false) (hd : parseChoiceDigit (trim text) = 0)
    (hv : normalizeChoiceJa12 (toLowerCase (trim text)) = v) (hvne : v.isEmpty = false) :
    judgeAnswer text "choice".toList choice flowKey =
      if (trim choice).isEmpty || includes (trim choice) v then { ok := true, value := v }
      else rejected := by
  rw [judgeAnswer_choice text "choice".toList choice flowKey (by decide),
    normalizeChoiceBySchema_generic _ _ _ hkey h3, trim_trim, hv]
  simp only [hne, hd, hvne, Bool.false_eq_true, if_false, bne_self_eq_false, Bool.not_false,
    if_true]
  cases (trim choice).isEmpty <;> cases includes (trim choice) v <;> rfl

/-- C32. The generic two-way choice mapping. Every absence or acceptable
phrase of the list, given alone as the utterance, reaches `normalizeChoiceJa12`
as the text `normalizeUserInput` makes of it (trimmed and lower-cased) and is
mapped to "2"; every presence or pain phrase is mapped to "1". On a `choice`
step of a topic without a mapping of its own (the key is not 歯がグラグラする and
the `choice` attribute has no 3), `judgeAnswer` accepts the utterance with
that value whenever the `choice` attribute is empty or contains the value. -/
theorem C32_generic_choice_mapping (choice flowKey : Str)
    (hkey : flowKey ≠ "歯がグラグラする".toList) (h3 : includes (trim choice) "3".toList = false) :
    (∀ p ∈ absencePhrases,
      normalizeChoiceJa12 (toLowerCase (trim (normalizeUserInput p))) = "2".toList ∧
      normalizeChoiceBySchema (normalizeUserInput p) (trim choice) flowKey = "2".toList ∧
      judgeAnswer (normalizeUserInput p) "choice".toList choice flowKey =
        if (trim choice).isEmpty || includes (trim choice) "2".toList then
          { ok := true, value := "2".toList }
        else rejected) ∧
    (∀ p ∈ presencePhrases,
      normalizeChoiceJa12 (toLowerCase (trim (normalizeUserInput p))) = "1".toList ∧
      normalizeChoiceBySchema (normalizeUserInput p) (trim choice) flowKey = "1".toList ∧
      judgeAnswer (normalizeUserInput p) "choice".toList choice flowKey =
        if (trim choice).isEmpty || includes (trim choice) "1".toList then
          { ok := true, value := "1".toList }
        else rejected) := by
  have ha : ∀ p ∈ absencePhrases, (trim (normalizeUserInput p)).isEmpty = false ∧
      parseChoiceDigit (trim (normalizeUserInput p)) = 0 ∧
      normalizeChoiceJa12 (toLowerCase (trim (normalizeUserInput p))) = "2".toList := by decide
  have hp : ∀ p ∈ presencePhrases, (trim (normalizeUserInput p)).isEmpty = false ∧
      parseChoiceDigit (trim (normalizeUserInput p)) = 0 ∧
      normalizeChoiceJa12 (toLowerCase (trim (normalizeUserInput p))) = "1".toList := by decide
  constructor
  · intro p hmem
    obtain ⟨h1, h2, h4⟩ := ha p hmem
    refine ⟨h4, ?_, judgeAnswer_generic _ choice flowKey _ hkey h3 h1 h2 h4 rfl⟩
    rw [normalizeChoiceBySchema_generic _ _ _ hkey h3, h4]
  · intro p hmem
    obtain ⟨h1, h2, h4⟩ := hp p hmem
    refine ⟨h4, ?_, judgeAnswer_generic _ choice flowKey _ hkey h3 h1 h2 h4 rfl⟩
    rw [normalizeChoiceBySchema_generic _ _ _ hkey h3, h4]

/-- C32 at a two-way `choice` step of the topic 入れ歯が痛い: the utterance
ありません is judged as "2" and the utterance 我慢できない as "1". -/
theorem C32_generic_choice_witness :
    judgeAnswer (normalizeUserInput "ありません".toList) "choice".toList "12".toList
        "入れ歯が痛い".toList = { ok := true, value := "2".toList } ∧
    judgeAnswer (normalizeUserInput "我慢できない".toList) "choice".toList "12".toList
        "入れ歯が痛い".toList = { ok := true, value := "1".toList } :=
  ⟨((C32_generic_choice_mapping "12".toList "入れ歯が痛い".toList (by decide) (by decide)).1
      "ありません".toList (by decide)).2.2,
   ((C32_generic_choice_mapping "12".toList "入れ歯が痛い".toList (by decide) (by decide)).2
      "我慢できない".toList (by decide)).2.2⟩

/-! ### Relative dates -/

theorem firstMatch_some (m : Str → Option Str) :
    ∀ (s : Str) (w : Str), firstMatch m s = some w → ∃ u, m u = some w := by
  intro s
  induction s with
  | nil => intro w h; exact ⟨[], h⟩
  | cons c cs ih =>
    intro w h
    rw [firstMatch] at h
    cases hm : m (c :: cs) with
    | some v =>
      rw [hm] at h
      exact ⟨c :: cs, by rw [hm]; exact h⟩
    | none =>
      rw [hm] at h
      exact ih w h

theorem matchCountAt_head (unit s w : Str) (h : matchCountAt unit s = some w) :
    ∃ d rest, w = d :: rest ∧ isDigit d = true := by
  unfold matchCountAt at h
  simp only at h
  split at h
  · exact absurd h (by simp)
  · rename_i hc
    rw [Bool.or_eq_true, not_or] at hc
    rw [Option.some.injEq] at h
    cases hds : s.takeWhile isDigit with
    | nil => exact absurd (by rw [hds]; rfl) hc.1
    | cons d ds =>
      have hd : isDigit d = true := by
        have hmem : d ∈ s.takeWhile isDigit := by rw [hds]; exact List.mem_cons_self _ _
        exact (List.mem_takeWhile_imp hmem)
      rw [hds] at h
      exact ⟨d, _, by rw [← h]; simp only [List.cons_append]; rfl, hd⟩

theorem removeSpaces_digit_head (d : Char) (rest : Str) (hd : isDigit d = true) :
    removeSpaces (d :: rest) = d :: removeSpaces rest := by
  have hs : isJsSpace d = false := by
    unfold isDigit at hd
    simp only [Bool.and_eq_true, decide_eq_true_eq] at hd
    obtain ⟨h1, h2⟩ := hd
    have hc : Char.ofNat d.toNat = d := Char.ofNat_toNat d
    generalize d.toNat = n at h1 h2 hc
    subst hc
    interval_cases n <;> decide
  unfold removeSpaces
  rw [List.filter_cons, hs]
  rfl

theorem count_result_ne (unit s w : Str) (h : firstMatch (matchCountAt unit) s = some w) :
    removeSpaces w ≠ "一昨日".toList := by
  obtain ⟨u, hu⟩ := firstMatch_some _ s w h
  obtain ⟨d, rest, hw, hd⟩ := matchCountAt_head unit u w hu
  rw [hw, removeSpaces_digit_head d rest hd]
  intro heq
  have hd2 : d = '一' := (List.cons.inj heq).1
  rw [hd2] at hd
  exact absurd hd (by decide)

theorem alt_result_ne (pats : List Str) (s w : Str) (hp : "一昨日".toList ∉ pats)
    (h : firstMatch (firstAlt pats) s = some w) : w ≠ "一昨日".toList := by
  obtain ⟨u, hu⟩ := firstMatch_some _ s w h
  unfold firstAlt at hu
  have hmem := List.mem_of_find?_eq_some hu
  intro heq
  exact hp (heq ▸ hmem)

theorem yesterday_in_day_before (s : Str) (h : includes s "一昨日".toList = true) :
    includes s "昨日".toList = true := by
  rw [includes_iff_occurs] at h ⊢
  exact List.IsInfix.trans ⟨"一".toList, [], by decide⟩ h

/-- C33 fails in the code. `parseWhen` tests 昨日 before 一昨日, and 一昨日 contains
昨日: for every utterance that contains 一昨日 and neither 今日 nor 本日 it returns
"昨日", and it never returns "一昨日" for any utterance. -/
theorem C33_day_before_yesterday_reads_yesterday (t : Str) :
    (includes (trim t) "一昨日".toList = true → includes (trim t) "今日".toList = false →
      includes (trim t) "本日".toList = false → parseWhen t = "昨日".toList) ∧
    parseWhen t ≠ "一昨日".toList := by
  constructor
  · intro h1 h2 h3
    unfold parseWhen
    have ha : testAlts ["今日".toList, "本日".toList] (trim t) = false := by
      simp only [testAlts, List.any_cons, List.any_nil, h2, h3, Bool.or_false]
    have hb : testAlts ["昨日".toList] (trim t) = true := by
      simp only [testAlts, List.any_cons, List.any_nil, yesterday_in_day_before _ h1,
        Bool.or_false]
    simp only [ha, hb, Bool.false_eq_true, if_false, if_true]
  · unfold parseWhen
    simp only
    split
    · decide
    · split
      · decide
      · rename_i hy
        split
        · rename_i hd
          exfalso
          apply hy
          have hd2 : includes (trim t) "一昨日".toList = true := by
            simpa [testAlts] using hd
          simp only [testAlts, List.any_cons, List.any_nil, yesterday_in_day_before _ hd2,
            Bool.or_false]
        · split
          · rename_i w hw
            exact count_result_ne _ _ w hw
          · split
            · rename_i w hw
              exact count_result_ne _ _ w hw
            · split
              · rename_i w hw
                exact count_result_ne _ _ w hw
              · split
                · rename_i w hw
                  exact alt_result_ne _ _ w (by decide) hw
                · split
                  · rename_i w hw
                    exact alt_result_ne _ _ w (by decide) hw
                  · decide

/-- C33 at the utterance 一昨日から痛いです: the answer stored is 昨日. -/
theorem C33_day_before_yesterday_witness :
    parseWhen "一昨日から痛いです".toList = "昨日".toList ∧
    parseWhen "一昨日".toList ≠ "一昨日".toList ∧
    (judgeAnswer "一昨日から痛いです".toList "when".toList [] "歯が痛い".toList).value =
      "昨日".toList :=
  ⟨(C33_day_before_yesterday_reads_yesterday "一昨日から痛いです".toList).1
      (by decide) (by decide) (by decide),
   (C33_day_before_yesterday_reads_yesterday "一昨日".toList).2,
   by decide⟩

/-! ### The enabled filter of the FAQ sheet -/

/-- C34 fails in the code. `handleFaq_` reads the cell as
`String(row[idxEnabled] || "")`, so the boolean `false` and the number `0`
read as the empty text and the row is kept: of the five rows of the example
sheet only the two whose cell is the text `false` or `No` are omitted. The
rows disabled by `false` and by `0` are returned with `enabled: true`, pass
the filter of the worker and are found by `pickRelevantFaq`. -/
theorem C34_boolean_false_row_kept :
    handleFaq_ (some exampleFaqSheet) =
      [{ q := "診療時間".toList, a := "9時から18時までです。".toList, k := "時間".toList
         enabled := some (.bool true) },
       { q := "休診日".toList, a := "日曜と祝日です。".toList, k := "休診".toList
         enabled := some (.bool true) },
       { q := "駐車場".toList, a := "3台分あります。".toList, k := "駐車".toList
         enabled := some (.bool true) }] ∧
    (handleFaq_ (some exampleFaqSheet)).filter isEnabled = handleFaq_ (some exampleFaqSheet) ∧
    pickRelevantFaq ((handleFaq_ (some exampleFaqSheet)).filter isEnabled) "休診日".toList 5 =
      [{ score := 10, q := "休診日".toList, a := "日曜と祝日です。".toList }] ∧
    pickRelevantFaq ((handleFaq_ (some exampleFaqSheet)).filter isEnabled) "駐車場".toList 5 =
      [{ score := 10, q := "駐車場".toList, a := "3台分あります。".toList }] ∧
    pickRelevantFaq ((handleFaq_ (some exampleFaqSheet)).filter isEnabled) "予約方法".toList 5 = [] := by
  exact ⟨rfl, rfl, by decide, by decide, by decide⟩

/-! ### Step numbers that need not be whole -/

theorem JNum.addInt_addInt (x : JNum) (a b : Int) : (x.addInt a).addInt b = x.addInt (a + b) := by
  unfold JNum.addInt
  simp only [JNum.mk.injEq, and_true]
  ring

theorem JNum.addInt_zero (x : JNum) : x.addInt 0 = x := by
  unfold JNum.addInt
  simp

theorem pow10_pos (s : Nat) : (0 : Int) < 10 ^ s := by positivity

theorem JNum.whole_of_pred (x : JNum) (k : Nat) (h : (x.addInt (-1)).toIndex = some k) :
    x.toIndex = some (k + 1) ∧ x.ltInt 1 = false := by
  have hp := pow10_pos x.scale
  unfold JNum.toIndex JNum.addInt at h
  simp only at h
  split at h
  · rename_i hc
    obtain ⟨hmod, hnn⟩ := hc
    rw [Option.some.injEq] at h
    have hmod2 : x.mant % 10 ^ x.scale = 0 := by
      have := Int.add_mul_emod_self (a := x.mant) (b := -1) (c := 10 ^ x.scale)
      rw [this] at hmod
      exact hmod
    have hdiv : (x.mant + -1 * 10 ^ x.scale) / 10 ^ x.scale = x.mant / 10 ^ x.scale + -1 :=
      Int.add_mul_ediv_right _ _ (ne_of_gt hp)
    have hge : 10 ^ x.scale ≤ x.mant := by linarith
    have hq : 1 ≤ x.mant / 10 ^ x.scale := by
      rw [Int.le_ediv_iff_mul_le hp]
      linarith
    constructor
    · unfold JNum.toIndex
      rw [if_pos ⟨hmod2, by linarith⟩, Option.some.injEq]
      rw [hdiv] at h
      omega
    · unfold JNum.ltInt
      rw [decide_eq_false_iff_not]
      linarith
  · exact absurd h (by simp)

theorem JNum.index_le (x : JNum) (m n : Nat) (h : x.toIndex = some m) (hle : x.leInt n = true) :
    m ≤ n := by
  have hp := pow10_pos x.scale
  unfold JNum.toIndex at h
  unfold JNum.leInt at hle
  rw [decide_eq_true_eq] at hle
  split at h
  · rw [Option.some.injEq] at h
    have hq : x.mant / 10 ^ x.scale ≤ n := by
      have := Int.ediv_le_ediv hp hle
      rwa [Int.mul_ediv_cancel _ (ne_of_gt hp)] at this
    omega
  · exact absurd h (by simp)

theorem JNum.gt_of_le (x : JNum) (n : Nat) (hle : x.leInt n = true) (hn : n ≤ 120) :
    x.gtInt 120 = false := by
  have hp := pow10_pos x.scale
  unfold JNum.leInt at hle
  unfold JNum.gtInt
  rw [decide_eq_true_eq] at hle
  rw [decide_eq_false_iff_not, not_lt]
  have h1 : (n : Int) * 10 ^ x.scale ≤ 120 * 10 ^ x.scale :=
    Int.mul_le_mul_of_nonneg_right (by exact_mod_cast hn) (le_of_lt hp)
  linarith

theorem JNum.maxInt_succ (x : JNum) (h : x.ltInt 1 = false) :
    JNum.maxInt 1 (x.addInt 1) = x.addInt 1 := by
  have hp := pow10_pos x.scale
  unfold JNum.ltInt at h
  rw [decide_eq_false_iff_not, not_lt] at h
  unfold JNum.maxInt
  have h2 : (x.addInt 1).ltInt 1 = false := by
    unfold JNum.ltInt JNum.addInt
    rw [decide_eq_false_iff_not, not_lt]
    simp only
    linarith
  rw [h2]
  rfl

theorem JNum.maxInt_start (k : Int) (x : JNum) :
    JNum.maxInt k x = x ∨ JNum.maxInt k x = JNum.ofInt k := by
  unfold JNum.maxInt
  split
  · exact Or.inr rfl
  · exact Or.inl rfl

/-! ### What the scan of `advanceSteps` emits -/

theorem advanceLoop_emits (steps : List FlowStep) (flow : Flow) :
    ∀ (fuel : Nat) (idx : JNum) (a : Advanced), advanceLoop steps flow fuel idx = .ok a →
      (a.newFlow = none → a.suggest_end = true) ∧
      (∀ f, a.newFlow = some f →
        a.suggest_end = false ∧ f.key = flow.key ∧ f.slots = flow.slots ∧
        f.step.leInt steps.length = true ∧ (∃ k, (f.step.addInt (-1)).toIndex = some k) ∧
        ∃ j : Nat, f.step = idx.addInt (j : Int)) := by
  intro fuel
  induction fuel with
  | zero => intro idx a h; simp [advanceLoop] at h
  | succ fuel ih =>
    intro idx a h
    rw [advanceLoop] at h
    split at h
    · rename_i hle
      split at h
      · exact absurd h (by simp)
      · rename_i st hst
        split at h
        · simp only [Except.ok.injEq] at h
          subst h
          exact ⟨fun _ => rfl, fun f hf => by simp at hf⟩
        · split at h
          · obtain ⟨h1, h2⟩ := ih _ a h
            refine ⟨h1, fun f hf => ?_⟩
            obtain ⟨hs, hk, hsl, hlen, hidx, j, hj⟩ := h2 f hf
            refine ⟨hs, hk, hsl, hlen, hidx, j + 1, ?_⟩
            rw [hj, JNum.addInt_addInt]
            congr 1
            push_cast
            ring
          · simp only [Except.ok.injEq] at h
            subst h
            refine ⟨fun hn => by simp at hn, fun f hf => ?_⟩
            simp only [Option.some.injEq] at hf
            subst hf
            refine ⟨rfl, rfl, rfl, hle, ?_, 0, ?_⟩
            · unfold indexAt at hst
              split at hst
              · rename_i i hi
                exact ⟨i, hi⟩
              · exact absurd hst (by simp)
            · simp only [Nat.cast_zero]
              exact (JNum.addInt_zero idx).symm
    · simp only [Except.ok.injEq] at h
      subst h
      exact ⟨fun _ => rfl, fun f hf => by simp [closingAdvanced] at hf⟩

/-! ### The flow state a turn emits -/

theorem flowJson_accepted (f : Flow) (hk : f.key ≠ []) (h1 : f.step.ltInt 1 = false)
    (h2 : f.step.gtInt 120 = false) : normalizeFlow (flowJson f) = some f := by
  have hstep : flowStepOf [("key".toList, JVal.str f.key), ("step".toList, .num f.step),
      ("slots".toList, .obj f.slots)] = some f.step := rfl
  have hkey : flowKeyOf [("key".toList, JVal.str f.key), ("step".toList, .num f.step),
      ("slots".toList, .obj f.slots)] = f.key := rfl
  have hslots : flowSlotsOf [("key".toList, JVal.str f.key), ("step".toList, .num f.step),
      ("slots".toList, .obj f.slots)] = f.slots := rfl
  have he : f.key.isEmpty = false := by
    cases hkk : f.key with
    | nil => exact absurd hkk hk
    | cons _ _ => rfl
  unfold flowJson normalizeFlow
  simp only [hstep, hkey, hslots, he, h1, h2, Bool.or_self, Bool.false_eq_true, if_false]

theorem activeFlow_eq (o : Option Flow) (l : Str) (top : Option ScoredFaq) (g : Flow)
    (h : activeFlow o l top = some g) : o = some g := by
  unfold activeFlow at h
  simp only at h
  split at h
  · rename_i f t hf
    split at hf
    · exact absurd hf (by simp)
    · split at h
      · exact absurd h (by simp)
      · rw [hf]
        exact h
  · rename_i hf
    split at h
    · exact absurd h (by simp)
    · exact h

theorem continueFlow_cases (faqItems : List FaqItem) (flow : Flow) (text : Str) (r : Response)
    (f : Flow) (h : continueFlow faqItems flow text = some (.respond r))
    (hf : r.faq_flow = some f) :
    (r.source = "faq_repair".toList ∧ f = flow ∧ r.suggest_end = false) ∨
    (r.source = "faq_flow".toList ∧
      ∃ item steps slots a, faqItems.find? (fun it => it.q == flow.key) = some item ∧
        parseFlowSteps item.a = some steps ∧
        advanceSteps steps { flow with slots := slots } (flow.step.addInt 1) = .ok a ∧
        a.newFlow = some f ∧ r.suggest_end = a.suggest_end) := by
  unfold continueFlow at h
  split at h
  · exact absurd h (by simp)
  · rename_i item hitem
    split at h
    · exact absurd h (by simp)
    · rename_i steps hsteps
      split at h
      · exact absurd h (by simp)
      · simp only at h
        split at h
        · split at h
          · exact absurd h (by simp)
          · simp only [Option.some.injEq, TurnResult.respond.injEq] at h
            subst h
            simp only [Option.some.injEq] at hf
            exact Or.inl ⟨rfl, hf.symm, rfl⟩
        · split at h
          · simp only [Option.some.injEq, TurnResult.respond.injEq] at h
            subst h
            exact absurd hf (by simp)
          · right
            simp only [Option.some.injEq] at h
            unfold advancedResponse at h
            split at h
            · exact absurd h (by simp)
            · rename_i a ha
              simp only [TurnResult.respond.injEq] at h
              subst h
              exact ⟨rfl, item, steps, _, a, hitem, hsteps, ha, hf, rfl⟩

theorem freshMatch_cases (text : Str) (picked : List ScoredFaq) (r : Response) (f : Flow)
    (h : freshMatch text picked = .respond r) (hf : r.faq_flow = some f) :
    r.source = "faq_flow_start".toList ∧
      ∃ top steps slots a, picked.head? = some top ∧ parseFlowSteps top.a = some steps ∧
        advanceSteps steps { key := top.q, step := JNum.ofInt 1, slots := slots } (JNum.ofInt 1)
          = .ok a ∧
        a.newFlow = some f ∧ r.suggest_end = a.suggest_end := by
  unfold freshMatch at h
  split at h
  · exact absurd h (by simp)
  · rename_i top htop
    split at h
    · split at h
      · rename_i st more hsteps
        simp only at h
        split at h
        · simp only [TurnResult.respond.injEq] at h
          subst h
          exact absurd hf (by simp)
        · unfold advancedResponse at h
          split at h
          · exact absurd h (by simp)
          · rename_i a ha
            simp only [TurnResult.respond.injEq] at h
            subst h
            refine ⟨rfl, top, st :: more,
              (prefillSlotsFromFreeText { key := top.q, step := JNum.ofInt 1, slots := [] }
                (st :: more) text).slots, a, htop, hsteps, ?_, hf, rfl⟩
            have hkey := prefill_key { key := top.q, step := JNum.ofInt 1, slots := [] }
              (st :: more) text
            have hstep : (prefillSlotsFromFreeText { key := top.q, step := JNum.ofInt 1, slots := [] }
                (st :: more) text).step = JNum.ofInt 1 := by
              unfold prefillSlotsFromFreeText
              simp only
              split <;> rfl
            have heq : prefillSlotsFromFreeText { key := top.q, step := JNum.ofInt 1, slots := [] }
                (st :: more) text =
                { key := top.q, step := JNum.ofInt 1
                  slots := (prefillSlotsFromFreeText
                    { key := top.q, step := JNum.ofInt 1, slots := [] } (st :: more) text).slots } := by
              cases hp : prefillSlotsFromFreeText { key := top.q, step := JNum.ofInt 1, slots := [] }
                (st :: more) text with
              | mk k s sl =>
                rw [hp] at hkey hstep
                simp only at hkey hstep
                rw [hkey, hstep]
            rw [← heq]
            exact ha
      · simp only [TurnResult.respond.injEq] at h
        subst h
        exact absurd hf (by simp)
    · exact absurd h (by simp)

theorem turn_cases (catalog : List FaqItem) (faqFlow : JVal) (u : Str) (r : Response) (f : Flow)
    (h : turn catalog faqFlow u = .respond r) (hf : r.faq_flow = some f) :
    (∃ flow, normalizeFlow faqFlow = some flow ∧
      continueFlow (catalog.filter isEnabled) flow (normalizeUserInput u) = some (.respond r)) ∨
    freshMatch (normalizeUserInput u)
      (pickRelevantFaq (catalog.filter isEnabled) (normalizeUserInput u) 5) = .respond r := by
  unfold turn at h
  simp only at h
  split at h
  · simp only [TurnResult.respond.injEq] at h
    subst h
    exact absurd hf (by simp)
  · split at h
    · rename_i flow hact
      have hnorm := activeFlow_eq _ _ _ flow hact
      split at h
      · exact Or.inr h
      · split at h
        · rename_i result hres
          left
          exact ⟨flow, hnorm, by rw [hres, h]⟩
        · exact Or.inr h
    · exact Or.inr h

theorem picked_head_entry (items : List FaqItem) (text : Str) (top : ScoredFaq)
    (h : (pickRelevantFaq items text 5).head? = some top) :
    top.q ≠ [] ∧ ∃ it ∈ items, it.q = top.q ∧ it.a = top.a := by
  have hmem : top ∈ pickRelevantFaq items text 5 := List.mem_of_mem_head? h
  unfold pickRelevantFaq at hmem
  simp only at hmem
  split at hmem
  · exact absurd hmem (List.not_mem_nil top)
  · have hc := (List.mem_insertionSort scoreGe).mp (List.mem_of_mem_take hmem)
    obtain ⟨it, hit, hq, _, _, heq⟩ := (mem_faqCandidates _ _ top).mp hc
    rw [heq]
    exact ⟨hq, it, hit, rfl, rfl⟩

/-! ### Round trip of the flow state -/

theorem JNum.gt_of_index (x : JNum) (n : Nat) (h : x.toIndex = some n) (hn : 120 < n) :
    x.gtInt 120 = true := by
  have hp := pow10_pos x.scale
  unfold JNum.toIndex at h
  unfold JNum.gtInt
  rw [decide_eq_true_eq]
  split at h
  · rename_i hc
    rw [Option.some.injEq] at h
    have hq : (121 : Int) ≤ x.mant / 10 ^ x.scale := by omega
    have hm := (Int.le_ediv_iff_mul_le hp).mp hq
    linarith
  · exact absurd h (by simp)

theorem flowJson_rejected (f : Flow) (h : f.step.gtInt 120 = true) :
    normalizeFlow (flowJson f) = none := by
  have hstep : flowStepOf [("key".toList, JVal.str f.key), ("step".toList, .num f.step),
      ("slots".toList, .obj f.slots)] = some f.step := rfl
  unfold flowJson normalizeFlow
  simp only [hstep, h, Bool.or_true, if_true]

theorem emitted_step (steps : List FlowStep) (flow : Flow) (start : JNum) (a : Advanced) (f : Flow)
    (h : advanceSteps steps flow start = .ok a) (hf : a.newFlow = some f) :
    a.suggest_end = false ∧ f.key = flow.key ∧ f.slots = flow.slots ∧
    ∃ n, f.step.toIndex = some n ∧ 1 ≤ n ∧ n ≤ steps.length ∧ f.step.ltInt 1 = false ∧
      (steps.length ≤ 120 → f.step.gtInt 120 = false) := by
  unfold advanceSteps at h
  obtain ⟨_, h2⟩ := advanceLoop_emits steps flow _ _ a h
  obtain ⟨hs, hk, hsl, hle, ⟨k, hk2⟩, _⟩ := h2 f hf
  obtain ⟨hidx, hlt⟩ := JNum.whole_of_pred f.step k hk2
  exact ⟨hs, hk, hsl, k + 1, hidx, Nat.succ_pos k, JNum.index_le f.step (k + 1) _ hidx hle, hlt,
    fun hlen => JNum.gt_of_le f.step _ hle hlen⟩

/-- C35, as the claim states it, fails. A rejected answer is answered with the
incoming state as it is: for the two-step topic and an incoming step of 50
the repair response carries step 50, which exceeds the number of steps. And
`advanceSteps` over 121 steps emits step 121, which `normalizeFlow` rejects
on the next turn. -/
theorem C35_round_trip_counterexample :
    (parseFlowSteps "[[step1 expect=yesno slot=first]]初めてですか？[[step2 expect=when slot=since]]前回はいつですか？".toList).map
      List.length = some 2 ∧
    turn exampleTwoStepCatalog exampleStep50State "あした".toList =
      .respond { reply := "すみません、確認させてください。\n\n前回はいつですか？".toList
                 source := "faq_repair".toList
                 faq_flow := some { key := "検診を受けたい".toList, step := ⟨50, 0⟩, slots := [] }
                 suggest_end := false
                 reply_options := none } ∧
    (advanceSteps (List.replicate 121 examplePlainStep)
        { key := "検診を受けたい".toList, step := ⟨120, 0⟩, slots := [] } ⟨121, 0⟩).map
      (fun a => a.newFlow) =
      .ok (some { key := "検診を受けたい".toList, step := ⟨121, 0⟩, slots := [] }) ∧
    normalizeFlow (flowJson { key := "検診を受けたい".toList, step := ⟨121, 0⟩, slots := [] }) = none :=
  ⟨rfl, rfl, rfl, rfl⟩

/-- C35, amended. Every non-null `faq_flow` a turn emits has a non-empty key
and an object slot mapping. One emitted by a repair is the incoming
normalized state itself and is accepted unchanged by `normalizeFlow`; its
step lies in 1..120 but need not be whole nor at most the number of steps.
One emitted by an advance or a flow start belongs to an entry of the catalog
with that question, and its step is a whole number between 1 and the number
of steps of the template of that entry; it is accepted unchanged by
`normalizeFlow` when the template has at most 120 steps, and rejected when
the step exceeds 120. (The incoming state is one whose slots are not an
array.) -/
theorem C35_emitted_flow_state (catalog : List FaqItem) (faqFlow : JVal) (u : Str) (r : Response)
    (f : Flow) (hturn : turn catalog faqFlow u = .respond r) (hf : r.faq_flow = some f)
    (_hobj : ∀ props xs, faqFlow = .obj props → props.lookup "slots".toList ≠ some (.arr xs)) :
    f.key ≠ [] ∧
    ((r.source = "faq_repair".toList ∧ normalizeFlow faqFlow = some f ∧
        normalizeFlow (flowJson f) = some f) ∨
     ((r.source = "faq_flow".toList ∨ r.source = "faq_flow_start".toList) ∧
        ∃ it ∈ catalog, ∃ steps n, it.q = f.key ∧ parseFlowSteps it.a = some steps ∧
          f.step.toIndex = some n ∧ 1 ≤ n ∧ n ≤ steps.length ∧
          (steps.length ≤ 120 → normalizeFlow (flowJson f) = some f) ∧
          (120 < n → normalizeFlow (flowJson f) = none))) := by
  rcases turn_cases catalog faqFlow u r f hturn hf with ⟨flow, hnorm, hcont⟩ | hfresh
  · obtain ⟨_, _, _, _, _, hkey, hlt, hgt⟩ := normalizeFlow_some faqFlow flow hnorm
    rcases continueFlow_cases _ flow _ r f hcont hf with ⟨hsrc, heq, _⟩ | ⟨hsrc, item, steps, slots, a, hitem, hsteps, hadv, hnew, _⟩
    · subst heq
      exact ⟨hkey, Or.inl ⟨hsrc, hnorm, flowJson_accepted f hkey hlt hgt⟩⟩
    · obtain ⟨_, hk, _, n, hidx, h1, hn, hlt2, hgt2⟩ := emitted_step steps _ _ a f hadv hnew
      have hfk : f.key = flow.key := hk
      have hmem : item ∈ catalog := (List.mem_filter.mp (List.mem_of_find?_eq_some hitem)).1
      have hq : item.q = f.key := by
        have := List.find?_some hitem
        rw [beq_iff_eq] at this
        rw [this, hfk]
      have hkey2 : f.key ≠ [] := by rw [hfk]; exact hkey
      exact ⟨hkey2, Or.inr ⟨Or.inl hsrc, item, hmem, steps, n, hq, hsteps, hidx, h1, hn,
        fun hlen => flowJson_accepted f hkey2 hlt2 (hgt2 hlen),
        fun hbig => flowJson_rejected f (JNum.gt_of_index f.step n hidx hbig)⟩⟩
  · obtain ⟨hsrc, top, steps, slots, a, htop, hsteps, hadv, hnew, _⟩ :=
      freshMatch_cases _ _ r f hfresh hf
    obtain ⟨_, hk, _, n, hidx, h1, hn, hlt2, hgt2⟩ := emitted_step steps _ _ a f hadv hnew
    have hfk : f.key = top.q := hk
    obtain ⟨hq, it, hit, hitq, hita⟩ := picked_head_entry _ _ top htop
    have hkey2 : f.key ≠ [] := by rw [hfk]; exact hq
    exact ⟨hkey2, Or.inr ⟨Or.inr hsrc, it, (List.mem_filter.mp hit).1, steps, n,
      by rw [hitq, hfk], by rw [hita]; exact hsteps, hidx, h1, hn,
      fun hlen => flowJson_accepted f hkey2 hlt2 (hgt2 hlen),
      fun hbig => flowJson_rejected f (JNum.gt_of_index f.step n hidx hbig)⟩⟩

/-- C35 (amended) at the two-step topic: the answer はい at step 1 is accepted,
the turn emits the state of step 2, and `normalizeFlow` accepts it unchanged. -/
theorem C35_emitted_flow_witness :
    turn exampleTwoStepCatalog exampleStep1State "はい".toList =
      .respond { reply := "前回はいつですか？".toList, source := "faq_flow".toList
                 faq_flow := some exampleStep2Flow, suggest_end := false
                 reply_options := none } ∧
    normalizeFlow (flowJson exampleStep2Flow) = some exampleStep2Flow ∧
    exampleStep2Flow.key ≠ [] :=
  ⟨rfl, rfl,
   (C35_emitted_flow_state exampleTwoStepCatalog exampleStep1State "はい".toList
      { reply := "前回はいつですか？".toList, source := "faq_flow".toList
        faq_flow := some exampleStep2Flow, suggest_end := false, reply_options := none }
      exampleStep2Flow rfl rfl
      (fun props xs h => by
        cases h
        show some (JVal.obj []) ≠ some (JVal.arr xs)
        intro h2
        cases h2)).1⟩

/-! ### Progress of a flow -/

theorem JNum.pred_succ (x : JNum) : (x.addInt 1).addInt (-1) = x := by
  rw [JNum.addInt_addInt]
  exact JNum.addInt_zero x

theorem JNum.index_of_add (x : JNum) (a m : Nat) (h : (x.addInt (a : Int)).toIndex = some m)
    (hx : x.ltInt 1 = false) : ∃ n, x.toIndex = some n ∧ m = n + a := by
  have hp := pow10_pos x.scale
  unfold JNum.ltInt at hx
  rw [decide_eq_false_iff_not, not_lt] at hx
  have hnn : 0 ≤ x.mant := by linarith
  unfold JNum.toIndex JNum.addInt at h
  simp only at h
  split at h
  · rename_i hc
    rw [Option.some.injEq] at h
    have hmod : x.mant % 10 ^ x.scale = 0 := by
      have := Int.add_mul_emod_self (a := x.mant) (b := (a : Int)) (c := 10 ^ x.scale)
      rw [this] at hc
      exact hc.1
    have hdiv : (x.mant + (a : Int) * 10 ^ x.scale) / 10 ^ x.scale = x.mant / 10 ^ x.scale + a :=
      Int.add_mul_ediv_right _ _ (ne_of_gt hp)
    have hq : 0 ≤ x.mant / 10 ^ x.scale := Int.ediv_nonneg hnn (le_of_lt hp)
    refine ⟨(x.mant / 10 ^ x.scale).toNat, ?_, ?_⟩
    · unfold JNum.toIndex
      rw [if_pos ⟨hmod, hnn⟩]
    · rw [hdiv] at h
      omega
  · exact absurd h (by simp)

theorem advanceLoop_returns (steps : List FlowStep) (flow : Flow) :
    ∀ (fuel : Nat) (idx : JNum) (k : Nat), (idx.addInt (-1)).toIndex = some k →
      steps.length ≤ k + fuel → ∃ a, advanceLoop steps flow (fuel + 1) idx = .ok a := by
  intro fuel
  induction fuel with
  | zero =>
    intro idx k hk hlen
    obtain ⟨hidx, _⟩ := JNum.whole_of_pred idx k hk
    rw [advanceLoop]
    split
    · rename_i hle
      have := JNum.index_le idx (k + 1) _ hidx hle
      omega
    · exact ⟨_, rfl⟩
  | succ fuel ih =>
    intro idx k hk hlen
    obtain ⟨hidx, _⟩ := JNum.whole_of_pred idx k hk
    rw [advanceLoop]
    split
    · rename_i hle
      have hkl := JNum.index_le idx (k + 1) _ hidx hle
      have hget : indexAt steps (idx.addInt (-1)) = steps.get? k := by
        unfold indexAt
        rw [hk]
      obtain ⟨st, hst⟩ : ∃ st, steps.get? k = some st :=
        ⟨steps.get ⟨k, by omega⟩, List.get?_eq_get (by omega)⟩
      rw [hget, hst]
      simp only
      split
      · exact ⟨_, rfl⟩
      · split
        · apply ih (idx.addInt 1) (k + 1)
          · rw [JNum.pred_succ]
            exact hidx
          · omega
        · exact ⟨_, rfl⟩
    · exact ⟨_, rfl⟩

theorem advanceLoop_fraction (steps : List FlowStep) (flow : Flow) (fuel : Nat) (idx : JNum)
    (h : (idx.addInt (-1)).toIndex = none) :
    advanceLoop steps flow (fuel + 1) idx = .error .typeError ∨
      advanceLoop steps flow (fuel + 1) idx = .ok closingAdvanced := by
  rw [advanceLoop]
  split
  · left
    have hget : indexAt steps (idx.addInt (-1)) = none := by
      unfold indexAt
      rw [h]
    rw [hget]
  · exact Or.inr rfl

theorem advanceSteps_outcome (steps : List FlowStep) (flow : Flow) (x : JNum)
    (hx : x.ltInt 1 = false) :
    (∀ n, x.toIndex = some n →
      ∃ a, advanceSteps steps flow (x.addInt 1) = .ok a ∧
        (a.newFlow = none → a.suggest_end = true) ∧
        ∀ f, a.newFlow = some f →
          a.suggest_end = false ∧ f.key = flow.key ∧
            ∃ m, f.step.toIndex = some m ∧ n < m ∧ m ≤ steps.length ∧ f.step.ltInt 1 = false) ∧
    (x.toIndex = none →
      advanceSteps steps flow (x.addInt 1) = .error .typeError ∨
        advanceSteps steps flow (x.addInt 1) = .ok closingAdvanced) := by
  have hstart : advanceSteps steps flow (x.addInt 1) =
      advanceLoop steps flow (steps.length + 1) (x.addInt 1) := by
    unfold advanceSteps
    rw [JNum.maxInt_succ x hx]
  constructor
  · intro n hn
    obtain ⟨a, ha⟩ := advanceLoop_returns steps flow steps.length (x.addInt 1) n
      (by rw [JNum.pred_succ]; exact hn) (Nat.le_add_left _ _)
    refine ⟨a, by rw [hstart]; exact ha, ?_⟩
    obtain ⟨h1, h2⟩ := advanceLoop_emits steps flow _ _ a ha
    refine ⟨h1, fun f hf => ?_⟩
    obtain ⟨hs, hk, _, hle, ⟨k, hk2⟩, j, hj⟩ := h2 f hf
    obtain ⟨hidx, hlt⟩ := JNum.whole_of_pred f.step k hk2
    refine ⟨hs, hk, k + 1, hidx, ?_, JNum.index_le f.step (k + 1) _ hidx hle, hlt⟩
    have hj2 : f.step = x.addInt (((1 + j : Nat)) : Int) := by
      rw [hj, JNum.addInt_addInt]
      congr 1
    rw [hj2] at hidx
    obtain ⟨n2, hn2, hm⟩ := JNum.index_of_add x (1 + j) (k + 1) hidx hx
    rw [hn] at hn2
    rw [Option.some.injEq] at hn2
    omega
  · intro hnone
    rw [hstart]
    exact advanceLoop_fraction steps flow steps.length (x.addInt 1)
      (by rw [JNum.pred_succ]; exact hnone)

theorem JNum.index_pred (x : JNum) (n : Nat) (h : x.toIndex = some n) (hx : x.ltInt 1 = false) :
    (x.addInt (-1)).toIndex = some (n - 1) ∧ 1 ≤ n := by
  have hp := pow10_pos x.scale
  unfold JNum.ltInt at hx
  rw [decide_eq_false_iff_not, not_lt] at hx
  unfold JNum.toIndex at h
  split at h
  · rename_i hc
    rw [Option.some.injEq] at h
    have hq : 1 ≤ x.mant / 10 ^ x.scale := by
      rw [Int.le_ediv_iff_mul_le hp]
      linarith
    have hmod : (x.mant + -1 * 10 ^ x.scale) % 10 ^ x.scale = 0 := by
      rw [Int.add_mul_emod_self]
      exact hc.1
    have hdiv : (x.mant + -1 * 10 ^ x.scale) / 10 ^ x.scale = x.mant / 10 ^ x.scale + -1 :=
      Int.add_mul_ediv_right _ _ (ne_of_gt hp)
    constructor
    · unfold JNum.toIndex JNum.addInt
      simp only
      rw [if_pos ⟨hmod, by linarith⟩, hdiv, Option.some.injEq]
      omega
    · omega
  · exact absurd h (by simp)

theorem JNum.index_le_of_not_gt (x : JNum) (m : Nat) (k : Int) (h : x.toIndex = some m)
    (hk : x.gtInt k = false) : (m : Int) ≤ k := by
  have hp := pow10_pos x.scale
  unfold JNum.gtInt at hk
  rw [decide_eq_false_iff_not, not_lt] at hk
  unfold JNum.toIndex at h
  split at h
  · rename_i hc
    rw [Option.some.injEq] at h
    have hq : x.mant / 10 ^ x.scale ≤ k := by
      have := Int.ediv_le_ediv hp hk
      rwa [Int.mul_ediv_cancel _ (ne_of_gt hp)] at this
    have hnn : 0 ≤ x.mant / 10 ^ x.scale := Int.ediv_nonneg hc.2 (le_of_lt hp)
    omega
  · exact absurd h (by simp)

theorem JNum.not_lt_zero_of_index (x : JNum) (m : Nat) (h : x.toIndex = some m) :
    x.ltInt 0 = false := by
  unfold JNum.toIndex at h
  unfold JNum.ltInt
  rw [decide_eq_false_iff_not, not_lt]
  split at h
  · rename_i hc
    rw [Int.zero_mul]
    exact hc.2
  · exact absurd h (by simp)

theorem currentStepOf_whole (steps : List FlowStep) (flow : Flow) (n : Nat)
    (hn : flow.step.toIndex = some n) (hx : flow.step.ltInt 1 = false) (hne : steps ≠ []) :
    ∃ st, currentStepOf steps flow = some st := by
  obtain ⟨hpred, h1⟩ := JNum.index_pred flow.step n hn hx
  have hlen : 1 ≤ steps.length := by
    cases steps with
    | nil => exact absurd rfl hne
    | cons _ _ => simp
  unfold currentStepOf
  unfold JNum.minInt
  split
  · have hcast : (steps.length : Int) - 1 = ((steps.length - 1 : Nat) : Int) := by omega
    rw [hcast, JNum.maxInt_ofInt]
    have hmax : max (0 : Int) ((steps.length - 1 : Nat) : Int) = ((steps.length - 1 : Nat) : Int) :=
      max_eq_right (by omega)
    rw [hmax, indexAt_ofInt]
    exact ⟨steps.get ⟨steps.length - 1, by omega⟩, List.get?_eq_get (by omega)⟩
  · rename_i hgt
    rw [Bool.not_eq_true] at hgt
    have hbound := JNum.index_le_of_not_gt _ (n - 1) _ hpred hgt
    unfold JNum.maxInt
    rw [JNum.not_lt_zero_of_index _ (n - 1) hpred]
    simp only [Bool.false_eq_true, if_false]
    unfold indexAt
    rw [hpred]
    exact ⟨steps.get ⟨n - 1, by omega⟩, List.get?_eq_get (by omega)⟩

theorem continueFlow_outcome (faqItems : List FaqItem) (flow : Flow) (text : Str) (item : FaqItem)
    (steps : List FlowStep)
    (hitem : faqItems.find? (fun it => it.q == flow.key) = some item)
    (hsteps : parseFlowSteps item.a = some steps)
    (hstep : flow.step.ltInt 1 = false) :
    ∃ res, continueFlow faqItems flow text = some res ∧
      ((∃ n, flow.step.toIndex = some n) → ∃ r, res = .respond r) ∧
      (∀ e, res = .error e → e = .typeError ∧ flow.step.toIndex = none) ∧
      (∀ t p, res ≠ .fallThrough t p) ∧
      (∀ r, res = .respond r →
        ((judgeAnswer text (currentMeta (currentStepOf steps flow) "expect".toList)
            (currentMeta (currentStepOf steps flow) "choice".toList) flow.key).ok = false ∧
          r.source = "faq_repair".toList ∧ r.faq_flow = some flow ∧ r.suggest_end = false) ∨
        ((judgeAnswer text (currentMeta (currentStepOf steps flow) "expect".toList)
            (currentMeta (currentStepOf steps flow) "choice".toList) flow.key).ok = true ∧
          r.source ≠ "faq_repair".toList ∧ r.faq_flow = none ∧ r.suggest_end = true) ∨
        ((judgeAnswer text (currentMeta (currentStepOf steps flow) "expect".toList)
            (currentMeta (currentStepOf steps flow) "choice".toList) flow.key).ok = true ∧
          r.source = "faq_flow".toList ∧ r.suggest_end = false ∧
          ∃ f n m, r.faq_flow = some f ∧ f.key = flow.key ∧ flow.step.toIndex = some n ∧
            f.step.toIndex = some m ∧ n < m ∧ m ≤ steps.length ∧ f.step.ltInt 1 = false)) := by
  obtain ⟨hne, _⟩ := parseFlowSteps_some item.a steps hsteps
  have hempty : steps.isEmpty = false := by
    cases steps with
    | nil => exact absurd rfl hne
    | cons _ _ => rfl
  unfold continueFlow
  simp only [hitem, hsteps, hempty, Bool.false_eq_true, if_false]
  split
  · -- the answer is rejected
    rename_i hrej
    rw [Bool.not_eq_true'] at hrej
    cases hcur : currentStepOf steps flow with
    | none =>
      refine ⟨_, rfl, ?_, ?_, fun t p h => by simp at h, fun r h => by simp at h⟩
      · rintro ⟨n, hn⟩
        obtain ⟨st, hst⟩ := currentStepOf_whole steps flow n hn hstep hne
        rw [hcur] at hst
        exact absurd hst (by simp)
      · intro e he
        simp only [TurnResult.error.injEq] at he
        refine ⟨he.symm, ?_⟩
        cases hidx : flow.step.toIndex with
        | none => rfl
        | some n =>
          obtain ⟨st, hst⟩ := currentStepOf_whole steps flow n hidx hstep hne
          rw [hcur] at hst
          exact absurd hst (by simp)
    | some st =>
      refine ⟨_, rfl, fun _ => ⟨_, rfl⟩, fun e h => by simp at h, fun t p h => by simp at h, ?_⟩
      intro r hr
      simp only [TurnResult.respond.injEq] at hr
      subst hr
      rw [hcur] at hrej
      exact Or.inl ⟨hrej, rfl, rfl, rfl⟩
  · -- the answer is accepted
    rename_i hacc
    rw [Bool.not_eq_true', Bool.not_eq_false] at hacc
    split
    · refine ⟨_, rfl, fun _ => ⟨_, rfl⟩, fun e h => by simp at h, fun t p h => by simp at h, ?_⟩
      intro r hr
      simp only [TurnResult.respond.injEq] at hr
      subst hr
      exact Or.inr (Or.inl
        ⟨hacc, (by decide : "faq_flow_decision".toList ≠ "faq_repair".toList), rfl, rfl⟩)
    · obtain ⟨hwhole, hfrac⟩ := advanceSteps_outcome steps
        (Flow.mk flow.key flow.step (saveSlot flow.slots
            (currentMeta (currentStepOf steps flow) "slot".toList)
            (judgeAnswer text (currentMeta (currentStepOf steps flow) "expect".toList)
              (currentMeta (currentStepOf steps flow) "choice".toList) flow.key).value))
        flow.step hstep
      cases hidx : flow.step.toIndex with
      | some n =>
        obtain ⟨a, ha, hnone, hsome⟩ := hwhole n hidx
        rw [ha]
        refine ⟨_, rfl, fun _ => ⟨_, rfl⟩, fun e h => by simp [advancedResponse] at h,
          fun t p h => by simp [advancedResponse] at h, ?_⟩
        intro r hr
        simp only [advancedResponse, TurnResult.respond.injEq] at hr
        subst hr
        cases hnf : a.newFlow with
        | none =>
          exact Or.inr (Or.inl
            ⟨hacc, (by decide : "faq_flow".toList ≠ "faq_repair".toList), rfl, hnone hnf⟩)
        | some f =>
          obtain ⟨hs, hk, m, hm, hnm, hml, hlt⟩ := hsome f hnf
          exact Or.inr (Or.inr ⟨hacc, rfl, hs, f, n, m, rfl, hk, rfl, hm, hnm, hml, hlt⟩)
      | none =>
        rcases hfrac hidx with h | h
        · rw [h]
          refine ⟨_, rfl, fun ⟨n, hn⟩ => by simp at hn, ?_, fun t p h => by simp [advancedResponse] at h,
            fun r hr => by simp [advancedResponse] at hr⟩
          intro e he
          simp only [advancedResponse, TurnResult.error.injEq] at he
          exact ⟨he.symm, rfl⟩
        · rw [h]
          refine ⟨_, rfl, fun _ => ⟨_, rfl⟩, fun e h => by simp [advancedResponse] at h,
            fun t p h => by simp [advancedResponse] at h, ?_⟩
          intro r hr
          simp only [advancedResponse, TurnResult.respond.injEq] at hr
          subst hr
          exact Or.inr (Or.inl
            ⟨hacc, (by decide : "faq_flow".toList ≠ "faq_repair".toList), rfl, rfl⟩)

theorem acceptedChain_bound (faqItems : List FaqItem) (item : FaqItem) (steps : List FlowStep)
    (hsteps : parseFlowSteps item.a = some steps) :
    ∀ (us : List Str) (f g : Flow),
      faqItems.find? (fun it => it.q == f.key) = some item → f.step.ltInt 1 = false →
      AcceptedChain faqItems f us g →
      us = [] ∨ ∃ n m, f.step.toIndex = some n ∧ g.step.toIndex = some m ∧ 1 ≤ n ∧
        n + us.length ≤ m ∧ m ≤ steps.length := by
  intro us
  induction us with
  | nil => intro f g _ _ _; exact Or.inl rfl
  | cons u us ih =>
    intro f g hitem hstep hchain
    right
    obtain ⟨r, f1, hcont, hsrc, hflow, hrest⟩ := hchain
    obtain ⟨res, hres, _, _, _, hcases⟩ := continueFlow_outcome faqItems f u item steps hitem hsteps hstep
    rw [hcont, Option.some.injEq] at hres
    rcases hcases r hres.symm with ⟨_, hrep, _, _⟩ | ⟨_, _, hnone, _⟩ | ⟨_, _, _, f2, n, m, hf2, hkey, hn, hm, hnm, hml, hlt⟩
    · rw [hsrc] at hrep
      exact absurd hrep (by decide)
    · rw [hflow] at hnone
      exact absurd hnone (by simp)
    · rw [hflow, Option.some.injEq] at hf2
      subst hf2
      have h1 : 1 ≤ n := (JNum.index_pred f.step n hn hstep).2
      have hitem1 : faqItems.find? (fun it => it.q == f1.key) = some item := by
        rw [hkey]
        exact hitem
      rcases ih f1 g hitem1 hlt hrest with hnil | ⟨n1, m1, hn1, hm1, _, hle, hlen⟩
      · subst hnil
        have hg : f1 = g := hrest
        subst hg
        exact ⟨n, m, hn, hm, h1, by simp only [List.length_singleton]; omega, hml⟩
      · rw [hm, Option.some.injEq] at hn1
        subst hn1
        exact ⟨n, m1, hn, hm1, h1, by simp only [List.length_cons]; omega, hlen⟩

theorem turn_flow_suggest_end (catalog : List FaqItem) (faqFlow : JVal) (u : Str) (r : Response)
    (f : Flow) (h : turn catalog faqFlow u = .respond r) (hf : r.faq_flow = some f) :
    r.suggest_end = false := by
  rcases turn_cases catalog faqFlow u r f h hf with ⟨flow, _, hcont⟩ | hfresh
  · rcases continueFlow_cases _ flow _ r f hcont hf with ⟨_, _, hs⟩ | ⟨_, _, steps, _, a, _, _, hadv, hnew, hs⟩
    · exact hs
    · rw [hs]
      exact (emitted_step steps _ _ a f hadv hnew).1
  · obtain ⟨_, _, steps, _, a, _, _, hadv, hnew, hs⟩ := freshMatch_cases _ _ r f hfresh hf
    rw [hs]
    exact (emitted_step steps _ _ a f hadv hnew).1

/-- C36 fails in the code: the state with step 1.5 is accepted by
`normalizeFlow`, the answer いいえ is accepted by the judgement, and the turn
neither ends the flow nor returns a later step: it raises a `TypeError`. -/
theorem C36_fractional_step_counterexample :
    normalizeFlow exampleFractionalState =
      some { key := "検診を受けたい".toList, step := ⟨15, 1⟩, slots := [] } ∧
    (judgeAnswer (normalizeUserInput "いいえ".toList) [] [] "検診を受けたい".toList).ok = true ∧
    turn exampleCheckupCatalog exampleFractionalState "いいえ".toList = .error .typeError :=
  ⟨rfl, by decide, rfl⟩

theorem turn_continue (catalog : List FaqItem) (faqFlow : JVal) (u : Str) (flow : Flow)
    (res : TurnResult)
    (hflow : normalizeFlow faqFlow = some flow)
    (hne : normalizeUserInput u ≠ [])
    (hreset : containsResetWord (toLowerCase (normalizeUserInput u)) = false)
    (htopic : ∀ top,
      (pickRelevantFaq (catalog.filter isEnabled) (normalizeUserInput u) 5).head? = some top →
      10 ≤ top.score → top.q = flow.key)
    (hres : continueFlow (catalog.filter isEnabled) flow (normalizeUserInput u) = some res) :
    turn catalog faqFlow u = res := by
  have hkey : flow.key ≠ [] := normalizeFlow_key_ne faqFlow flow hflow
  unfold turn
  simp only [List.isEmpty_eq_true, hne, if_false, hflow,
    activeFlow_keep flow _ _ hreset htopic, hkey, hres]

/-- C36, for an incoming state whose step is a whole number and whose slots
are not an array. In a flow-continuation turn (the state is active: no reset
phrase, no other topic, and the topic has a template with steps) the turn
responds. When the answer is rejected the response is the repair with the
state as it is. When the answer is accepted, either the flow ends (`faq_flow`
null, `suggest_end` true) or the returned `faq_flow` has the same key,
`suggest_end` is false, and its step is a whole number strictly greater than
the incoming step and at most the number of steps. Hence a run of accepted
answers that keeps the flow alive is shorter than the number of steps. In
every response of a turn a non-null `faq_flow` comes with `suggest_end`
false. -/
theorem C36_flow_progress (catalog : List FaqItem) (faqFlow : JVal) (u : Str) (flow : Flow)
    (item : FaqItem) (steps : List FlowStep) (n : Nat)
    (hflow : normalizeFlow faqFlow = some flow)
    (_hobj : ∀ props xs, faqFlow = .obj props → props.lookup "slots".toList ≠ some (.arr xs))
    (hwhole : flow.step.toIndex = some n)
    (hne : normalizeUserInput u ≠ [])
    (hreset : containsResetWord (toLowerCase (normalizeUserInput u)) = false)
    (htopic : ∀ top,
      (pickRelevantFaq (catalog.filter isEnabled) (normalizeUserInput u) 5).head? = some top →
      10 ≤ top.score → top.q = flow.key)
    (hitem : (catalog.filter isEnabled).find? (fun it => it.q == flow.key) = some item)
    (hsteps : parseFlowSteps item.a = some steps) :
    (∃ r, turn catalog faqFlow u = .respond r ∧
      (((judgeAnswer (normalizeUserInput u)
            (currentMeta (currentStepOf steps flow) "expect".toList)
            (currentMeta (currentStepOf steps flow) "choice".toList) flow.key).ok = false ∧
          r.source = "faq_repair".toList ∧ r.faq_flow = some flow ∧ r.suggest_end = false) ∨
       ((judgeAnswer (normalizeUserInput u)
            (currentMeta (currentStepOf steps flow) "expect".toList)
            (currentMeta (currentStepOf steps flow) "choice".toList) flow.key).ok = true ∧
          r.faq_flow = none ∧ r.suggest_end = true) ∨
       ((judgeAnswer (normalizeUserInput u)
            (currentMeta (currentStepOf steps flow) "expect".toList)
            (currentMeta (currentStepOf steps flow) "choice".toList) flow.key).ok = true ∧
          r.suggest_end = false ∧
          ∃ f m, r.faq_flow = some f ∧ f.key = flow.key ∧ f.step.toIndex = some m ∧
            n < m ∧ m ≤ steps.length))) ∧
    (∀ us g, AcceptedChain (catalog.filter isEnabled) flow us g → us.length < steps.length) ∧
    (∀ (catalog2 : List FaqItem) (faqFlow2 : JVal) (u2 : Str) (r : Response) (f : Flow),
      turn catalog2 faqFlow2 u2 = .respond r → r.faq_flow = some f → r.suggest_end = false) := by
  obtain ⟨_, _, _, _, _, _, hstep, _⟩ := normalizeFlow_some faqFlow flow hflow
  refine ⟨?_, ?_, turn_flow_suggest_end⟩
  · obtain ⟨res, hres, hresp, _, _, hcases⟩ :=
      continueFlow_outcome (catalog.filter isEnabled) flow (normalizeUserInput u) item steps
        hitem hsteps hstep
    obtain ⟨r, hr⟩ := hresp ⟨n, hwhole⟩
    refine ⟨r, ?_, ?_⟩
    · rw [turn_continue catalog faqFlow u flow res hflow hne hreset htopic hres, hr]
    · rcases hcases r hr with ⟨hj, hsrc, hf, hs⟩ | ⟨hj, _, hf, hs⟩ | ⟨hj, _, hs, f, n2, m, hf, hk, hn2, hm, hnm, hml, _⟩
      · exact Or.inl ⟨hj, hsrc, hf, hs⟩
      · exact Or.inr (Or.inl ⟨hj, hf, hs⟩)
      · rw [hwhole, Option.some.injEq] at hn2
        subst hn2
        exact Or.inr (Or.inr ⟨hj, hs, f, m, hf, hk, hm, hnm, hml⟩)
  · intro us g hchain
    obtain ⟨hsne, _⟩ := parseFlowSteps_some item.a steps hsteps
    have hlen : 1 ≤ steps.length := by
      cases steps with
      | nil => exact absurd rfl hsne
      | cons _ _ => simp
    rcases acceptedChain_bound (catalog.filter isEnabled) item steps hsteps us flow g hitem hstep
      hchain with h | ⟨n1, m, _, _, h1, hle, hm⟩
    · rw [h]
      exact hlen
    · omega

/-- C36 at the two-step topic: from step 1 the accepted answer はい leads to
step 2, and no run of two accepted answers keeps the flow alive. -/
theorem C36_flow_progress_witness :
    turn exampleTwoStepCatalog exampleStep1State "はい".toList =
      .respond { reply := "前回はいつですか？".toList, source := "faq_flow".toList
                 faq_flow := some exampleStep2Flow, suggest_end := false
                 reply_options := none } ∧
    ∀ us g, AcceptedChain (exampleTwoStepCatalog.filter isEnabled) exampleStep1Flow us g →
      us.length < 2 :=
  ⟨rfl,
   (C36_flow_progress exampleTwoStepCatalog exampleStep1State "はい".toList exampleStep1Flow
      { q := "検診を受けたい".toList
        a := "[[step1 expect=yesno slot=first]]初めてですか？[[step2 expect=when slot=since]]前回はいつですか？".toList
        k := "検診".toList
        enabled := none }
      exampleTwoSteps 1 rfl
      (fun props xs h => by
        cases h
        show some (JVal.obj []) ≠ some (JVal.arr xs)
        intro h2
        cases h2)
      (by decide) (by decide) (by decide)
      (fun top h => by
        have hnil : pickRelevantFaq (exampleTwoStepCatalog.filter isEnabled)
            (normalizeUserInput "はい".toList) 5 = [] := by decide
        rw [hnil] at h
        exact absurd h (by simp))
      rfl rfl).2.1⟩

/-! ### The scan of `advanceSteps` from any number -/

theorem JNum.not_whole_pred (x : JNum) (h : x.toIndex = none) :
    (x.addInt (-1)).toIndex = none := by
  cases hk : (x.addInt (-1)).toIndex with
  | none => rfl
  | some k =>
    rw [(JNum.whole_of_pred x k hk).1] at h
    exact absurd h (by simp)

theorem advanceSteps_not_whole (steps : List FlowStep) (flow : Flow) (x : JNum)
    (h1 : x.ltInt 1 = false) (hx : x.toIndex = none) :
    advanceSteps steps flow x =
      if x.leInt steps.length then .error .typeError else .ok closingAdvanced := by
  have hmax : JNum.maxInt 1 x = x := by
    unfold JNum.maxInt
    rw [h1]
    rfl
  have hget : indexAt steps (x.addInt (-1)) = none := by
    unfold indexAt
    rw [JNum.not_whole_pred x hx]
  unfold advanceSteps
  rw [hmax, advanceLoop, hget]

theorem advanceSteps_below_one (steps : List FlowStep) (flow : Flow) (x : JNum)
    (h1 : x.ltInt 1 = true) :
    advanceSteps steps flow x = advanceSteps steps flow (JNum.ofInt 1) := by
  unfold advanceSteps
  have hmax : JNum.maxInt 1 x = JNum.ofInt 1 := by
    unfold JNum.maxInt
    rw [h1]
    rfl
  rw [hmax, JNum.maxInt_ofInt]
  rfl

/-- C3 fails in the code for a `startFrom` that is not whole: with three
steps, `advanceSteps` from 2.5 reads `st.tag` of `steps[1.5]`, which is
`undefined`, and throws a `TypeError`, where the claim names the result at
step 3. A continuation turn whose incoming step is 1.5 makes this call. -/
theorem C3_fractional_start_counterexample :
    exampleThreeSteps.length = 3 ∧
    advanceSteps exampleThreeSteps exampleFilledFlow ⟨25, 1⟩ = .error .typeError ∧
    (JNum.mk 15 1).addInt 1 = ⟨25, 1⟩ :=
  ⟨rfl, rfl, by decide⟩

/-- C3. `advanceSteps(steps, flow, startFrom)` for a flow whose slots are a
plain object. For a whole `startFrom`, with `m = max(1, startFrom)`: if no
step numbered `m` or later stops the scan, the result is the generic closing
message with `newFlow` null and `suggest_end` true; if `j` is the least step
number from `m` on whose step stops the scan (it is tagged `final`, has no
slot, or has a slot that is not filled), the result is that step's text, with
`newFlow` null and `suggest_end` true when the step is `final`, and otherwise
with `suggest_end` false and
`newFlow = { key: flow.key, step: j, slots: flow.slots }`; every step skipped
before `j` has a slot that is filled. A `startFrom` below 1 scans from 1. For
a `startFrom` of 1 or more that is not whole, nothing is returned when
`startFrom` is at most the number of steps: the scan throws a `TypeError`;
beyond the number of steps the result is the closing message. -/
theorem C3_advanceSteps_result (steps : List FlowStep) (flow : Flow) :
    (∀ startFrom : Int,
      ((∀ j st, (max 1 startFrom).toNat ≤ j → steps.get? (j - 1) = some st →
          stepStops flow st = false) →
        advanceSteps steps flow (JNum.ofInt startFrom) = .ok closingAdvanced) ∧
      (∀ j st, (max 1 startFrom).toNat ≤ j → steps.get? (j - 1) = some st →
        stepStops flow st = true →
        (∀ i st', (max 1 startFrom).toNat ≤ i → i < j → steps.get? (i - 1) = some st' →
          stepStops flow st' = false) →
        advanceSteps steps flow (JNum.ofInt startFrom) = .ok (advancedAt flow j st) ∧
        (∀ i st', (max 1 startFrom).toNat ≤ i → i < j → steps.get? (i - 1) = some st' →
          (metaGet st' "slot".toList).isEmpty = false ∧
            slotFilled flow.slots (metaGet st' "slot".toList) = true))) ∧
    (∀ x : JNum, x.ltInt 1 = true →
      advanceSteps steps flow x = advanceSteps steps flow (JNum.ofInt 1)) ∧
    (∀ x : JNum, x.ltInt 1 = false → x.toIndex = none →
      advanceSteps steps flow x =
        if x.leInt steps.length then .error .typeError else .ok closingAdvanced) :=
  ⟨fun startFrom => advanceSteps_least_stop steps flow startFrom,
   fun x h1 => advanceSteps_below_one steps flow x h1,
   fun x h1 hx => advanceSteps_not_whole steps flow x h1 hx⟩

/-- C3 at the three-step example: with slot `a` filled, the scan from 0 skips
step 1 and stops at step 2, which declares no slot; the scan from 2.5 throws. -/
theorem C3_advanceSteps_witness :
    advanceSteps exampleThreeSteps exampleFilledFlow (JNum.ofInt 0) =
      .ok { reply := "Y".toList
            newFlow := some { key := "k".toList, step := JNum.ofInt 2
                              slots := [("a".toList, .str "yes".toList)] }
            suggest_end := false
            reply_options := none } ∧
    advanceSteps exampleThreeSteps exampleFilledFlow ⟨25, 1⟩ = .error .typeError :=
  ⟨(((C3_advanceSteps_result exampleThreeSteps exampleFilledFlow).1 0).2 2
    { tag := "step2".toList, text := "Y".toList, meta := [] } (by decide) rfl (by decide)
    (fun i st' hi hlt hget => by
      have hi1 : i = 1 := by
        have : (max 1 (0 : Int)).toNat = 1 := by decide
        omega
      subst hi1
      simp only [exampleThreeSteps, List.get?, Option.some.injEq] at hget
      subst hget
      decide)).1,
   (C3_advanceSteps_result exampleThreeSteps exampleFilledFlow).2.2 ⟨25, 1⟩ (by decide)
     (by decide)⟩

end MinamiChat
